import Mathlib

/-!
# Verification of the airule selective clear-and-copy engine

A shallow embedding of the core of the `airule` repository: the `finder`
package (`FindFiles`, `shouldInclude`) and the `copier` package
(`matchesAnyPattern`, `checkPreservationRecursiveWithBase`,
`clearDestinationDir`, `CopyFiles`, `copyFile`, `copyDir`), together with
theorems settling the specification claims about them.

Strings are modelled by their lists of unicode scalars (`String.data`);
UTF-8 encoding preserves order, prefixes and suffixes, so Go's byte-level
string operations correspond to list operations on the scalar lists.
Filesystem trees are finite trees of named nodes; relative paths are lists
of name components, which is faithful for the paths `filepath.WalkDir`
produces because real directory entries are nonempty, slash-free and
pairwise distinct.
-/

/-- The scalar list of a Go string. -/
def chars (s : String) : List Char := s.data

/-- `getEsc` from Go `path/filepath`: read one (possibly backslash-escaped)
character of a character-class body. `none` models `ErrBadPattern`: empty
input, `-` or `]` in character position, a trailing backslash, or nothing
left after the character. -/
def getEsc : List Char → Option (Char × List Char)
  | [] => none
  | '-' :: _ => none
  | ']' :: _ => none
  | '\\' :: rest =>
      match rest with
      | [] => none
      | c :: rest' => if rest' = [] then none else some (c, rest')
  | c :: rest => if rest = [] then none else some (c, rest)

/-- Character-class matcher, following the `[` case of Go
`filepath.Match`'s `matchChunk`: a sequence of ranges (single characters or
`lo-hi` spans), at least one, closed by `]`. Returns whether `r` falls in
some range, with the pattern remainder after `]`; `none` models
`ErrBadPattern`. Every step consumes at least one pattern character, so the
fuel supplied by `goMatchF` (the chunk length plus one) always suffices. -/
def classMatchF : Nat → List Char → Char → Bool → Bool → Option (Bool × List Char)
  | 0, _, _, _, _ => none
  | fuel + 1, chunk, r, found, seen =>
    match chunk with
    | ']' :: rest => if seen then some (found, rest) else none
    | _ =>
      match getEsc chunk with
      | none => none
      | some (lo, c1) =>
        match c1 with
        | '-' :: c2 =>
          match getEsc c2 with
          | none => none
          | some (hi, c3) =>
              classMatchF fuel c3 r (found || (decide (lo ≤ r) && decide (r ≤ hi))) true
        | _ => classMatchF fuel c1 r (found || decide (lo = r)) true

/-- Go `filepath.Match` with the Unix separator `/`: `*` matches a run of
non-separator characters, `?` one non-separator character, `[...]` a
character class (which, as in Go, may match `/`), `\\` escapes the next
character, and anything else matches itself; the whole name must be
consumed. A malformed pattern yields `false`, exactly as every call site in
the repository discards the `ErrBadPattern` result and treats the pair as
not matching. Every recursive call decreases `pattern.length + name.length`
by at least one, so the fuel supplied by `goMatch` always suffices. -/
def goMatchF : Nat → List Char → List Char → Bool
  | 0, _, _ => false
  | _ + 1, [], name => name.isEmpty
  | fuel + 1, '*' :: ps, name =>
      goMatchF fuel ps name ||
        (match name with
         | [] => false
         | c :: cs => decide (c ≠ '/') && goMatchF fuel ('*' :: ps) cs)
  | fuel + 1, '?' :: ps, name =>
      match name with
      | [] => false
      | c :: cs => decide (c ≠ '/') && goMatchF fuel ps cs
  | fuel + 1, '[' :: ps, name =>
      match name with
      | [] => false
      | c :: cs =>
        let negated := ps.head? = some '^'
        let body := if negated then ps.tail else ps
        match classMatchF (body.length + 1) body c false false with
        | none => false
        | some (found, rest) => (found != negated) && goMatchF fuel rest cs
  | fuel + 1, '\\' :: ps, name =>
      match ps, name with
      | [], _ => false
      | _ :: _, [] => false
      | e :: ps', c :: cs => decide (c = e) && goMatchF fuel ps' cs
  | fuel + 1, p :: ps, name =>
      match name with
      | [] => false
      | c :: cs => decide (c = p) && goMatchF fuel ps cs

/-- `filepath.Match(pattern, name)` with the error discarded. -/
def goMatch (pattern name : List Char) : Bool :=
  goMatchF (pattern.length + name.length + 1) pattern name

/-- `strings.TrimSuffix`: drop `suf` once when `s` ends with it. -/
def trimSuffix (s suf : List Char) : List Char :=
  if suf.isSuffixOf s then s.take (s.length - suf.length) else s

/-- `filepath.Base` on Unix: strip trailing separators, then keep what
follows the last separator; `""` gives `"."`, all-separators gives `"/"`. -/
def goBase (path : List Char) : List Char :=
  if path = [] then ['.']
  else
    let p := (path.reverse.dropWhile (fun c => c = '/')).reverse
    if p = [] then ['/']
    else (p.reverse.takeWhile (fun c => c ≠ '/')).reverse

/-- Join components with `/` separators. -/
def joinChars : List (List Char) → List Char
  | [] => []
  | [s] => s
  | s :: rest => s ++ '/' :: joinChars rest

/-- `filepath.Clean` on Unix, by the standard component algorithm: drop
empty and `.` components, let `..` pop a preceding component (except past
the root of a rooted path, or onto another `..` of a relative one), and
re-join; an empty result is `.` (or `/` when rooted). -/
def goClean (path : List Char) : List Char :=
  if path = [] then ['.']
  else
    let rooted := path.head? = some '/'
    let comps := (List.splitOn '/' path).filter (fun c => c ≠ [] && c ≠ ['.'])
    let out := comps.foldl
      (fun acc c =>
        if c = ['.', '.'] then
          match acc with
          | [] => if rooted then [] else [c]
          | a :: rest => if a = ['.', '.'] then c :: a :: rest else rest
        else c :: acc) ([] : List (List Char))
    let segs := out.reverse
    if segs = [] then (if rooted then ['/'] else ['.'])
    else (if rooted then ['/'] else []) ++ joinChars segs

/-- `filepath.Dir` on Unix: the prefix through the final separator,
Cleaned; `Clean` of the empty prefix is `"."` when there is no separator. -/
def goDir (path : List Char) : List Char :=
  goClean ((path.reverse.dropWhile (fun c => c ≠ '/')).reverse)

/-- Does the pattern end in `/*` or `/**` (the two directory-scope forms the
repository special-cases)? -/
def suffStar (pattern : List Char) : Bool :=
  ['/', '*'].isSuffixOf pattern || ['/', '*', '*'].isSuffixOf pattern

/-- `matchesAnyPattern(filePath, patterns)` from `internal/copier`: full-path
`filepath.Match`, base-name match when the pattern has no separator, the
`dir/*` / `dir/**` directory-scope forms (prefix of `dir/`, or equal to
`dir`), and a final redundant `filepath.Match` for patterns containing `*`. -/
def matchesAnyPattern (filePath : List Char) (patterns : List String) : Bool :=
  patterns.any fun pat =>
    let pattern := chars pat
    let base := goBase filePath
    let matchPath := goMatch pattern filePath
    let matchBase := !pattern.contains '/' && goMatch pattern base
    matchPath || matchBase ||
      (suffStar pattern &&
        (let dirPattern := trimSuffix (trimSuffix pattern ['*']) ['/']
         (decide (dirPattern ≠ []) && (dirPattern ++ ['/']).isPrefixOf filePath) ||
           decide (filePath = dirPattern))) ||
      (pattern.contains '*' && goMatch pattern filePath)

-- A few concrete checks that the glob embedding behaves like Go's matcher.
example : goMatch (chars "*.go") (chars "a.go") = true := by decide
example : goMatch (chars "*.go") (chars "d/a.go") = false := by decide
example : goMatch (chars "dir/**") (chars "dir/a") = true := by decide
example : goMatch (chars "dir/**") (chars "dir/a/b") = false := by decide
example : goMatch (chars "[a-c]x") (chars "bx") = true := by decide
example : goMatch (chars "[^a-c]x") (chars "dx") = true := by decide
example : goMatch (chars "a[") (chars "a") = false := by decide
example : goMatch (chars "\\*") (chars "*") = true := by decide
example : goBase (chars "a/b.txt") = chars "b.txt" := by decide
example : goBase (chars "///") = chars "/" := by decide
example : goDir (chars "config/*.json") = chars "config" := by decide
example : goDir (chars "a") = chars "." := by decide
example : goClean (chars "a//b/../c/") = chars "a/c" := by decide
example : matchesAnyPattern (chars "config/important.json") ["config/*.json"] = true := by decide
example : matchesAnyPattern (chars "config") ["config/*.json"] = false := by decide
example : matchesAnyPattern (chars "dir/a/b") ["dir/*"] = true := by decide

/-! ## Filesystem trees -/

mutual
/-- A filesystem node: a regular file with its byte content, or a directory
with its entries. -/
inductive FSTree where
  | file (content : String)
  | dir (entries : FSEntries)
/-- Directory entries in enumeration order, as a fused list so that all
recursions over trees are structural. -/
inductive FSEntries where
  | nil
  | cons (name : String) (child : FSTree) (rest : FSEntries)
end

mutual
/-- Resolve a relative path (`os.Stat`/`os.Lstat` on root-joined paths):
`none` when a component is missing or a file is hit mid-path. -/
def lookupT : FSTree → List String → Option FSTree
  | t, [] => some t
  | .file _, _ :: _ => none
  | .dir es, n :: rest => lookupE es n rest
def lookupE : FSEntries → String → List String → Option FSTree
  | .nil, _, _ => none
  | .cons m c tail, n, rest => if m = n then lookupT c rest else lookupE tail n rest
end

mutual
/-- All (path, subtree) pairs strictly below a node, in `filepath.WalkDir`
preorder (a directory before its contents), paths extending `rel`. -/
def nodesT (rel : List String) : FSTree → List (List String × FSTree)
  | .file _ => []
  | .dir es => nodesE rel es
def nodesE (rel : List String) : FSEntries → List (List String × FSTree)
  | .nil => []
  | .cons n c rest => (rel ++ [n], c) :: (nodesT (rel ++ [n]) c ++ nodesE rel rest)
end

mutual
/-- `os.RemoveAll` at a relative path: delete the named entry with its whole
subtree; a missing path is a no-op. -/
def removePath : FSTree → List String → FSTree
  | .dir es, n :: rest => .dir (removePathE es n rest)
  | t, _ => t
def removePathE : FSEntries → String → List String → FSEntries
  | .nil, _, _ => .nil
  | .cons m c tail, n, rest =>
      if m = n then
        match rest with
        | [] => tail
        | _ :: _ => .cons m (removePath c rest) tail
      else .cons m c (removePathE tail n rest)
end

/-- The names listed by a directory. -/
def namesE : FSEntries → List String
  | .nil => []
  | .cons n _ rest => n :: namesE rest

mutual
/-- Real directories never list one name twice; theorems that relate paths
to entries assume this. -/
def nodupT : FSTree → Bool
  | .file _ => true
  | .dir es => nodupE es
def nodupE : FSEntries → Bool
  | .nil => true
  | .cons n c rest => !(namesE rest).contains n && nodupT c && nodupE rest
end

/-! ## The copier's preservation check and destination clear -/

/-- Slash-join path segments, as Go joins walk paths. -/
def joinSegs (segs : List String) : List Char := joinChars (segs.map chars)

/-- `filepath.Rel(baseDir, q)` for the two shapes the preservation walk
produces: `q` extends the destination root `dirSegs` (giving the joined
suffix, `"."` for the root itself), or `q` is an ancestor of the root
(giving a `..` chain). -/
def relString (dirSegs q : List String) : List Char :=
  if dirSegs.isPrefixOf q then
    let suffix := q.drop dirSegs.length
    if suffix = [] then ['.'] else joinSegs suffix
  else joinSegs (List.replicate (dirSegs.length - q.length) "..")

/-- Go's hidden test `len(name) > 0 && name[0] == '.'`. -/
def isHiddenName (s : String) : Bool :=
  match chars s with
  | [] => false
  | c :: _ => c = '.'

/-- Final component of a segment path (`filepath.Base` of the joined path,
for well-formed components). -/
def lastSeg (p : List String) : String := (p.getLast?).getD ""

/-- Step 1 / step 2 body of `checkPreservationRecursiveWithBase` for the
absolute path `q`: hidden base name, or the path relative to the
destination root matches an exclusion pattern. -/
def localHit (dirSegs E q : List String) : Bool :=
  isHiddenName (lastSeg q) || matchesAnyPattern (relString dirSegs q) E

/-- The nonempty proper prefixes of an absolute path: exactly the parents
the Go ancestor loop visits before `filepath.Dir` reaches `/` or `.`. -/
def properPrefixes (p : List String) : List (List String) :=
  (List.range (p.length - 1)).map (fun k => p.take (k + 1))

/-- Step 2 of `checkPreservationRecursiveWithBase`: some ancestor directory
of `baseDir/rel` — the loop runs to the filesystem root, through and past
`baseDir` itself — is hidden or matches an exclusion pattern. -/
def ancLocal (dirSegs E rel : List String) : Bool :=
  (properPrefixes (dirSegs ++ rel)).any (localHit dirSegs E)

/-- Step 3 of `checkPreservationRecursiveWithBase`, before the recursion: a
directory is preserved when a `dir/*` / `dir/**` pattern names it, or when a
pattern containing both a separator and a `*` has it as its
`filepath.Dir` (e.g. `config/*.json` preserves `config`). -/
def dirSpecialHit (E : List String) (relPath : List Char) : Bool :=
  E.any fun pat =>
    let pattern := chars pat
    (suffStar pattern &&
      decide (relPath = trimSuffix (trimSuffix pattern ['*']) ['/'])) ||
    (pattern.contains '/' && pattern.contains '*' && decide (relPath = goDir pattern))

mutual
/-- `checkPreservationRecursiveWithBase(path, baseDir, excludePatterns)`
where `path = baseDir/rel` and the argument is the current subtree there:
preserved when the item is hidden or matches (step 1), an ancestor is
hidden or matches (step 2), or — directories — a pattern names it or a file
inside it (step 3), or some child is preserved, recursively. -/
def checkPres (dirSegs E rel : List String) : FSTree → Bool
  | .file _ => localHit dirSegs E (dirSegs ++ rel) || ancLocal dirSegs E rel
  | .dir es =>
      localHit dirSegs E (dirSegs ++ rel) || ancLocal dirSegs E rel ||
      dirSpecialHit E (relString dirSegs (dirSegs ++ rel)) ||
      checkPresE dirSegs E rel es
def checkPresE (dirSegs E rel : List String) : FSEntries → Bool
  | .nil => false
  | .cons n c rest => checkPres dirSegs E (rel ++ [n]) c || checkPresE dirSegs E rel rest
end

/-- Go sorts the walked paths by `len(path) > len(path')`. The absolute
length is the fixed destination prefix plus, per component, its UTF-8 byte
length and one separator, so comparing this key compares Go's lengths. -/
def pathKey (p : List String) : Nat := p.foldl (fun a s => a + s.utf8ByteSize + 1) 0

def keyGE (p q : List String) : Prop := pathKey q ≤ pathKey p

instance : DecidableRel keyGE := fun _ _ => Nat.decLe _ _

instance : IsTotal (List String) keyGE :=
  ⟨fun a b => Nat.le_total (pathKey b) (pathKey a)⟩

instance : IsTrans (List String) keyGE :=
  ⟨fun _ _ _ h1 h2 => Nat.le_trans h2 h1⟩

/-- The `sort.Slice` comparing byte lengths, descending: children before
parents. Go's sort is unstable; ties carry no ancestor relation, and no
theorem below depends on their order. -/
def sortDescByKey (ps : List (List String)) : List (List String) :=
  List.insertionSort keyGE ps

/-- One iteration of `clearDestinationDir`'s removal loop: skip a path that
no longer exists, keep it when the preservation check succeeds, otherwise
`os.RemoveAll` it. -/
def sweepStep (dirSegs E : List String) (t : FSTree) (p : List String) : FSTree :=
  match lookupT t p with
  | none => t
  | some sub => if checkPres dirSegs E p sub then t else removePath t p

/-- `clearDestinationDir(dir, excludePatterns)` on an existing destination
tree: collect every walked path, sort longest-first, then sweep.
`dirSegs` is the destination directory's own path, component by component,
as given to the call. -/
def clearDestinationDir (dirSegs E : List String) (t : FSTree) : FSTree :=
  (sortDescByKey ((nodesT [] t).map Prod.fst)).foldl (sweepStep dirSegs E) t

/-! ## Flattened preservation -/

mutual
/-- Some node of the subtree rooted at `rel` (that node included) has a
local preservation reason: hidden name, pattern match, or — directories —
one of the step-3 pattern forms. -/
def anyLocalT (dirSegs E rel : List String) : FSTree → Bool
  | .file _ => localHit dirSegs E (dirSegs ++ rel)
  | .dir es =>
      localHit dirSegs E (dirSegs ++ rel) ||
      dirSpecialHit E (relString dirSegs (dirSegs ++ rel)) ||
      anyLocalE dirSegs E rel es
def anyLocalE (dirSegs E rel : List String) : FSEntries → Bool
  | .nil => false
  | .cons n c rest => anyLocalT dirSegs E (rel ++ [n]) c || anyLocalE dirSegs E rel rest
end

/-- Flattened preservation: some ancestor of the absolute path has a local
hit, or some node of the subtree has one. Proven below to equal
`checkPres`. -/
def preservedP (dirSegs E rel : List String) (sub : FSTree) : Bool :=
  ancLocal dirSegs E rel || anyLocalT dirSegs E rel sub

/-- `preservedP` read off the original tree at path `q`. -/
def P0at (dirSegs E : List String) (t : FSTree) (q : List String) : Bool :=
  match lookupT t q with
  | some sub => preservedP dirSegs E q sub
  | none => false

mutual
/-- Keep exactly the entries whose paths satisfy `K`, recursively; dropping
an entry drops its whole subtree. -/
def filterT (K : List String → Bool) (rel : List String) : FSTree → FSTree
  | .file c => .file c
  | .dir es => .dir (filterE K rel es)
def filterE (K : List String → Bool) (rel : List String) : FSEntries → FSEntries
  | .nil => .nil
  | .cons n c rest =>
      if K (rel ++ [n]) then .cons n (filterT K (rel ++ [n]) c) (filterE K rel rest)
      else filterE K rel rest
end

/-- The local preservation rule exactly as claim C1 words it: hidden base
name, a `matchesAnyPattern` hit on the relative path, or a hidden/matching
ancestor strictly between the path and the destination root (root
excluded). -/
def specC1Local (E rel : List String) : Bool :=
  isHiddenName (lastSeg rel) || matchesAnyPattern (joinSegs rel) E ||
    (properPrefixes rel).any
      (fun q => isHiddenName (lastSeg q) || matchesAnyPattern (joinSegs q) E)

mutual
/-- Preservation exactly as claim C1 states it: a local reason as above,
or — directories — some descendant preserved, recursively. It lacks the
code's step-3 pattern-directory forms and stops the ancestor walk strictly
below the destination root. -/
def specC1PresT (E rel : List String) : FSTree → Bool
  | .file _ => specC1Local E rel
  | .dir es => specC1Local E rel || specC1PresE E rel es
def specC1PresE (E rel : List String) : FSEntries → Bool
  | .nil => false
  | .cons n c rest => specC1PresT E (rel ++ [n]) c || specC1PresE E rel rest
end

/-! ## The finder -/

/-- The per-pattern test that both loops of `finder.shouldInclude` apply:
full-path `filepath.Match`, base-name match when the pattern has no
separator, or `dir/*` / `dir/**` directory scope. -/
def finderPatternHit (pat : String) (path : List Char) : Bool :=
  let pattern := chars pat
  let base := goBase path
  goMatch pattern path ||
    (!pattern.contains '/' && goMatch pattern base) ||
    (suffStar pattern &&
      (let dirPattern := trimSuffix (trimSuffix pattern ['*']) ['/']
       (decide (dirPattern ≠ []) && (dirPattern ++ ['/']).isPrefixOf path) ||
         decide (path = dirPattern)))

/-- `finder.shouldInclude`: an exclude hit always loses the path; with no
include patterns everything else passes; otherwise some include must hit. -/
def shouldInclude (path : List Char) (includes excludes : List String) : Bool :=
  if excludes.any (fun pat => finderPatternHit pat path) then false
  else if includes.isEmpty then true
  else includes.any (fun pat => finderPatternHit pat path)

/-- The directory-exclusion test of `FindFiles`'s walk callback: a plain
`filepath.Match` on the relative path, or the `dir/*` / `dir/**` scope
forms; a hit prunes the whole subtree (`fs.SkipDir`). -/
def isDirExcluded (relPath : List Char) (excludes : List String) : Bool :=
  excludes.any fun pat =>
    let pattern := chars pat
    goMatch pattern relPath ||
      (suffStar pattern &&
        (let dirPattern := trimSuffix (trimSuffix pattern ['*']) ['/']
         (decide (dirPattern ≠ []) && (dirPattern ++ ['/']).isPrefixOf relPath) ||
           decide (relPath = dirPattern)))

mutual
/-- The `filepath.WalkDir` phase of `FindFiles` below the root: files that
pass `shouldInclude`, with excluded directories' subtrees skipped whole. -/
def walkFoundT (inc exc rel : List String) : FSTree → List (List String)
  | .file _ => if shouldInclude (joinSegs rel) inc exc then [rel] else []
  | .dir es =>
      if isDirExcluded (joinSegs rel) exc then [] else walkFoundE inc exc rel es
def walkFoundE (inc exc rel : List String) : FSEntries → List (List String)
  | .nil => []
  | .cons n c rest => walkFoundT inc exc (rel ++ [n]) c ++ walkFoundE inc exc rel rest
end

/-- The walk from the root, which itself is skipped before any check. -/
def findWalk (inc exc : List String) : FSTree → List (List String)
  | .file _ => []
  | .dir es => walkFoundE inc exc [] es

/-- Descending order on path strings. Go compares bytes; on valid UTF-8
that is the scalar-lexicographic order used here. -/
def lexGE (a b : List Char) : Prop := b ≤ a

instance : DecidableRel lexGE := fun a b => inferInstanceAs (Decidable (b ≤ a))

instance : IsTotal (List Char) lexGE := ⟨fun a b => le_total b a⟩

instance : IsTrans (List Char) lexGE := ⟨fun _ _ _ h1 h2 => le_trans h2 h1⟩

/-- `sort.Sort(sort.Reverse(sort.StringSlice(...)))`. -/
def sortStrDesc (l : List (List Char)) : List (List Char) :=
  List.insertionSort lexGE l

/-- The result list of a successful `FindFiles` call: included files, plus
every ancestor directory of an included file that is not itself excluded
(tested as `shouldInclude(dir, ["*"], excludes)`), de-duplicated and sorted
in descending order. -/
def findList (t : FSTree) (includes excludes : List String) : List (List Char) :=
  let found := findWalk includes excludes t
  let parentDirs := (found.flatMap properPrefixes).dedup
  let files := found.map joinSegs
  let dirs :=
    (parentDirs.filter (fun d => shouldInclude (joinSegs d) ["*"] excludes)).map joinSegs
  sortStrDesc (files ++ dirs).dedup

/-- The one error `FindFiles` produces before walking. -/
inductive FindError where
  | notFound

/-- `finder.FindFiles(rootDir, includes, excludes)`: a missing root fails
with the `os.Stat` NotFound error and a nil result; otherwise the walk
result is returned. -/
def FindFiles (root : Option FSTree) (includes excludes : List String) :
    Except FindError (List (List Char)) :=
  match root with
  | none => .error .notFound
  | some t => .ok (findList t includes excludes)

/-! ## The copier's copy operations -/

/-- The directory chain `os.MkdirAll` manufactures for the missing part of a
parent path, ending in the file being written. -/
def chainFile : List String → String → FSTree
  | [], content => .file content
  | n :: rest, content => .dir (.cons n (chainFile rest content) .nil)

/-- `copier.copyFile(fromDir/p, toDir/p)` acting on the destination tree:
`os.MkdirAll` of the parent chain — which fails when a file occupies a
component (`ENOTDIR` is not `IsNotExist`) — then create/truncate the file,
which fails when a directory sits at `p` itself. `none` is the error case;
it aborts the whole `CopyFiles` call. Permission bits are not modelled. -/
def setFileE : FSEntries → String → List String → String → Option FSEntries
  | .nil, n, rest, content => some (.cons n (chainFile rest content) .nil)
  | .cons m c tail, n, rest, content =>
      if m = n then
        match rest, c with
        | [], .dir _ => none
        | [], .file _ => some (.cons m (.file content) tail)
        | _ :: _, .file _ => none
        | r :: rs, .dir ces =>
            (setFileE ces r rs content).map (fun ces' => .cons m (.dir ces') tail)
      else (setFileE tail n rest content).map (fun tail' => .cons m c tail')

/-- `copyFile` at a relative destination path (nonempty; the destination
root is a directory when copying starts). -/
def setFileT : FSTree → List String → String → Option FSTree
  | .dir es, n :: rest, content => (setFileE es n rest content).map FSTree.dir
  | _, _, _ => none

/-- The localized clear inside `copier.copyDir`: an existing destination
directory keeps only its hidden entries, everything else is `RemoveAll`d. -/
def keepHiddenE : FSEntries → FSEntries
  | .nil => .nil
  | .cons n c rest =>
      if isHiddenName n then .cons n c (keepHiddenE rest) else keepHiddenE rest

/-- First entry with the given name, if any (`os.Stat` of one component). -/
def findE : FSEntries → String → Option FSTree
  | .nil, _ => none
  | .cons m c rest, n => if m = n then some c else findE rest n

/-- Replace the first entry with the given name, or append a new one. -/
def upsertE : FSEntries → String → FSTree → FSEntries
  | .nil, n, t => .cons n t .nil
  | .cons m c tail, n, t =>
      if m = n then .cons m t tail else .cons m c (upsertE tail n t)

/-- Writing one file inside `copyDir`: the parent directory already exists,
so only the final create/truncate can fail (on a directory entry). -/
def putFileE (des : FSEntries) (n : String) (content : String) : Option FSEntries :=
  match findE des n with
  | some (.dir _) => none
  | _ => some (upsertE des n (.file content))

mutual
/-- `copier.copyDir(src, dst)`: a destination file makes `os.ReadDir` fail;
an existing destination directory first loses its non-hidden entries; a
missing one is created. Then every source entry is copied in — files via
`copyFile`, directories recursively. The source is a directory at every
call site (`os.Stat(...).IsDir()` guards the top call, `entry.IsDir()` the
recursion), so a file source is mapped to the error case. -/
def copyDirT : FSTree → Option FSTree → Option FSTree
  | _, some (.file _) => none
  | .dir ses, some (.dir des) => (copyEntries ses (keepHiddenE des)).map .dir
  | .dir ses, none => (copyEntries ses .nil).map .dir
  | .file _, _ => none
def copyEntries : FSEntries → FSEntries → Option FSEntries
  | .nil, des => some des
  | .cons n c rest, des =>
      match c with
      | .file content =>
          match putFileE des n content with
          | none => none
          | some des' => copyEntries rest des'
      | .dir _ =>
          match copyDirT c (findE des n) with
          | none => none
          | some sub => copyEntries rest (upsertE des n sub)
end

/-- The directory chain `os.MkdirAll` creates above a missing destination
directory, ending in the copied subtree. -/
def chainDir : List String → FSTree → FSTree
  | [], t => t
  | n :: rest, t => .dir (.cons n (chainDir rest t) .nil)

mutual
/-- The directory branch of `CopyFiles`: `copyDir(fromDir/r, toDir/r)`. The
descent to position `r` sees what `os.Stat(toDir/r)` sees: a file on the
way is a hard error (`ENOTDIR` is not `IsNotExist`), while a missing
remainder of the chain is created by `os.MkdirAll` and the copy lands in
the fresh empty directory. -/
def copyDirAtT (src : FSTree) : FSTree → List String → Option FSTree
  | cur, [] => copyDirT src (some cur)
  | .dir es, n :: rest => (copyDirAtE src es n rest).map FSTree.dir
  | .file _, _ :: _ => none
def copyDirAtE (src : FSTree) : FSEntries → String → List String → Option FSEntries
  | .nil, n, rest =>
      match copyDirT src none with
      | none => none
      | some sub => some (.cons n (chainDir rest sub) .nil)
  | .cons m c tail, n, rest =>
      if m = n then
        match rest with
        | [] => (copyDirT src (some c)).map (fun sub => .cons m sub tail)
        | _ :: _ => (copyDirAtT src c rest).map (fun sub => .cons m sub tail)
      else (copyDirAtE src tail n rest).map (fun tail' => .cons m c tail')
end

/-- The copy loop of `copier.CopyFiles`: for each listed relative path,
`os.Stat` the source (failure aborts), then copy a directory via `copyDir`
or a file via `copyFile`; the first error aborts the remaining copies. -/
def copyAll (src : FSTree) : FSTree → List (List String) → Option FSTree
  | cur, [] => some cur
  | cur, r :: rs =>
      match lookupT src r with
      | none => none
      | some (.dir ses) =>
          match copyDirAtT (.dir ses) cur r with
          | none => none
          | some cur' => copyAll src cur' rs
      | some (.file content) =>
          match setFileT cur r content with
          | none => none
          | some cur' => copyAll src cur' rs

/-- `copier.CopyFiles(fromDir, toDir, relativePaths, cleanDest,
cleanExcludePatterns)`. The destination may not exist (`none`). With
`cleanDest` the destination is cleared (a missing one is created empty; a
walk of a plain file visits only the skipped root, leaving it in place);
otherwise `os.MkdirAll(toDir)` runs, failing on a file. `dirSegs` is
toDir's own path, used by the preservation check's ancestor walk. `none`
models an aborted call. -/
def CopyFiles (src : FSTree) (dst : Option FSTree) (relativePaths : List (List String))
    (cleanDest : Bool) (E dirSegs : List String) : Option FSTree :=
  match
    (if cleanDest then
      some (match dst with
            | none => FSTree.dir .nil
            | some t => clearDestinationDir dirSegs E t)
     else
      match dst with
      | none => some (FSTree.dir .nil)
      | some (FSTree.dir es) => some (FSTree.dir es)
      | some (FSTree.file _) => none)
  with
  | none => none
  | some t0 => copyAll src t0 relativePaths

/-- The observable kind of a destination path: absent, a file with its
content, or a directory. Trees with the same `kindAt` everywhere carry the
same set of relative paths with identical file contents. -/
def kindAt (t : FSTree) (p : List String) : Option (Option String) :=
  match lookupT t p with
  | none => none
  | some (.file c) => some (some c)
  | some (.dir _) => some none

/-! ## Basic path lemmas -/

theorem pathKey_foldl_shift (i : Nat) (ys : List String) :
    List.foldl (fun a s => a + s.utf8ByteSize + 1) i ys = i + pathKey ys := by
  induction ys generalizing i with
  | nil => simp [pathKey]
  | cons y ys ih =>
      show List.foldl _ (i + y.utf8ByteSize + 1) ys = i + pathKey (y :: ys)
      have h2 : pathKey (y :: ys) = (0 + y.utf8ByteSize + 1) + pathKey ys := by
        show List.foldl _ (0 + y.utf8ByteSize + 1) ys = _
        rw [ih]
      rw [ih, h2]; omega

theorem pathKey_append (xs ys : List String) :
    pathKey (xs ++ ys) = pathKey xs + pathKey ys := by
  show List.foldl _ 0 (xs ++ ys) = _
  rw [List.foldl_append, pathKey_foldl_shift]
  rfl

theorem pathKey_lt_of_proper (q p : List String) (hpre : q <+: p) (hne : q ≠ p) :
    pathKey q < pathKey p := by
  obtain ⟨s, rfl⟩ := hpre
  match s with
  | [] => simp at hne
  | x :: s' =>
      rw [pathKey_append]
      have : 0 < pathKey (x :: s') := by
        have h2 : pathKey (x :: s') = (0 + x.utf8ByteSize + 1) + pathKey s' := by
          show List.foldl _ (0 + x.utf8ByteSize + 1) s' = _
          rw [pathKey_foldl_shift]
        omega
      omega

theorem properPrefixes_snoc (xs : List String) (x : String) (h : xs ≠ []) :
    properPrefixes (xs ++ [x]) = properPrefixes xs ++ [xs] := by
  unfold properPrefixes
  have hlen : (xs ++ [x]).length - 1 = xs.length := by simp
  rw [hlen]
  have hx : xs.length = (xs.length - 1) + 1 := by
    cases xs with
    | nil => exact absurd rfl h
    | cons a l => simp
  rw [hx, List.range_succ, List.map_append]
  congr 1
  · apply List.map_congr_left
    intro k hk
    rw [List.mem_range] at hk
    rw [List.take_append_eq_append_take]
    have : k + 1 - xs.length = 0 := by omega
    simp [this]
  · simp only [List.map_cons, List.map_nil]
    congr 1
    rw [List.take_append_eq_append_take]
    have h1 : xs.length - 1 + 1 - xs.length = 0 := by omega
    have h2 : xs.length - 1 + 1 = xs.length := by omega
    simp [h1, h2]

theorem ancLocal_snoc (dirSegs E rel : List String) (n : String)
    (h : dirSegs ++ rel ≠ []) :
    ancLocal dirSegs E (rel ++ [n]) =
      (ancLocal dirSegs E rel || localHit dirSegs E (dirSegs ++ rel)) := by
  unfold ancLocal
  rw [show dirSegs ++ (rel ++ [n]) = (dirSegs ++ rel) ++ [n] by simp]
  rw [properPrefixes_snoc _ _ h, List.any_append]
  simp

/-! ## Flattening the preservation recursion -/

mutual
theorem checkPres_flat (dirSegs E : List String) :
    ∀ (t : FSTree) (rel : List String), dirSegs ++ rel ≠ [] →
      checkPres dirSegs E rel t = preservedP dirSegs E rel t := by
  intro t rel h
  cases t with
  | file c => simp [checkPres, preservedP, anyLocalT, Bool.or_comm]
  | dir es =>
      have hE := checkPresE_flat dirSegs E es rel h
      simp only [checkPres, preservedP, anyLocalT]
      cases hL : localHit dirSegs E (dirSegs ++ rel) <;>
        cases hA : ancLocal dirSegs E rel <;>
          simp_all <;> simp [hL, hA] at hE <;> simp [hE]
theorem checkPresE_flat (dirSegs E : List String) :
    ∀ (es : FSEntries) (rel : List String), dirSegs ++ rel ≠ [] →
      (checkPresE dirSegs E rel es || ancLocal dirSegs E rel ||
        localHit dirSegs E (dirSegs ++ rel)) =
      (anyLocalE dirSegs E rel es || ancLocal dirSegs E rel ||
        localHit dirSegs E (dirSegs ++ rel)) := by
  intro es rel h
  cases es with
  | nil => rfl
  | cons n c rest =>
      have hT := checkPres_flat dirSegs E c (rel ++ [n])
        (by intro hc; simp at hc)
      have hR := checkPresE_flat dirSegs E rest rel h
      simp only [checkPresE, anyLocalE]
      rw [hT]
      unfold preservedP
      rw [ancLocal_snoc dirSegs E rel n h]
      cases hL : localHit dirSegs E (dirSegs ++ rel) <;>
        cases hA : ancLocal dirSegs E rel <;>
          simp_all <;> simp [hL, hA] at hR <;> simp [hR]
end

/-! ## Lookup and node-enumeration lemmas -/

theorem lookupE_append_aux (n : String) (a' b : List String)
    (hT : ∀ (c : FSTree), lookupT c (a' ++ b) = (lookupT c a').bind (fun c' => lookupT c' b)) :
    ∀ (es : FSEntries),
      lookupE es n (a' ++ b) = (lookupE es n a').bind (fun c => lookupT c b) := by
  intro es
  cases es with
  | nil => simp [lookupE]
  | cons m c tail =>
      by_cases h : m = n
      · simp [lookupE, h, hT]
      · simp [lookupE, h, lookupE_append_aux n a' b hT tail]

theorem lookup_append (a : List String) : ∀ (t : FSTree) (b : List String),
    lookupT t (a ++ b) = (lookupT t a).bind (fun c => lookupT c b) := by
  induction a with
  | nil => intro t b; simp [lookupT]
  | cons n a' ih =>
      intro t b
      cases t with
      | file c => simp [lookupT]
      | dir es => exact lookupE_append_aux n a' b (fun c => ih c b) es

theorem findE_lookupE (n : String) (rest : List String) : ∀ (es : FSEntries),
    lookupE es n rest = (findE es n).bind (fun c => lookupT c rest) := by
  intro es
  cases es with
  | nil => simp [lookupE, findE]
  | cons m c tail =>
      by_cases h : m = n
      · simp [lookupE, findE, h]
      · simp [lookupE, findE, h, findE_lookupE n rest tail]

theorem lookupE_mem_names (n : String) (rest : List String) (c : FSTree) :
    ∀ (es : FSEntries), lookupE es n rest = some c → n ∈ namesE es := by
  intro es h
  cases es with
  | nil => simp [lookupE] at h
  | cons m c' tail =>
      by_cases hm : m = n
      · simp [namesE, hm]
      · simp only [lookupE, hm, if_false] at h
        simp [namesE, lookupE_mem_names n rest c tail h]

theorem removePathE_of_not_mem (n : String) (rest : List String) :
    ∀ (es : FSEntries), n ∉ namesE es → removePathE es n rest = es := by
  intro es h
  cases es with
  | nil => rfl
  | cons m c tail =>
      simp only [namesE, List.mem_cons, not_or] at h
      have hm : m ≠ n := fun he => h.1 he.symm
      simp [removePathE, hm, removePathE_of_not_mem n rest tail h.2]

mutual
theorem nodesT_shape : ∀ (t : FSTree) (rel q : List String) (c : FSTree),
    (q, c) ∈ nodesT rel t → ∃ s, s ≠ [] ∧ q = rel ++ s := by
  intro t rel q c h
  cases t with
  | file _ => simp [nodesT] at h
  | dir es =>
      obtain ⟨m, s, hq, _⟩ := nodesE_shape es rel q c h
      exact ⟨m :: s, by simp, hq⟩
theorem nodesE_shape : ∀ (es : FSEntries) (rel q : List String) (c : FSTree),
    (q, c) ∈ nodesE rel es → ∃ m s, q = rel ++ m :: s ∧ m ∈ namesE es := by
  intro es rel q c h
  cases es with
  | nil => simp [nodesE] at h
  | cons m ch tail =>
      simp only [nodesE, List.mem_cons, List.mem_append] at h
      rcases h with h | h | h
      · have h1 : q = rel ++ [m] := congrArg Prod.fst h
        exact ⟨m, [], h1, by simp [namesE]⟩
      · obtain ⟨s, hs, hq⟩ := nodesT_shape ch (rel ++ [m]) q c h
        cases s with
        | nil => exact absurd rfl hs
        | cons a s' => exact ⟨m, a :: s', by simp [hq], by simp [namesE]⟩
      · obtain ⟨m', s, hq, hm⟩ := nodesE_shape tail rel q c h
        exact ⟨m', s, hq, by simp [namesE, hm]⟩
end

theorem nodupE_cons_iff (m : String) (c : FSTree) (tail : FSEntries) :
    nodupE (.cons m c tail) = true ↔
      m ∉ namesE tail ∧ nodupT c = true ∧ nodupE tail = true := by
  simp only [nodupE, Bool.and_eq_true, Bool.not_eq_true', and_assoc]
  constructor
  · rintro ⟨h1, h2, h3⟩
    exact ⟨fun hmem => by simp [List.elem_iff.mpr hmem] at h1; exact h1 hmem, h2, h3⟩
  · rintro ⟨h1, h2, h3⟩
    refine ⟨?_, h2, h3⟩
    cases hc : (namesE tail).contains m
    · rfl
    · exact absurd (List.elem_iff.mp hc) h1

mutual
theorem nodesT_lookup : ∀ (t : FSTree), nodupT t = true →
    ∀ (rel q : List String) (c : FSTree), (q, c) ∈ nodesT rel t →
      ∃ s, s ≠ [] ∧ q = rel ++ s ∧ lookupT t s = some c := by
  intro t ht rel q c h
  cases t with
  | file _ => simp [nodesT] at h
  | dir es =>
      obtain ⟨n, rest, hq, hl⟩ := nodesE_lookup es ht rel q c h
      exact ⟨n :: rest, by simp, hq, hl⟩
theorem nodesE_lookup : ∀ (es : FSEntries), nodupE es = true →
    ∀ (rel q : List String) (c : FSTree), (q, c) ∈ nodesE rel es →
      ∃ n rest, q = rel ++ n :: rest ∧ lookupE es n rest = some c := by
  intro es hes rel q c h
  cases es with
  | nil => simp [nodesE] at h
  | cons m ch tail =>
      obtain ⟨hm, hch, htail⟩ := (nodupE_cons_iff m ch tail).mp hes
      simp only [nodesE, List.mem_cons, List.mem_append] at h
      rcases h with h | h | h
      · have h1 : q = rel ++ [m] := congrArg Prod.fst h
        have h2 : c = ch := congrArg Prod.snd h
        exact ⟨m, [], h1, by simp [lookupE, h2, lookupT]⟩
      · obtain ⟨s, hs, hq, hl⟩ := nodesT_lookup ch hch (rel ++ [m]) q c h
        cases s with
        | nil => exact absurd rfl hs
        | cons a s' =>
            refine ⟨m, a :: s', by simp [hq], ?_⟩
            simp [lookupE, hl]
      · obtain ⟨n, rest, hq, hl⟩ := nodesE_lookup tail htail rel q c h
        have hne : m ≠ n := fun he => hm (he ▸ lookupE_mem_names n rest c tail hl)
        exact ⟨n, rest, hq, by simp [lookupE, hne, hl]⟩
end

mutual
theorem lookup_nodesT : ∀ (t : FSTree) (rel s : List String) (c : FSTree), s ≠ [] →
    lookupT t s = some c → (rel ++ s, c) ∈ nodesT rel t := by
  intro t rel s c hs hl
  cases t with
  | file f =>
      cases s with
      | nil => exact absurd rfl hs
      | cons n rest => simp [lookupT] at hl
  | dir es =>
      cases s with
      | nil => exact absurd rfl hs
      | cons n rest => exact lookupE_nodesE es rel n rest c hl
theorem lookupE_nodesE : ∀ (es : FSEntries) (rel : List String) (n : String)
    (rest : List String) (c : FSTree),
    lookupE es n rest = some c → (rel ++ n :: rest, c) ∈ nodesE rel es := by
  intro es rel n rest c hl
  cases es with
  | nil => simp [lookupE] at hl
  | cons m ch tail =>
      by_cases hm : m = n
      · subst hm
        simp only [lookupE, if_pos rfl] at hl
        cases rest with
        | nil =>
            simp only [lookupT] at hl
            cases hl
            simp [nodesE]
        | cons a rest' =>
            have := lookup_nodesT ch (rel ++ [m]) (a :: rest') c (by simp) hl
            simp only [nodesE, List.mem_cons, List.mem_append]
            right; left
            simpa using this
      · simp only [lookupE, hm, if_false] at hl
        simp only [nodesE, List.mem_cons, List.mem_append]
        right; right
        exact lookupE_nodesE tail rel n rest c hl
end

mutual
theorem nodesT_paths_nodup : ∀ (t : FSTree), nodupT t = true →
    ∀ (rel : List String), ((nodesT rel t).map Prod.fst).Nodup := by
  intro t ht rel
  cases t with
  | file _ => simp [nodesT]
  | dir es => exact nodesE_paths_nodup es ht rel
theorem nodesE_paths_nodup : ∀ (es : FSEntries), nodupE es = true →
    ∀ (rel : List String), ((nodesE rel es).map Prod.fst).Nodup := by
  intro es hes rel
  cases es with
  | nil => simp [nodesE]
  | cons m ch tail =>
      obtain ⟨hm, hch, htail⟩ := (nodupE_cons_iff m ch tail).mp hes
      simp only [nodesE, List.map_cons, List.map_append]
      refine List.Nodup.cons ?_ (List.Nodup.append
        (nodesT_paths_nodup ch hch (rel ++ [m]))
        (nodesE_paths_nodup tail htail rel) ?_)
      · intro hmem
        rw [List.mem_append] at hmem
        rcases hmem with hmem | hmem
        · rw [List.mem_map] at hmem
          obtain ⟨⟨q, c⟩, hqc, hq⟩ := hmem
          obtain ⟨s, hs, hqs⟩ := nodesT_shape ch (rel ++ [m]) q c hqc
          simp only at hq
          rw [hqs] at hq
          have hnil : s = [] := by
            have h3 := hq
            conv_rhs at h3 => rw [← List.append_nil (rel ++ [m])]
            exact List.append_cancel_left h3
          exact hs hnil
        · rw [List.mem_map] at hmem
          obtain ⟨⟨q, c⟩, hqc, hq⟩ := hmem
          obtain ⟨m', s, hqs, hmem'⟩ := nodesE_shape tail rel q c hqc
          simp only at hq
          rw [hqs] at hq
          have h2 : m' :: s = [m] := List.append_cancel_left hq
          injection h2 with h3 _
          exact hm (h3 ▸ hmem')
      · intro a ha hb
        rw [List.mem_map] at ha hb
        obtain ⟨⟨qa, ca⟩, hqa, hqa2⟩ := ha
        obtain ⟨⟨qb, cb⟩, hqb, hqb2⟩ := hb
        obtain ⟨s, hs, hqs⟩ := nodesT_shape ch (rel ++ [m]) qa ca hqa
        obtain ⟨m', s', hqs', hmem'⟩ := nodesE_shape tail rel qb cb hqb
        simp only at hqa2 hqb2
        have he : rel ++ [m] ++ s = rel ++ m' :: s' := by
          rw [← hqs, ← hqs', hqa2, hqb2]
        rw [List.append_assoc, List.singleton_append] at he
        have h2 : m :: s = m' :: s' := List.append_cancel_left he
        injection h2 with h3 _
        exact hm (h3 ▸ hmem')
end

/-! ## Filter lemmas -/

/-- Survival condition under `filterT`: every nonempty prefix of `s` (itself
included), shifted under `rel`, passes `K`. -/
def chainK (K : List String → Bool) (rel s : List String) : Bool :=
  match s with
  | [] => true
  | n :: rest => K (rel ++ [n]) && chainK K (rel ++ [n]) rest

theorem chainK_nil (K : List String → Bool) (rel : List String) :
    chainK K rel [] = true := rfl

theorem chainK_cons (K : List String → Bool) (rel : List String) (n : String)
    (rest : List String) :
    chainK K rel (n :: rest) = (K (rel ++ [n]) && chainK K (rel ++ [n]) rest) := rfl

theorem namesE_filterE (K : List String → Bool) (rel : List String) (n : String) :
    ∀ (es : FSEntries), n ∈ namesE (filterE K rel es) → n ∈ namesE es := by
  intro es h
  cases es with
  | nil => simpa [filterE] using h
  | cons m c tail =>
      by_cases hK : K (rel ++ [m])
      · simp only [filterE, if_pos hK, namesE, List.mem_cons] at h
        rcases h with h | h
        · simp [namesE, h]
        · simp [namesE, namesE_filterE K rel n tail h]
      · simp only [filterE, if_neg hK] at h
        simp [namesE, namesE_filterE K rel n tail h]

theorem lookupE_none_of_not_mem (n : String) (rest : List String) (es : FSEntries)
    (h : n ∉ namesE es) : lookupE es n rest = none := by
  cases hl : lookupE es n rest with
  | none => rfl
  | some c => exact absurd (lookupE_mem_names n rest c es hl) h

mutual
theorem filterT_congr (K1 K2 : List String → Bool) : ∀ (t : FSTree) (rel : List String),
    (∀ q c, (q, c) ∈ nodesT rel t → K1 q = K2 q) →
    filterT K1 rel t = filterT K2 rel t := by
  intro t rel h
  cases t with
  | file c => rfl
  | dir es =>
      show FSTree.dir _ = FSTree.dir _
      rw [filterE_congr K1 K2 es rel h]
theorem filterE_congr (K1 K2 : List String → Bool) : ∀ (es : FSEntries) (rel : List String),
    (∀ q c, (q, c) ∈ nodesE rel es → K1 q = K2 q) →
    filterE K1 rel es = filterE K2 rel es := by
  intro es rel h
  cases es with
  | nil => rfl
  | cons m c tail =>
      have hhead : K1 (rel ++ [m]) = K2 (rel ++ [m]) :=
        h (rel ++ [m]) c (by simp [nodesE])
      have hc : ∀ q c', (q, c') ∈ nodesT (rel ++ [m]) c → K1 q = K2 q := by
        intro q c' hq
        exact h q c' (by simp [nodesE, hq])
      have ht : ∀ q c', (q, c') ∈ nodesE rel tail → K1 q = K2 q := by
        intro q c' hq
        exact h q c' (by simp [nodesE, hq])
      by_cases hK : K1 (rel ++ [m])
      · simp only [filterE, if_pos hK, if_pos (hhead ▸ hK)]
        rw [filterT_congr K1 K2 c (rel ++ [m]) hc, filterE_congr K1 K2 tail rel ht]
      · simp only [filterE, if_neg hK, if_neg (hhead ▸ hK)]
        exact filterE_congr K1 K2 tail rel ht
end

mutual
theorem filterT_true (K : List String → Bool) : ∀ (t : FSTree) (rel : List String),
    (∀ q, K q = true) → filterT K rel t = t := by
  intro t rel h
  cases t with
  | file c => rfl
  | dir es =>
      show FSTree.dir _ = FSTree.dir _
      rw [filterE_true K es rel h]
theorem filterE_true (K : List String → Bool) : ∀ (es : FSEntries) (rel : List String),
    (∀ q, K q = true) → filterE K rel es = es := by
  intro es rel h
  cases es with
  | nil => rfl
  | cons m c tail =>
      simp only [filterE, if_pos (h (rel ++ [m]))]
      rw [filterT_true K c (rel ++ [m]) h, filterE_true K tail rel h]
end

mutual
theorem lookup_filterT (K : List String → Bool) :
    ∀ (t : FSTree), nodupT t = true → ∀ (rel s : List String),
      lookupT (filterT K rel t) s =
        (match lookupT t s with
         | some c => if chainK K rel s then some (filterT K (rel ++ s) c) else none
         | none => none) := by
  intro t ht rel s
  cases t with
  | file c =>
      cases s with
      | nil => simp [lookupT, filterT, chainK_nil]
      | cons n rest => simp [lookupT, filterT]
  | dir es =>
      cases s with
      | nil => simp [lookupT, chainK_nil]
      | cons n rest =>
          show lookupE (filterE K rel es) n rest = _
          rw [lookup_filterE K es ht rel n rest]
          show _ = (match lookupE es n rest with
            | some c => if chainK K rel (n :: rest) then
                some (filterT K (rel ++ n :: rest) c) else none
            | none => none)
          rw [chainK_cons]
theorem lookup_filterE (K : List String → Bool) :
    ∀ (es : FSEntries), nodupE es = true → ∀ (rel : List String) (n : String)
      (rest : List String),
      lookupE (filterE K rel es) n rest =
        (match lookupE es n rest with
         | some c => if K (rel ++ [n]) && chainK K (rel ++ [n]) rest then
             some (filterT K (rel ++ n :: rest) c) else none
         | none => none) := by
  intro es hes rel n rest
  cases es with
  | nil => simp [filterE, lookupE]
  | cons m ch tail =>
      obtain ⟨hm, hch, htail⟩ := (nodupE_cons_iff m ch tail).mp hes
      by_cases hK : K (rel ++ [m])
      · simp only [filterE, if_pos hK]
        by_cases hmn : m = n
        · subst hmn
          simp only [lookupE, if_pos rfl]
          rw [lookup_filterT K ch hch (rel ++ [m]) rest]
          cases hl : lookupT ch rest with
          | none => simp
          | some c =>
              simp only [hK, Bool.true_and]
              by_cases hchain : chainK K (rel ++ [m]) rest
              · simp [hchain, List.append_assoc]
              · simp [hchain]
        · simp only [lookupE, if_neg hmn]
          exact lookup_filterE K tail htail rel n rest
      · simp only [filterE, if_neg hK]
        by_cases hmn : m = n
        · subst hmn
          have h1 : lookupE (filterE K rel tail) m rest = none := by
            apply lookupE_none_of_not_mem
            intro hmem
            exact hm (namesE_filterE K rel m tail hmem)
          rw [h1]
          simp only [lookupE, if_pos rfl]
          cases lookupT ch rest with
          | none => simp
          | some c => simp [hK]
        · rw [lookup_filterE K tail htail rel n rest]
          simp [lookupE, hmn]
end

theorem isPrefixOf_append_iff (a b c : List String) :
    (a ++ b).isPrefixOf (a ++ c) = b.isPrefixOf c := by
  by_cases h : b <+: c
  · rw [List.isPrefixOf_iff_prefix.mpr h,
      List.isPrefixOf_iff_prefix.mpr ((List.prefix_append_right_inj a).mpr h)]
  · have h1 : ¬ (a ++ b <+: a ++ c) := fun hc => h ((List.prefix_append_right_inj a).mp hc)
    cases hb : (a ++ b).isPrefixOf (a ++ c) with
    | true => exact absurd (List.isPrefixOf_iff_prefix.mp hb) h1
    | false =>
        cases hc : List.isPrefixOf b c with
        | true => exact absurd (List.isPrefixOf_iff_prefix.mp hc) h
        | false => rfl

theorem isPrefixOf_cons_ne (n m : String) (rest s : List String) (h : n ≠ m) :
    (n :: rest).isPrefixOf (m :: s) = false := by
  cases hb : (n :: rest).isPrefixOf (m :: s) with
  | false => rfl
  | true =>
      have := List.isPrefixOf_iff_prefix.mp hb
      obtain ⟨u, hu⟩ := this
      injection hu with h1 _
      exact absurd h1 h

mutual
theorem removePath_filterT (K : List String → Bool) :
    ∀ (t : FSTree), nodupT t = true → ∀ (rel p : List String), p ≠ [] →
      removePath (filterT K rel t) p =
        filterT (fun q => K q && !((rel ++ p).isPrefixOf q)) rel t := by
  intro t ht rel p hp
  cases t with
  | file c =>
      cases p with
      | nil => exact absurd rfl hp
      | cons n rest => rfl
  | dir es =>
      cases p with
      | nil => exact absurd rfl hp
      | cons n rest =>
          show FSTree.dir _ = FSTree.dir _
          rw [removePath_filterE K es ht rel n rest]
theorem removePath_filterE (K : List String → Bool) :
    ∀ (es : FSEntries), nodupE es = true →
      ∀ (rel : List String) (n : String) (rest : List String),
      removePathE (filterE K rel es) n rest =
        filterE (fun q => K q && !((rel ++ n :: rest).isPrefixOf q)) rel es := by
  intro es hes rel n rest
  cases es with
  | nil => rfl
  | cons m ch tail =>
      obtain ⟨hm, hch, htail⟩ := (nodupE_cons_iff m ch tail).mp hes
      have hKother : ∀ (m' : String) (s : List String), m' ≠ n →
          ((rel ++ n :: rest).isPrefixOf (rel ++ m' :: s)) = false := by
        intro m' s hne
        rw [show rel ++ n :: rest = rel ++ ([n] ++ rest) by simp,
          show rel ++ m' :: s = rel ++ ([m'] ++ s) by simp, isPrefixOf_append_iff]
        rw [show ([n] ++ rest : List String) = n :: rest by simp,
          show ([m'] ++ s : List String) = m' :: s by simp]
        exact isPrefixOf_cons_ne n m' rest s (fun he => hne he.symm)
      have htailcong : m = n →
          filterE (fun q => K q && !((rel ++ n :: rest).isPrefixOf q)) rel tail =
            filterE K rel tail := by
        intro hmn
        apply filterE_congr
        intro q c hq
        obtain ⟨m', s, hqs, hmem'⟩ := nodesE_shape tail rel q c hq
        have hne : m' ≠ n := fun he => hm (by rw [hmn, ← he]; exact hmem')
        rw [hqs, hKother m' s hne]
        simp
      by_cases hK : K (rel ++ [m])
      · by_cases hmn : m = n
        · subst hmn
          cases rest with
          | nil =>
              have hpre : (rel ++ [m]).isPrefixOf (rel ++ [m]) = true :=
                List.isPrefixOf_iff_prefix.mpr List.prefix_rfl
              simp only [filterE, hK, if_pos, removePathE, if_true, hpre,
                Bool.not_true, Bool.and_false, Bool.false_eq_true, if_false]
              try simp only [if_pos rfl]
              exact (htailcong rfl).symm
          | cons a rest' =>
              have hpre : (rel ++ m :: a :: rest').isPrefixOf (rel ++ [m]) = false := by
                rw [show rel ++ m :: a :: rest' = rel ++ ([m] ++ a :: rest') by simp,
                  ← List.append_assoc]
                cases hb : (rel ++ [m] ++ a :: rest').isPrefixOf (rel ++ [m]) with
                | false => rfl
                | true =>
                    have hle := (List.isPrefixOf_iff_prefix.mp hb).length_le
                    simp at hle
              simp only [filterE, hK, if_pos, removePathE, if_true, hpre,
                Bool.not_false, Bool.and_true]
              try simp only [if_pos rfl]
              congr 1
              · rw [removePath_filterT K ch hch (rel ++ [m]) (a :: rest') (by simp)]
                apply filterT_congr
                intro q c hq
                rw [List.append_assoc]
                simp
              · exact (htailcong rfl).symm
        · have hpre : (rel ++ n :: rest).isPrefixOf (rel ++ [m]) = false :=
            hKother m [] hmn
          simp only [filterE, hK, if_pos, removePathE, if_true, hpre,
            Bool.not_false, Bool.and_true, if_neg hmn]
          congr 1
          · apply filterT_congr
            intro q c hq
            obtain ⟨s, hs, hqs⟩ := nodesT_shape ch (rel ++ [m]) q c hq
            rw [hqs, List.append_assoc]
            rw [show ([m] ++ s : List String) = m :: s by simp]
            rw [hKother m s hmn]
            simp
          · exact removePath_filterE K tail htail rel n rest
      · have hK' : (K (rel ++ [m]) && !((rel ++ n :: rest).isPrefixOf (rel ++ [m]))) = false := by
          simp [Bool.of_not_eq_true hK]
        by_cases hmn : m = n
        · subst hmn
          have h1 : removePathE (filterE K rel tail) m rest = filterE K rel tail := by
            apply removePathE_of_not_mem
            intro hmem
            exact hm (namesE_filterE K rel m tail hmem)
          simp only [filterE, Bool.of_not_eq_true hK, if_false, hK',
            Bool.false_eq_true]
          rw [h1]
          exact (htailcong rfl).symm
        · simp only [filterE, Bool.of_not_eq_true hK, if_false, hK',
            Bool.false_eq_true]
          exact removePath_filterE K tail htail rel n rest
end

/-! ## Local-hit closure lemmas -/

mutual
theorem anyLocal_filterT (dirSegs E : List String) (K : List String → Bool) :
    ∀ (t : FSTree) (rel : List String),
      (∀ q c, (q, c) ∈ nodesT rel t → K q = false → anyLocalT dirSegs E q c = false) →
      anyLocalT dirSegs E rel (filterT K rel t) = anyLocalT dirSegs E rel t := by
  intro t rel h
  cases t with
  | file c => rfl
  | dir es =>
      show (localHit _ _ _ || _ || anyLocalE dirSegs E rel (filterE K rel es)) = _
      rw [anyLocal_filterE dirSegs E K es rel h]
      rfl
theorem anyLocal_filterE (dirSegs E : List String) (K : List String → Bool) :
    ∀ (es : FSEntries) (rel : List String),
      (∀ q c, (q, c) ∈ nodesE rel es → K q = false → anyLocalT dirSegs E q c = false) →
      anyLocalE dirSegs E rel (filterE K rel es) = anyLocalE dirSegs E rel es := by
  intro es rel h
  cases es with
  | nil => rfl
  | cons m ch tail =>
      have hc : ∀ q c, (q, c) ∈ nodesT (rel ++ [m]) ch → K q = false →
          anyLocalT dirSegs E q c = false := by
        intro q c hq
        exact h q c (by simp [nodesE, hq])
      have ht : ∀ q c, (q, c) ∈ nodesE rel tail → K q = false →
          anyLocalT dirSegs E q c = false := by
        intro q c hq
        exact h q c (by simp [nodesE, hq])
      by_cases hK : K (rel ++ [m])
      · simp only [filterE, hK, if_pos, if_true, anyLocalE]
        rw [anyLocal_filterT dirSegs E K ch (rel ++ [m]) hc,
          anyLocal_filterE dirSegs E K tail rel ht]
      · have hK0 : K (rel ++ [m]) = false := Bool.of_not_eq_true hK
        have hhead : anyLocalT dirSegs E (rel ++ [m]) ch = false :=
          h (rel ++ [m]) ch (by simp [nodesE]) hK0
        simp only [filterE, hK0, Bool.false_eq_true, if_false, anyLocalE, hhead,
          Bool.false_or]
        exact anyLocal_filterE dirSegs E K tail rel ht
end

mutual
theorem anyLocalT_desc (dirSegs E : List String) :
    ∀ (t : FSTree) (rel : List String), anyLocalT dirSegs E rel t = false →
      ∀ q c, (q, c) ∈ nodesT rel t → anyLocalT dirSegs E q c = false := by
  intro t rel h q c hq
  cases t with
  | file _ => simp [nodesT] at hq
  | dir es =>
      have hE : anyLocalE dirSegs E rel es = false := by
        have := h
        simp only [anyLocalT, Bool.or_eq_false_iff] at this
        exact this.2
      exact anyLocalE_desc dirSegs E es rel hE q c hq
theorem anyLocalE_desc (dirSegs E : List String) :
    ∀ (es : FSEntries) (rel : List String), anyLocalE dirSegs E rel es = false →
      ∀ q c, (q, c) ∈ nodesE rel es → anyLocalT dirSegs E q c = false := by
  intro es rel h q c hq
  cases es with
  | nil => simp [nodesE] at hq
  | cons m ch tail =>
      have h2 := h
      simp only [anyLocalE, Bool.or_eq_false_iff] at h2
      simp only [nodesE, List.mem_cons, List.mem_append] at hq
      rcases hq with hq | hq | hq
      · have h1 : q = rel ++ [m] := congrArg Prod.fst hq
        have h3 : c = ch := congrArg Prod.snd hq
        rw [h1, h3]
        exact h2.1
      · exact anyLocalT_desc dirSegs E ch (rel ++ [m]) h2.1 q c hq
      · exact anyLocalE_desc dirSegs E tail rel h2.2 q c hq
end

theorem findE_anyLocal_false (dirSegs E rel : List String) (n : String) :
    ∀ (es : FSEntries) (c : FSTree), findE es n = some c →
      anyLocalE dirSegs E rel es = false → anyLocalT dirSegs E (rel ++ [n]) c = false := by
  intro es c hf h
  cases es with
  | nil => simp [findE] at hf
  | cons m ch tail =>
      have h2 := h
      simp only [anyLocalE, Bool.or_eq_false_iff] at h2
      by_cases hm : m = n
      · subst hm
        simp only [findE, if_pos rfl] at hf
        cases hf
        exact h2.1
      · simp only [findE, hm, if_false] at hf
        exact findE_anyLocal_false dirSegs E rel n tail c hf h2.2

/-- If a directory is not preserved (in flattened form), neither is the
entry `os.Stat` finds directly inside it. -/
theorem preservedP_child_false (dirSegs E rel : List String) (es : FSEntries)
    (h : preservedP dirSegs E rel (.dir es) = false) (n : String) (c : FSTree)
    (hf : findE es n = some c) (hne : dirSegs ++ rel ≠ []) :
    preservedP dirSegs E (rel ++ [n]) c = false := by
  have h2 := h
  simp only [preservedP, anyLocalT, Bool.or_eq_false_iff] at h2
  have hanc : ancLocal dirSegs E rel = false := by simp_all
  have hloc : localHit dirSegs E (dirSegs ++ rel) = false := by simp_all
  have hany : anyLocalE dirSegs E rel es = false := by simp_all
  have hchild := findE_anyLocal_false dirSegs E rel n es c hf hany
  simp only [preservedP, Bool.or_eq_false_iff]
  refine ⟨?_, hchild⟩
  rw [ancLocal_snoc dirSegs E rel n hne]
  simp [hanc, hloc]

/-- Flattened preservation is closed downward: below a non-preserved node,
every reachable node is non-preserved too. -/
theorem preservedP_desc_false (dirSegs E : List String) :
    ∀ (s r : List String) (cr c : FSTree), dirSegs ++ r ≠ [] →
      preservedP dirSegs E r cr = false → lookupT cr s = some c →
      preservedP dirSegs E (r ++ s) c = false := by
  intro s
  induction s with
  | nil =>
      intro r cr c _ h hl
      simp only [lookupT] at hl
      cases hl
      simpa using h
  | cons n s' ih =>
      intro r cr c hne h hl
      cases cr with
      | file _ => simp [lookupT] at hl
      | dir es =>
          have hl2 : lookupE es n s' = some c := hl
          rw [findE_lookupE] at hl2
          cases hf : findE es n with
          | none => rw [hf] at hl2; simp at hl2
          | some c1 =>
              rw [hf] at hl2
              simp at hl2
              have h1 := preservedP_child_false dirSegs E r es h n c1 hf hne
              have h2 := ih (r ++ [n]) c1 c (by simp) h1 hl2
              rw [List.append_assoc] at h2
              simpa using h2

/-! ## The sweep computes the flattened preservation filter -/

mutual
theorem nodup_lookupT : ∀ (t : FSTree), nodupT t = true →
    ∀ (s : List String) (c : FSTree), lookupT t s = some c → nodupT c = true := by
  intro t ht s c hl
  cases t with
  | file f =>
      cases s with
      | nil => simp only [lookupT] at hl; cases hl; exact ht
      | cons n rest => simp [lookupT] at hl
  | dir es =>
      cases s with
      | nil => simp only [lookupT] at hl; cases hl; exact ht
      | cons n rest => exact nodup_lookupE es ht n rest c hl
theorem nodup_lookupE : ∀ (es : FSEntries), nodupE es = true →
    ∀ (n : String) (rest : List String) (c : FSTree),
      lookupE es n rest = some c → nodupT c = true := by
  intro es hes n rest c hl
  cases es with
  | nil => simp [lookupE] at hl
  | cons m ch tail =>
      obtain ⟨hm, hch, htail⟩ := (nodupE_cons_iff m ch tail).mp hes
      by_cases hmn : m = n
      · simp only [lookupE, if_pos hmn] at hl
        exact nodup_lookupT ch hch rest c hl
      · simp only [lookupE, hmn, if_false] at hl
        exact nodup_lookupE tail htail n rest c hl
end

theorem chainK_iff (K : List String → Bool) : ∀ (s rel : List String),
    chainK K rel s = true ↔ ∀ s', s' ≠ [] → s' <+: s → K (rel ++ s') = true := by
  intro s
  induction s with
  | nil =>
      intro rel
      constructor
      · intro _ s' hne hpre
        rw [List.prefix_nil] at hpre
        exact absurd hpre hne
      · intro _; rfl
  | cons n rest ih =>
      intro rel
      show (K (rel ++ [n]) && chainK K (rel ++ [n]) rest) = true ↔ _
      rw [Bool.and_eq_true, ih (rel ++ [n])]
      constructor
      · rintro ⟨h1, h2⟩ s' hne hpre
        cases s' with
        | nil => exact absurd rfl hne
        | cons a s'' =>
            obtain ⟨u, hu⟩ := hpre
            injection hu with ha hu2
            subst ha
            by_cases hs2 : s'' = []
            · subst hs2; simpa using h1
            · have := h2 s'' hs2 ⟨u, hu2⟩
              simpa [List.append_assoc] using this
      · intro h
        refine ⟨h [n] (by simp) ⟨rest, rfl⟩, fun s'' hne hpre => ?_⟩
        obtain ⟨u, hu⟩ := hpre
        have := h (n :: s'') (by simp) ⟨u, by simp [hu]⟩
        rw [show rel ++ n :: s'' = rel ++ [n] ++ s'' by simp] at this
        exact this

/-- Survival predicate after the sweep has processed the paths in `ps`: no
processed prefix of `q` (`q` itself included) failed its preservation
check against the original tree. -/
def sweepKeep (dirSegs E : List String) (t : FSTree) (ps : List (List String))
    (q : List String) : Bool :=
  ps.all (fun r => !(r.isPrefixOf q) || P0at dirSegs E t r)

theorem sweepKeep_snoc (dirSegs E : List String) (t : FSTree)
    (ps : List (List String)) (p q : List String) :
    sweepKeep dirSegs E t (ps ++ [p]) q =
      (sweepKeep dirSegs E t ps q && (!(p.isPrefixOf q) || P0at dirSegs E t p)) := by
  simp [sweepKeep, List.all_append]

theorem sweepStep_filter (dirSegs E : List String) (t : FSTree) (ht : nodupT t = true)
    (ps : List (List String)) (p : List String) (c : FSTree)
    (hpc : lookupT t p = some c) (hp : p ≠ [])
    (hnopre : ∀ r ∈ ps, ¬ (r <+: p))
    (hps : ∀ r ∈ ps, r ≠ [] ∧ ∃ cr, lookupT t r = some cr) :
    sweepStep dirSegs E (filterT (sweepKeep dirSegs E t ps) [] t) p =
      filterT (sweepKeep dirSegs E t (ps ++ [p])) [] t := by
  have hchain : chainK (sweepKeep dirSegs E t ps) [] p = true := by
    rw [chainK_iff]
    intro s' _ hpre
    rw [List.nil_append]
    simp only [sweepKeep, List.all_eq_true]
    intro r hr
    cases hrp : r.isPrefixOf s' with
    | false => simp
    | true =>
        have : r <+: p := (List.isPrefixOf_iff_prefix.mp hrp).trans hpre
        exact absurd this (hnopre r hr)
  have hlf := lookup_filterT (sweepKeep dirSegs E t ps) t ht [] p
  rw [hpc] at hlf
  simp only [hchain, if_true, List.nil_append] at hlf
  have hKfalse : ∀ q c', (q, c') ∈ nodesT p c →
      sweepKeep dirSegs E t ps q = false → anyLocalT dirSegs E q c' = false := by
    intro q c' hqc hKq
    have hnodupc : nodupT c = true := nodup_lookupT t ht p c hpc
    obtain ⟨s, hs, hqs, hls⟩ := nodesT_lookup c hnodupc p q c' hqc
    have hlq : lookupT t q = some c' := by
      rw [hqs, lookup_append, hpc]
      simpa using hls
    simp only [sweepKeep, List.all_eq_false] at hKq
    obtain ⟨r, hrps, hrq⟩ := hKq
    have hrq1 : r.isPrefixOf q = true := by
      cases h1 : r.isPrefixOf q with
      | true => rfl
      | false => simp [h1] at hrq
    have hrq2 : P0at dirSegs E t r = false := by
      cases h2 : P0at dirSegs E t r with
      | false => rfl
      | true => simp [h2] at hrq
    have hrpre : r <+: q := List.isPrefixOf_iff_prefix.mp hrq1
    obtain ⟨hrne, cr, hlr⟩ := hps r hrps
    have hP0r : preservedP dirSegs E r cr = false := by
      have := hrq2
      unfold P0at at this
      rw [hlr] at this
      exact this
    obtain ⟨u, hu⟩ := hrpre
    have hlu : lookupT cr u = some c' := by
      have := hlq
      rw [← hu, lookup_append, hlr] at this
      simpa using this
    have hdesc := preservedP_desc_false dirSegs E u r cr c'
      (by intro hcon; rw [List.append_eq_nil] at hcon; exact hrne hcon.2) hP0r hlu
    rw [hu] at hdesc
    simp only [preservedP, Bool.or_eq_false_iff] at hdesc
    exact hdesc.2
  have hcheck : checkPres dirSegs E p (filterT (sweepKeep dirSegs E t ps) p c) =
      preservedP dirSegs E p c := by
    rw [checkPres_flat dirSegs E _ p (by simp [hp]), preservedP,
      anyLocal_filterT dirSegs E _ c p hKfalse, preservedP]
  unfold sweepStep
  rw [hlf]
  show (if checkPres dirSegs E p (filterT (sweepKeep dirSegs E t ps) p c) = true
      then filterT (sweepKeep dirSegs E t ps) [] t
      else removePath (filterT (sweepKeep dirSegs E t ps) [] t) p) = _
  rw [hcheck]
  cases hP : preservedP dirSegs E p c with
  | true =>
      rw [if_pos rfl]
      apply filterT_congr
      intro q c' _
      rw [sweepKeep_snoc]
      have : P0at dirSegs E t p = true := by
        unfold P0at; rw [hpc]; exact hP
      simp [this]
  | false =>
      rw [if_neg (by simp)]
      rw [removePath_filterT (sweepKeep dirSegs E t ps) t ht [] p hp]
      apply filterT_congr
      intro q c' _
      rw [sweepKeep_snoc]
      have : P0at dirSegs E t p = false := by
        unfold P0at; rw [hpc]; exact hP
      simp [this]

theorem mem_paths_lookup (t : FSTree) (ht : nodupT t = true) (p : List String)
    (hp : p ∈ (nodesT [] t).map Prod.fst) : p ≠ [] ∧ ∃ c, lookupT t p = some c := by
  obtain ⟨⟨q, c⟩, hqc, hq⟩ := List.mem_map.mp hp
  simp only at hq
  subst hq
  obtain ⟨s, hs, hqs, hls⟩ := nodesT_lookup t ht [] q c hqc
  rw [List.nil_append] at hqs
  rw [hqs]
  exact ⟨hs, c, hls⟩

theorem sweep_fold (dirSegs E : List String) (t : FSTree) (ht : nodupT t = true) :
    ∀ (L ps : List (List String)),
      (∀ x ∈ ps, ∀ y ∈ L, pathKey y ≤ pathKey x) →
      (ps ++ L).Nodup →
      (∀ x, x ∈ ps ++ L → x ∈ (nodesT [] t).map Prod.fst) →
      L.Sorted keyGE →
      L.foldl (sweepStep dirSegs E) (filterT (sweepKeep dirSegs E t ps) [] t) =
        filterT (sweepKeep dirSegs E t (ps ++ L)) [] t := by
  intro L
  induction L with
  | nil => intro ps _ _ _ _; simp
  | cons p L' ih =>
      intro ps hcross hnodup hmem hsort
      obtain ⟨hpne, c, hpc⟩ := mem_paths_lookup t ht p (hmem p (by simp))
      have hnps : p ∉ ps := by
        intro hin
        obtain ⟨_, _, hdisj⟩ := List.nodup_append.mp hnodup
        exact hdisj hin (by simp)
      have hnopre : ∀ r ∈ ps, ¬ (r <+: p) := by
        intro r hr hpre
        by_cases hrs : r = p
        · exact hnps (hrs ▸ hr)
        · have hlt := pathKey_lt_of_proper r p hpre hrs
          have hge := hcross r hr p (by simp)
          omega
      have hps2 : ∀ r ∈ ps, r ≠ [] ∧ ∃ cr, lookupT t r = some cr := by
        intro r hr
        exact mem_paths_lookup t ht r (hmem r (by simp [hr]))
      have hstep := sweepStep_filter dirSegs E t ht ps p c hpc hpne hnopre hps2
      show List.foldl _ (sweepStep dirSegs E (filterT _ [] t) p) L' = _
      rw [hstep]
      have hsort' := List.sorted_cons.mp hsort
      have hres := ih (ps ++ [p])
        (by
          intro x hx y hy
          rw [List.mem_append] at hx
          rcases hx with hx | hx
          · exact hcross x hx y (by simp [hy])
          · have := hsort'.1 y hy
            simp only [List.mem_singleton] at hx
            subst hx
            exact this)
        (by rw [List.append_assoc]; simpa using hnodup)
        (by
          intro x hx
          apply hmem
          rw [List.append_assoc] at hx
          simpa using hx)
        hsort'.2
      rw [hres, List.append_assoc]
      rfl

/-- Master theorem: the destination clear keeps exactly the paths whose
flattened preservation predicate holds on the original tree (dropping a
path drops its whole subtree). -/
theorem clearDest_eq_filter (dirSegs E : List String) (t : FSTree)
    (ht : nodupT t = true) :
    clearDestinationDir dirSegs E t = filterT (P0at dirSegs E t) [] t := by
  unfold clearDestinationDir
  have hperm := List.perm_insertionSort keyGE ((nodesT [] t).map Prod.fst)
  have hsort : (sortDescByKey ((nodesT [] t).map Prod.fst)).Sorted keyGE :=
    List.sorted_insertionSort keyGE ((nodesT [] t).map Prod.fst)
  have hnodup0 : ((nodesT [] t).map Prod.fst).Nodup := nodesT_paths_nodup t ht []
  have hnodup : (sortDescByKey ((nodesT [] t).map Prod.fst)).Nodup :=
    (hperm.nodup_iff).mpr hnodup0
  have h0 : filterT (sweepKeep dirSegs E t []) [] t = t :=
    filterT_true _ t [] (by intro q; simp [sweepKeep])
  have key := sweep_fold dirSegs E t ht (sortDescByKey ((nodesT [] t).map Prod.fst)) []
    (by intro x hx; simp at hx) (by simpa using hnodup)
    (by intro x hx; simp only [List.nil_append] at hx; exact hperm.mem_iff.mp hx)
    hsort
  rw [h0] at key
  rw [key]
  apply filterT_congr
  intro q c hq
  rw [List.nil_append]
  have hlq : lookupT t q = some c := by
    obtain ⟨s, hsne, hqs, hls⟩ := nodesT_lookup t ht [] q c hq
    rw [List.nil_append] at hqs
    rw [hqs]
    exact hls
  cases hP : P0at dirSegs E t q with
  | false =>
      cases hs2 : sweepKeep dirSegs E t (sortDescByKey ((nodesT [] t).map Prod.fst)) q with
      | false => rfl
      | true =>
          exfalso
          have hmem2 : q ∈ sortDescByKey ((nodesT [] t).map Prod.fst) :=
            hperm.mem_iff.mpr (List.mem_map.mpr ⟨(q, c), hq, rfl⟩)
          have := (List.all_eq_true.mp hs2) q hmem2
          rw [List.isPrefixOf_iff_prefix.mpr List.prefix_rfl] at this
          simp [hP] at this
  | true =>
      simp only [sweepKeep, List.all_eq_true]
      intro r hr
      cases hrp : r.isPrefixOf q with
      | false => simp
      | true =>
          have hrpre : r <+: q := List.isPrefixOf_iff_prefix.mp hrp
          obtain ⟨hrne, cr, hlr⟩ :=
            mem_paths_lookup t ht r (hperm.mem_iff.mp hr)
          simp only [Bool.or_eq_true]
          right
          unfold P0at
          rw [hlr]
          cases hPr : preservedP dirSegs E r cr with
          | true => exact hPr
          | false =>
              exfalso
              obtain ⟨u, hu⟩ := hrpre
              have hlu : lookupT cr u = some c := by
                have := hlq
                rw [← hu, lookup_append, hlr] at this
                simpa using this
              have hdesc := preservedP_desc_false dirSegs E u r cr c
                (by intro hcon; rw [List.append_eq_nil] at hcon; exact hrne hcon.2)
                hPr hlu
              rw [hu] at hdesc
              unfold P0at at hP
              rw [hlq] at hP
              simp only [] at hP
              rw [hdesc] at hP
              exact Bool.false_ne_true hP

/-! ## Survival characterization -/

theorem lastSeg_append (a p : List String) (hp : p ≠ []) :
    lastSeg (a ++ p) = lastSeg p := by
  unfold lastSeg
  rw [List.getLast?_append_of_ne_nil a hp]

theorem relString_extend (dirSegs p : List String) (hp : p ≠ []) :
    relString dirSegs (dirSegs ++ p) = joinSegs p := by
  unfold relString
  rw [if_pos (List.isPrefixOf_iff_prefix.mpr (List.prefix_append dirSegs p))]
  rw [List.drop_left]
  simp [hp]

theorem localHit_extend (dirSegs E p : List String) (hp : p ≠ []) :
    localHit dirSegs E (dirSegs ++ p) =
      (isHiddenName (lastSeg p) || matchesAnyPattern (joinSegs p) E) := by
  unfold localHit
  rw [lastSeg_append dirSegs p hp, relString_extend dirSegs p hp]

theorem mem_properPrefixes (a b : List String) (h : a <+: b) (ha : a ≠ [])
    (hab : a ≠ b) : a ∈ properPrefixes b := by
  unfold properPrefixes
  rw [List.mem_map]
  have hlt : a.length < b.length := by
    have h1 := h.length_le
    rcases Nat.lt_or_ge a.length b.length with hl | hl
    · exact hl
    · exact absurd (h.eq_of_length (by omega)) hab
  have hlen : 1 ≤ a.length := by
    cases a with
    | nil => exact absurd rfl ha
    | cons x l => simp
  refine ⟨a.length - 1, by rw [List.mem_range]; omega, ?_⟩
  have h2 : a.length - 1 + 1 = a.length := by omega
  rw [h2]
  exact (List.prefix_iff_eq_take.mp h).symm

theorem P0at_prefix_true (dirSegs E : List String) (t : FSTree)
    (q : List String) (c : FSTree) (hl : lookupT t q = some c)
    (hpres : preservedP dirSegs E q c = true) :
    ∀ r, r ≠ [] → r <+: q → P0at dirSegs E t r = true := by
  intro r hrne hrpre
  obtain ⟨u, hu⟩ := hrpre
  cases hlr : lookupT t r with
  | none =>
      exfalso
      have h2 := hl
      rw [← hu, lookup_append, hlr] at h2
      simp at h2
  | some cr =>
      unfold P0at
      rw [hlr]
      cases hPr : preservedP dirSegs E r cr with
      | true => exact hPr
      | false =>
          exfalso
          have hlu : lookupT cr u = some c := by
            have h2 := hl
            rw [← hu, lookup_append, hlr] at h2
            simpa using h2
          have hdesc := preservedP_desc_false dirSegs E u r cr c
            (by intro hcon; rw [List.append_eq_nil] at hcon; exact hrne hcon.2)
            hPr hlu
          rw [hu] at hdesc
          rw [hdesc] at hpres
          exact Bool.false_ne_true hpres

/-- A path under the destination survives the clear exactly when it existed
before and its flattened preservation predicate holds. -/
theorem survives_iff (dirSegs E : List String) (t : FSTree) (ht : nodupT t = true)
    (q : List String) (hq : q ≠ []) :
    (lookupT (clearDestinationDir dirSegs E t) q).isSome = true ↔
      ∃ c, lookupT t q = some c ∧ preservedP dirSegs E q c = true := by
  rw [clearDest_eq_filter dirSegs E t ht]
  rw [lookup_filterT (P0at dirSegs E t) t ht [] q]
  cases hl : lookupT t q with
  | none => simp
  | some c =>
      show (if chainK (P0at dirSegs E t) [] q = true then
        some (filterT (P0at dirSegs E t) ([] ++ q) c) else none).isSome = true ↔ _
      by_cases hchain : chainK (P0at dirSegs E t) [] q = true
      · rw [if_pos hchain]
        simp only [Option.isSome_some, true_iff]
        refine ⟨c, rfl, ?_⟩
        have h2 := (chainK_iff _ q []).mp hchain q hq List.prefix_rfl
        rw [List.nil_append] at h2
        unfold P0at at h2
        rw [hl] at h2
        exact h2
      · rw [if_neg hchain]
        simp only [Option.isSome_none, Bool.false_eq_true, false_iff]
        rintro ⟨c', hc', hpres⟩
        cases hc'
        apply hchain
        rw [chainK_iff]
        intro s' hne hpre
        rw [List.nil_append]
        exact P0at_prefix_true dirSegs E t q c hl hpres s' hne hpre

theorem anyLocalT_localHit_false (dirSegs E rel : List String) (c : FSTree)
    (h : anyLocalT dirSegs E rel c = false) :
    localHit dirSegs E (dirSegs ++ rel) = false := by
  cases c with
  | file f => exact h
  | dir es =>
      have h2 := h
      simp only [anyLocalT, Bool.or_eq_false_iff] at h2
      simp_all

/-! ## Claims C1, C2, C6, C10: the destination clear -/

/-- Destination tree for the C1 counterexample: `config` holds only a file
that matches no pattern. -/
def tC1 : FSTree := .dir (.cons "config" (.dir (.cons "other.txt" (.file "x") .nil)) .nil)

/-- Claim C1 as stated is false: with exclude patterns `["config/*.json"]`
and a destination holding only `config/other.txt`, the code preserves the
directory `config` (step 3 treats a pattern with a separator and a `*` as
preserving the directory it names), yet the claim's if-and-only-if
condition — hidden, matching, hidden/matching ancestor strictly below the
root, or a preserved descendant — is false for `config`. -/
theorem C1_counterexample :
    lookupT tC1 ["config"] = some (.dir (.cons "other.txt" (.file "x") .nil)) ∧
    (lookupT (clearDestinationDir ["dest"] ["config/*.json"] tC1) ["config"]).isSome = true ∧
    specC1PresT ["config/*.json"] ["config"]
      (.dir (.cons "other.txt" (.file "x") .nil)) = false :=
  ⟨rfl, rfl, rfl⟩

/-- C1 (amended): a path under the destination is preserved by the clear if
and only if it existed and its flattened preservation predicate holds: some
node of its subtree (itself included) is hidden, matches a pattern, or is a
directory named by one of the step-3 pattern-directory forms, or some
ancestor of its absolute path — walking through and beyond the destination
root — is hidden or matches; every other path is removed. -/
theorem C1_clear_preserved_iff (dirSegs E : List String) (t : FSTree)
    (ht : nodupT t = true) (q : List String) (hq : q ≠ []) :
    (lookupT (clearDestinationDir dirSegs E t) q).isSome = true ↔
      ∃ c, lookupT t q = some c ∧ preservedP dirSegs E q c = true :=
  survives_iff dirSegs E t ht q hq

theorem C1_clear_preserved_iff_witness :
    ((lookupT (clearDestinationDir ["dest"] ["config/*.json"] tC1) ["config"]).isSome = true ↔
      ∃ c, lookupT tC1 ["config"] = some c ∧
        preservedP ["dest"] ["config/*.json"] ["config"] c = true) :=
  C1_clear_preserved_iff ["dest"] ["config/*.json"] tC1 rfl ["config"] (by decide)

/-- C2: any path removed by the clear sweep is not hidden, matches no
exclusion pattern, has no hidden or matching ancestor below the destination
root, and no descendant of it passes the preservation check. -/
theorem C2_removed_path_properties (dirSegs E : List String) (t : FSTree)
    (ht : nodupT t = true) (p : List String) (c : FSTree)
    (hl : lookupT t p = some c) (hp : p ≠ [])
    (hrem : lookupT (clearDestinationDir dirSegs E t) p = none) :
    isHiddenName (lastSeg p) = false ∧
    matchesAnyPattern (joinSegs p) E = false ∧
    (∀ r, r ≠ [] → r <+: p → r ≠ p →
      isHiddenName (lastSeg r) = false ∧ matchesAnyPattern (joinSegs r) E = false) ∧
    (∀ d cd, lookupT t d = some cd → p <+: d → p ≠ d →
      checkPres dirSegs E d cd = false) := by
  have hpres : preservedP dirSegs E p c = false := by
    cases hP : preservedP dirSegs E p c with
    | false => rfl
    | true =>
        exfalso
        have := (survives_iff dirSegs E t ht p hp).mpr ⟨c, hl, hP⟩
        rw [hrem] at this
        simp at this
  have h2 : ancLocal dirSegs E p = false ∧ anyLocalT dirSegs E p c = false := by
    simpa [preservedP, Bool.or_eq_false_iff] using hpres
  have hloc : localHit dirSegs E (dirSegs ++ p) = false :=
    anyLocalT_localHit_false dirSegs E p c h2.2
  have hlocp := hloc
  rw [localHit_extend dirSegs E p hp] at hlocp
  rw [Bool.or_eq_false_iff] at hlocp
  refine ⟨hlocp.1, hlocp.2, ?_, ?_⟩
  · intro r hrne hrpre hrnep
    have hmem : dirSegs ++ r ∈ properPrefixes (dirSegs ++ p) := by
      apply mem_properPrefixes
      · exact (List.prefix_append_right_inj dirSegs).mpr hrpre
      · intro hcon
        rw [List.append_eq_nil] at hcon
        exact hrne hcon.2
      · intro hcon
        exact hrnep (List.append_cancel_left hcon)
    have hanc := h2.1
    unfold ancLocal at hanc
    rw [List.any_eq_false] at hanc
    have := hanc (dirSegs ++ r) hmem
    rw [localHit_extend dirSegs E r hrne] at this
    simp only [Bool.or_eq_true, not_or, Bool.not_eq_true] at this
    exact ⟨this.1, this.2⟩
  · intro d cd hld hdpre hdnep
    obtain ⟨u, hu⟩ := hdpre
    have hune : u ≠ [] := by
      intro hcon
      rw [hcon, List.append_nil] at hu
      exact hdnep hu
    have hlu : lookupT c u = some cd := by
      have h3 := hld
      rw [← hu, lookup_append, hl] at h3
      simpa using h3
    have hdesc := preservedP_desc_false dirSegs E u p c cd
      (by intro hcon; rw [List.append_eq_nil] at hcon; exact hp hcon.2) hpres hlu
    rw [hu] at hdesc
    rw [checkPres_flat dirSegs E cd d
      (by intro hcon; rw [List.append_eq_nil] at hcon; rw [hcon.2] at hu; simp at hu
          exact hune (by simp [← hu.2]))]
    exact hdesc

theorem C2_removed_path_properties_witness :
    isHiddenName (lastSeg ["old.txt"]) = false ∧
    matchesAnyPattern (joinSegs ["old.txt"]) [".gitkeep"] = false ∧
    (∀ r, r ≠ [] → r <+: ["old.txt"] → r ≠ ["old.txt"] →
      isHiddenName (lastSeg r) = false ∧ matchesAnyPattern (joinSegs r) [".gitkeep"] = false) ∧
    (∀ d cd, lookupT (.dir (.cons "old.txt" (.file "o") .nil)) d = some cd →
      ["old.txt"] <+: d → ["old.txt"] ≠ d →
      checkPres ["dest"] [".gitkeep"] d cd = false) :=
  C2_removed_path_properties ["dest"] [".gitkeep"]
    (.dir (.cons "old.txt" (.file "o") .nil)) rfl ["old.txt"] (.file "o")
    rfl (by decide) rfl

/-- C6: the sweep's iteration order puts every path before each of its
proper ancestors (lengths sort descending, and a proper ancestor's absolute
path is strictly shorter), and a path that no longer exists when its turn
comes is skipped without touching the tree. -/
theorem C6_order_and_skip (dirSegs E : List String) (t : FSTree) :
    (sortDescByKey ((nodesT [] t).map Prod.fst)).Pairwise
      (fun a b => ¬ (a <+: b ∧ a ≠ b)) ∧
    (∀ (t' : FSTree) (p : List String), lookupT t' p = none →
      sweepStep dirSegs E t' p = t') := by
  constructor
  · have hsort : (sortDescByKey ((nodesT [] t).map Prod.fst)).Sorted keyGE :=
      List.sorted_insertionSort keyGE ((nodesT [] t).map Prod.fst)
    refine hsort.imp ?_
    intro a b hab hcon
    have hlt := pathKey_lt_of_proper a b hcon.1 hcon.2
    have hge : pathKey b ≤ pathKey a := hab
    omega
  · intro t' p hl
    unfold sweepStep
    rw [hl]

theorem C6_order_and_skip_witness :
    ((sortDescByKey ((nodesT [] tC1).map Prod.fst)).Pairwise
      (fun a b => ¬ (a <+: b ∧ a ≠ b)) ∧
    sweepStep ["dest"] [] tC1 ["missing"] = tC1) :=
  ⟨(C6_order_and_skip ["dest"] [] tC1).1,
   (C6_order_and_skip ["dest"] [] tC1).2 tC1 ["missing"] rfl⟩

theorem ancLocal_of_hidden_dir (dirSegs E p : List String) (hp : p ≠ [])
    (h : ∃ s ∈ dirSegs, isHiddenName s = true) : ancLocal dirSegs E p = true := by
  obtain ⟨s, hs, hhid⟩ := h
  obtain ⟨k, hk, hget⟩ := List.mem_iff_getElem.mp hs
  have hp1 : 1 ≤ p.length := by
    cases p with
    | nil => exact absurd rfl hp
    | cons x l => simp
  have hmem : dirSegs.take (k + 1) ∈ properPrefixes (dirSegs ++ p) := by
    apply mem_properPrefixes
    · exact (List.take_prefix (k + 1) dirSegs).trans (List.prefix_append dirSegs p)
    · intro hcon
      have h9 := congrArg List.length hcon
      rw [List.length_take] at h9
      simp only [List.length_nil] at h9
      omega
    · intro hcon
      have h9 := congrArg List.length hcon
      rw [List.length_take, List.length_append] at h9
      omega
  unfold ancLocal
  rw [List.any_eq_true]
  refine ⟨dirSegs.take (k + 1), hmem, ?_⟩
  unfold localHit
  have hlast : lastSeg (dirSegs.take (k + 1)) = s := by
    unfold lastSeg
    rw [List.take_succ]
    have : dirSegs[k]? = some s := by
      rw [List.getElem?_eq_getElem hk, hget]
    rw [this]
    simp [List.getLast?_concat]
  rw [hlast, hhid]
  rfl

/-- C10: when any component of the destination directory's own path starts
with a dot, the ancestor walk of the preservation check reaches it and every
path under the destination is preserved: the clear removes nothing. -/
theorem C10_hidden_destination_clears_nothing (dirSegs E : List String) (t : FSTree)
    (h : ∃ s ∈ dirSegs, isHiddenName s = true) :
    clearDestinationDir dirSegs E t = t := by
  unfold clearDestinationDir
  have hne : ∀ p ∈ sortDescByKey ((nodesT [] t).map Prod.fst), p ≠ [] := by
    intro p hp
    have hmem := (List.perm_insertionSort keyGE ((nodesT [] t).map Prod.fst)).mem_iff.mp hp
    obtain ⟨⟨q, c⟩, hqc, hq⟩ := List.mem_map.mp hmem
    simp only at hq
    obtain ⟨s2, hs2, hqs2⟩ := nodesT_shape t [] q c hqc
    rw [← hq, hqs2]
    simpa using hs2
  generalize sortDescByKey ((nodesT [] t).map Prod.fst) = L at hne
  induction L with
  | nil => rfl
  | cons p L' ih =>
      have hstep : sweepStep dirSegs E t p = t := by
        unfold sweepStep
        cases hl : lookupT t p with
        | none => rfl
        | some sub =>
            have hanc := ancLocal_of_hidden_dir dirSegs E p (hne p (by simp)) h
            have hck : checkPres dirSegs E p sub = true := by
              cases sub <;> simp [checkPres, hanc]
            show (if checkPres dirSegs E p sub = true then t else removePath t p) = t
            rw [hck]
            simp
      show List.foldl _ (sweepStep dirSegs E t p) L' = t
      rw [hstep]
      exact ih (fun p2 hp2 => hne p2 (by simp [hp2]))

theorem C10_hidden_destination_clears_nothing_witness :
    clearDestinationDir ["home", ".cfg", "out"] ["*.json"] tC1 = tC1 :=
  C10_hidden_destination_clears_nothing ["home", ".cfg", "out"] ["*.json"] tC1
    ⟨".cfg", by simp, rfl⟩

/-! ## Claims C5, C7, C8: the finder -/

theorem shouldInclude_not_excluded (path : List Char) (inc exc : List String)
    (h : shouldInclude path inc exc = true) (pat : String) (hpat : pat ∈ exc) :
    finderPatternHit pat path = false := by
  cases hhit : finderPatternHit pat path with
  | false => rfl
  | true =>
      exfalso
      have hex : exc.any (fun pat => finderPatternHit pat path) = true :=
        List.any_eq_true.mpr ⟨pat, hpat, hhit⟩
      unfold shouldInclude at h
      rw [if_pos hex] at h
      exact Bool.false_ne_true h

mutual
theorem walkFoundT_included (inc exc : List String) :
    ∀ (t : FSTree) (rel r : List String),
      r ∈ walkFoundT inc exc rel t → shouldInclude (joinSegs r) inc exc = true := by
  intro t rel r hr
  cases t with
  | file c =>
      by_cases hi : shouldInclude (joinSegs rel) inc exc = true
      · simp only [walkFoundT, hi, if_pos, if_true, List.mem_singleton] at hr
        rw [hr]
        exact hi
      · simp only [walkFoundT, if_neg hi] at hr
        simp at hr
  | dir es =>
      by_cases hx : isDirExcluded (joinSegs rel) exc = true
      · simp only [walkFoundT, hx, if_true] at hr
        simp at hr
      · simp only [walkFoundT, hx, if_false, Bool.false_eq_true] at hr
        exact walkFoundE_included inc exc es rel r hr
theorem walkFoundE_included (inc exc : List String) :
    ∀ (es : FSEntries) (rel r : List String),
      r ∈ walkFoundE inc exc rel es → shouldInclude (joinSegs r) inc exc = true := by
  intro es rel r hr
  cases es with
  | nil => simp [walkFoundE] at hr
  | cons n c tail =>
      simp only [walkFoundE, List.mem_append] at hr
      rcases hr with hr | hr
      · exact walkFoundT_included inc exc c (rel ++ [n]) r hr
      · exact walkFoundE_included inc exc tail rel r hr
end

theorem findWalk_included (inc exc : List String) (t : FSTree) (r : List String)
    (hr : r ∈ findWalk inc exc t) : shouldInclude (joinSegs r) inc exc = true := by
  cases t with
  | file c => simp [findWalk] at hr
  | dir es => exact walkFoundE_included inc exc es [] r hr

/-- C5: no path in a FindFiles result matches any exclude pattern by the
full-path, base-name, or directory-scope test: exclusion overrides any
include match, for files and for the ancestor directories added to the
result alike. -/
theorem C5_result_never_excluded (t : FSTree) (includes excludes : List String)
    (res : List (List Char)) (hres : FindFiles (some t) includes excludes = .ok res)
    (p : List Char) (hp : p ∈ res) (pat : String) (hpat : pat ∈ excludes) :
    finderPatternHit pat p = false := by
  have hres2 : res = findList t includes excludes := by
    have h2 := hres
    unfold FindFiles at h2
    cases h2
    rfl
  subst hres2
  unfold findList at hp
  have hp2 := (List.perm_insertionSort lexGE _).mem_iff.mp hp
  rw [List.mem_dedup, List.mem_append] at hp2
  rcases hp2 with hp2 | hp2
  · obtain ⟨r, hr, hrp⟩ := List.mem_map.mp hp2
    rw [← hrp]
    exact shouldInclude_not_excluded (joinSegs r) includes excludes
      (findWalk_included includes excludes t r hr) pat hpat
  · obtain ⟨d, hd, hdp⟩ := List.mem_map.mp hp2
    rw [List.mem_filter] at hd
    rw [← hdp]
    exact shouldInclude_not_excluded (joinSegs d) ["*"] excludes hd.2 pat hpat

theorem C5_result_never_excluded_witness :
    finderPatternHit "dir1/*" (chars "dir2/b.go") = false := by
  have h1 : FindFiles (some (.dir (.cons "dir1" (.dir (.cons "a.go" (.file "a") .nil))
      (.cons "dir2" (.dir (.cons "b.go" (.file "b") .nil)) .nil))))
      ["*.go"] ["dir1/*"] = .ok [chars "dir2/b.go", chars "dir2"] := rfl
  exact C5_result_never_excluded _ ["*.go"] ["dir1/*"] _ h1 (chars "dir2/b.go")
    (by decide) "dir1/*" (by decide)

theorem chars_lt_of_proper_prefix : ∀ (a b : List Char), a <+: b → a ≠ b → a < b := by
  intro a
  induction a with
  | nil =>
      intro b _ hne
      cases b with
      | nil => exact absurd rfl hne
      | cons c cs => exact List.Lex.nil
  | cons x a' ih =>
      intro b hpre hne
      cases b with
      | nil => simp [List.prefix_nil] at hpre
      | cons y b' =>
          obtain ⟨u, hu⟩ := hpre
          injection hu with h1 h2
          subst h1
          exact List.Lex.cons (ih b' ⟨u, h2⟩
            (fun he => hne (by rw [he])))

theorem sortStrDesc_dedup_props (l : List (List Char)) :
    (sortStrDesc l.dedup).Nodup ∧ (sortStrDesc l.dedup).Pairwise (fun a b => b < a) ∧
      (sortStrDesc l.dedup).Pairwise (fun a b => ¬ ((a ++ ['/']) <+: b)) := by
  have hperm := List.perm_insertionSort lexGE l.dedup
  have hnodup : (sortStrDesc l.dedup).Nodup := hperm.nodup_iff.mpr (List.nodup_dedup l)
  have hsorted : (sortStrDesc l.dedup).Sorted lexGE :=
    List.sorted_insertionSort lexGE l.dedup
  refine ⟨hnodup, ?_, ?_⟩
  · have hand := List.Pairwise.and hsorted hnodup
    refine hand.imp ?_
    intro a b hab
    exact lt_of_le_of_ne hab.1 (fun he => hab.2 he.symm)
  · have hand := List.Pairwise.and hsorted hnodup
    refine hand.imp ?_
    intro a b hab hcon
    have hpre : a <+: b := ((a.prefix_append ['/']).trans hcon)
    have hlt : a < b := chars_lt_of_proper_prefix a b hpre (by
      intro he
      subst he
      have := hcon.length_le
      simp at this)
    have hle : b ≤ a := hab.1
    exact absurd hlt (not_lt_of_ge hle)

/-- C7: a FindFiles result has no duplicates and is strictly descending in
lexicographic order; in particular a directory never precedes a returned
path beneath it. -/
theorem C7_result_sorted_nodup (t : FSTree) (includes excludes : List String)
    (res : List (List Char)) (hres : FindFiles (some t) includes excludes = .ok res) :
    res.Nodup ∧ res.Pairwise (fun a b => b < a) ∧
      res.Pairwise (fun a b => ¬ ((a ++ ['/']) <+: b)) := by
  have hres2 : res = findList t includes excludes := by
    have h2 := hres
    unfold FindFiles at h2
    cases h2
    rfl
  subst hres2
  exact sortStrDesc_dedup_props ((findWalk includes excludes t).map joinSegs ++
    ((((findWalk includes excludes t).flatMap properPrefixes).dedup.filter
      (fun d => shouldInclude (joinSegs d) ["*"] excludes)).map joinSegs))

theorem C7_result_sorted_nodup_witness :
    ([chars "dir2/b.go", chars "dir2"].Nodup ∧
     [chars "dir2/b.go", chars "dir2"].Pairwise (fun a b => b < a) ∧
     [chars "dir2/b.go", chars "dir2"].Pairwise (fun a b => ¬ ((a ++ ['/']) <+: b))) :=
  C7_result_sorted_nodup (.dir (.cons "dir1" (.dir (.cons "a.go" (.file "a") .nil))
      (.cons "dir2" (.dir (.cons "b.go" (.file "b") .nil)) .nil)))
    ["*.go"] ["dir1/*"] [chars "dir2/b.go", chars "dir2"] rfl

/-- C8: FindFiles on a missing root returns the NotFound stat error with a
nil result, whatever the include and exclude lists. -/
theorem C8_missing_root (includes excludes : List String) :
    FindFiles none includes excludes = .error .notFound := rfl

/-! ## Copy-phase frame lemmas -/

/-- The observable kind of a single node. -/
def kindOf : FSTree → Option String
  | .file c => some c
  | .dir _ => none

theorem kindAt_eq (t : FSTree) (p : List String) :
    kindAt t p = (lookupT t p).map kindOf := by
  unfold kindAt
  cases lookupT t p with
  | none => rfl
  | some c => cases c <;> rfl

theorem setFileE_cons_ne (m : String) (c : FSTree) (tail : FSEntries) (n : String)
    (rest : List String) (content : String) (hmn : ¬ m = n) :
    setFileE (.cons m c tail) n rest content =
      (setFileE tail n rest content).map (fun tail' => .cons m c tail') := by
  cases rest with
  | nil =>
      cases c with
      | file f => simp [setFileE, if_neg hmn]
      | dir ces => simp [setFileE, if_neg hmn]
  | cons r rs =>
      cases c with
      | file f => simp [setFileE, if_neg hmn]
      | dir ces => simp [setFileE, if_neg hmn]

theorem copyDirAtE_cons_ne (src : FSTree) (m : String) (c : FSTree) (tail : FSEntries)
    (n : String) (rest : List String) (hmn : ¬ m = n) :
    copyDirAtE src (.cons m c tail) n rest =
      (copyDirAtE src tail n rest).map (fun tail' => .cons m c tail') := by
  cases rest with
  | nil => simp [copyDirAtE, if_neg hmn]
  | cons r rs => simp [copyDirAtE, if_neg hmn]

theorem setFileE_kind_frame (content : String) :
    ∀ (es es' : FSEntries) (n : String) (rest : List String),
      setFileE es n rest content = some es' →
      ∀ (m' : String) (qr : List String), ¬ ((n :: rest) <+: (m' :: qr)) →
        lookupE es m' qr ≠ none →
        (lookupE es' m' qr).map kindOf = (lookupE es m' qr).map kindOf := by
  intro es es' n rest hset m' qr hnp hne
  cases es with
  | nil => simp [lookupE] at hne
  | cons m c tail =>
      by_cases hmn : m = n
      · subst hmn
        cases rest with
        | nil =>
            cases c with
            | dir ces => simp [setFileE, if_pos rfl] at hset
            | file f =>
                simp only [setFileE, if_pos rfl, Option.some.injEq] at hset
                cases hset
                by_cases hm' : m = m'
                · exfalso
                  exact hnp (List.cons_prefix_cons.mpr ⟨hm', List.nil_prefix⟩)
                · simp [lookupE, hm']
        | cons r rs =>
            cases c with
            | file f => simp [setFileE, if_pos rfl] at hset
            | dir ces =>
                simp only [setFileE, if_pos rfl] at hset
                cases hrec : setFileE ces r rs content with
                | none => rw [hrec] at hset; simp at hset
                | some ces' =>
                    rw [hrec] at hset
                    simp only [Option.map_some', Option.some.injEq] at hset
                    cases hset
                    by_cases hm' : m = m'
                    · subst hm'
                      simp only [lookupE, if_pos rfl] at hne ⊢
                      cases qr with
                      | nil => simp [lookupT, kindOf]
                      | cons a qs =>
                          show (lookupE ces' a qs).map kindOf =
                            (lookupE ces a qs).map kindOf
                          apply setFileE_kind_frame content ces ces' r rs hrec a qs
                          · intro hcon
                            exact hnp (List.cons_prefix_cons.mpr ⟨rfl, hcon⟩)
                          · exact hne
                    · simp [lookupE, hm']
      · rw [setFileE_cons_ne m c tail n rest content hmn] at hset
        cases hrec : setFileE tail n rest content with
        | none => rw [hrec] at hset; simp at hset
        | some tail' =>
            rw [hrec] at hset
            simp only [Option.map_some', Option.some.injEq] at hset
            cases hset
            by_cases hm' : m = m'
            · simp [lookupE, hm']
            · simp only [lookupE, hm', if_false]
              simp only [lookupE, hm', if_false] at hne
              exact setFileE_kind_frame content tail tail' n rest hrec m' qr hnp hne

theorem setFileT_kind_frame (cur cur' : FSTree) (p : List String) (content : String)
    (hset : setFileT cur p content = some cur') :
    ∀ q, ¬ (p <+: q) → lookupT cur q ≠ none →
      (lookupT cur' q).map kindOf = (lookupT cur q).map kindOf := by
  intro q hnp hne
  cases cur with
  | file f => cases p <;> simp [setFileT] at hset
  | dir es =>
      cases p with
      | nil => simp [setFileT] at hset
      | cons n rest =>
          simp only [setFileT] at hset
          cases hrec : setFileE es n rest content with
          | none => rw [hrec] at hset; simp at hset
          | some es' =>
              rw [hrec] at hset
              simp only [Option.map_some', Option.some.injEq] at hset
              cases hset
              cases q with
              | nil => simp [lookupT, kindOf]
              | cons m' qr =>
                  exact setFileE_kind_frame content es es' n rest hrec m' qr hnp hne

mutual
theorem copyDirAtT_frame (src : FSTree) : ∀ (cur cur' : FSTree) (r : List String),
    copyDirAtT src cur r = some cur' → ∀ q, ¬ (r <+: q) → lookupT cur q ≠ none →
      (lookupT cur' q).map kindOf = (lookupT cur q).map kindOf := by
  intro cur cur' r hcp q hnp hne
  cases r with
  | nil => exact absurd List.nil_prefix hnp
  | cons n rest =>
      cases cur with
      | file f => simp [copyDirAtT] at hcp
      | dir es =>
          simp only [copyDirAtT] at hcp
          cases hrec : copyDirAtE src es n rest with
          | none => rw [hrec] at hcp; simp at hcp
          | some es' =>
              rw [hrec] at hcp
              simp only [Option.map_some', Option.some.injEq] at hcp
              cases hcp
              cases q with
              | nil => simp [lookupT, kindOf]
              | cons m' qr =>
                  exact copyDirAtE_frame src es es' n rest hrec m' qr hnp hne
theorem copyDirAtE_frame (src : FSTree) : ∀ (es es' : FSEntries) (n : String)
    (rest : List String), copyDirAtE src es n rest = some es' →
    ∀ (m' : String) (qr : List String), ¬ ((n :: rest) <+: (m' :: qr)) →
      lookupE es m' qr ≠ none →
      (lookupE es' m' qr).map kindOf = (lookupE es m' qr).map kindOf := by
  intro es es' n rest hcp m' qr hnp hne
  cases es with
  | nil => simp [lookupE] at hne
  | cons m c tail =>
      by_cases hmn : m = n
      · subst hmn
        cases rest with
        | nil =>
            by_cases hm' : m = m'
            · exfalso
              exact hnp (List.cons_prefix_cons.mpr ⟨hm', List.nil_prefix⟩)
            · simp only [copyDirAtE, if_pos rfl] at hcp
              cases hrec : copyDirT src (some c) with
              | none => rw [hrec] at hcp; simp at hcp
              | some sub =>
                  rw [hrec] at hcp
                  simp only [Option.map_some', Option.some.injEq] at hcp
                  cases hcp
                  simp [lookupE, hm']
        | cons a rs =>
            simp only [copyDirAtE, if_pos rfl] at hcp
            cases hrec : copyDirAtT src c (a :: rs) with
            | none => rw [hrec] at hcp; simp at hcp
            | some sub =>
                rw [hrec] at hcp
                simp only [Option.map_some', Option.some.injEq] at hcp
                cases hcp
                by_cases hm' : m = m'
                · subst hm'
                  simp only [lookupE, if_pos rfl] at hne ⊢
                  apply copyDirAtT_frame src c sub (a :: rs) hrec qr
                  · intro hcon
                    exact hnp (List.cons_prefix_cons.mpr ⟨rfl, hcon⟩)
                  · exact hne
                · simp [lookupE, hm']
      · rw [copyDirAtE_cons_ne src m c tail n rest hmn] at hcp
        cases hrec : copyDirAtE src tail n rest with
        | none => rw [hrec] at hcp; simp at hcp
        | some tail' =>
            rw [hrec] at hcp
            simp only [Option.map_some', Option.some.injEq] at hcp
            cases hcp
            by_cases hm' : m = m'
            · simp [lookupE, hm']
            · simp only [lookupE, hm', if_false]
              simp only [lookupE, hm', if_false] at hne
              exact copyDirAtE_frame src tail tail' n rest hrec m' qr hnp hne
end

theorem copyAll_kind_frame (src : FSTree) : ∀ (rps : List (List String))
    (cur cur' : FSTree), copyAll src cur rps = some cur' →
    ∀ q, (∀ r ∈ rps, ¬ (r <+: q)) → lookupT cur q ≠ none →
      (lookupT cur' q).map kindOf = (lookupT cur q).map kindOf := by
  intro rps
  induction rps with
  | nil =>
      intro cur cur' hcp q _ _
      simp only [copyAll, Option.some.injEq] at hcp
      cases hcp
      rfl
  | cons r rs ih =>
      intro cur cur' hcp q hq hne
      simp only [copyAll] at hcp
      cases hsrc : lookupT src r with
      | none => rw [hsrc] at hcp; simp at hcp
      | some sc =>
          rw [hsrc] at hcp
          cases sc with
          | dir ses =>
              have hcp2 : (match copyDirAtT (.dir ses) cur r with
                  | none => none
                  | some cur1 => copyAll src cur1 rs) = some cur' := hcp
              cases hstep : copyDirAtT (.dir ses) cur r with
              | none => rw [hstep] at hcp2; simp at hcp2
              | some cur1 =>
                  rw [hstep] at hcp2
                  have hfr := copyDirAtT_frame (.dir ses) cur cur1 r hstep q
                    (hq r (List.mem_cons_self r rs)) hne
                  have hne1 : lookupT cur1 q ≠ none := by
                    intro hcon
                    rw [hcon] at hfr
                    cases hl : lookupT cur q with
                    | none => exact hne hl
                    | some c => rw [hl] at hfr; simp at hfr
                  have hrest := ih cur1 cur' hcp2 q
                    (fun r' hr' => hq r' (List.mem_cons_of_mem r hr')) hne1
                  rw [hrest, hfr]
          | file content =>
              have hcp2 : (match setFileT cur r content with
                  | none => none
                  | some cur1 => copyAll src cur1 rs) = some cur' := hcp
              cases hstep : setFileT cur r content with
              | none => rw [hstep] at hcp2; simp at hcp2
              | some cur1 =>
                  rw [hstep] at hcp2
                  have hfr := setFileT_kind_frame cur cur1 r content hstep q
                    (hq r (List.mem_cons_self r rs)) hne
                  have hne1 : lookupT cur1 q ≠ none := by
                    intro hcon
                    rw [hcon] at hfr
                    cases hl : lookupT cur q with
                    | none => exact hne hl
                    | some c => rw [hl] at hfr; simp at hfr
                  have hrest := ih cur1 cur' hcp2 q
                    (fun r' hr' => hq r' (List.mem_cons_of_mem r hr')) hne1
                  rw [hrest, hfr]

/-- C9: with `cleanDest = false`, a successful `CopyFiles` leaves every
pre-existing destination path that is neither one of the listed relative
paths nor a descendant of one with the same observable kind: it still
exists, stays a file or a directory as before, and a file keeps its exact
content. -/
theorem C9_clean_false_frame (src dst0 dfin : FSTree)
    (rps : List (List String)) (E dirSegs : List String)
    (hcp : CopyFiles src (some dst0) rps false E dirSegs = some dfin)
    (q : List String) (hq : ∀ r ∈ rps, ¬ (r <+: q))
    (hex : kindAt dst0 q ≠ none) :
    kindAt dfin q = kindAt dst0 q ∧ kindAt dfin q ≠ none := by
  have hne : lookupT dst0 q ≠ none := by
    intro hcon
    apply hex
    unfold kindAt
    rw [hcon]
  cases dst0 with
  | file f => exact Option.noConfusion hcp
  | dir es =>
      have hcp2 : copyAll src (.dir es) rps = some dfin := hcp
      have hmain := copyAll_kind_frame src rps (.dir es) dfin hcp2 q hq hne
      have heq : kindAt dfin q = kindAt (.dir es) q := by
        rw [kindAt_eq, kindAt_eq, hmain]
      exact ⟨heq, by rw [heq]; exact hex⟩

theorem C9_clean_false_frame_witness :
    (kindAt (.dir (.cons "keep.txt" (.file "old") .nil)) ["keep.txt"] ≠ none) ∧
    (kindAt
        (match CopyFiles (.dir (.cons "a.txt" (.file "new") .nil))
            (some (.dir (.cons "keep.txt" (.file "old") .nil)))
            [["a.txt"]] false [] ["dest"] with
          | some d => d
          | none => .dir .nil) ["keep.txt"] =
      kindAt (.dir (.cons "keep.txt" (.file "old") .nil)) ["keep.txt"]) := by
  refine ⟨by decide, ?_⟩
  exact (C9_clean_false_frame (.dir (.cons "a.txt" (.file "new") .nil))
    (.dir (.cons "keep.txt" (.file "old") .nil))
    (.dir (.cons "keep.txt" (.file "old") (.cons "a.txt" (.file "new") .nil)))
    [["a.txt"]] [] ["dest"] rfl ["keep.txt"] (by decide) (by decide)).1

theorem kindOf_file (x : FSTree) (c : String) (h : kindOf x = some c) :
    x = .file c := by
  cases x with
  | file f => simp [kindOf] at h; rw [h]
  | dir es => simp [kindOf] at h

theorem chainFile_lookup_self (content : String) : ∀ (rest : List String),
    lookupT (chainFile rest content) rest = some (.file content) := by
  intro rest
  induction rest with
  | nil => rfl
  | cons n rs ih => simpa [chainFile, lookupT, lookupE] using ih

theorem chainFile_file_cases (content : String) : ∀ (rest q : List String) (c : String),
    lookupT (chainFile rest content) q = some (.file c) → q = rest ∧ c = content := by
  intro rest
  induction rest with
  | nil =>
      intro q c h
      cases q with
      | nil => simp [chainFile, lookupT] at h; exact ⟨rfl, h.symm⟩
      | cons m qr => simp [chainFile, lookupT] at h
  | cons n rs ih =>
      intro q c h
      cases q with
      | nil => simp [chainFile, lookupT] at h
      | cons m qr =>
          simp only [chainFile, lookupT, lookupE] at h
          by_cases hnm : n = m
          · rw [if_pos hnm] at h
            obtain ⟨h1, h2⟩ := ih qr c h
            exact ⟨by rw [← hnm, h1], h2⟩
          · rw [if_neg hnm] at h
            simp [lookupE] at h

theorem chainFile_dir_cases (content : String) : ∀ (rest q : List String) (es2 : FSEntries),
    lookupT (chainFile rest content) q = some (.dir es2) → q <+: rest ∧ q ≠ rest := by
  intro rest
  induction rest with
  | nil =>
      intro q es2 h
      cases q with
      | nil => simp [chainFile, lookupT] at h
      | cons m qr => simp [chainFile, lookupT] at h
  | cons n rs ih =>
      intro q es2 h
      cases q with
      | nil => exact ⟨List.nil_prefix, by simp⟩
      | cons m qr =>
          simp only [chainFile, lookupT, lookupE] at h
          by_cases hnm : n = m
          · rw [if_pos hnm] at h
            obtain ⟨h1, h2⟩ := ih qr es2 h
            subst hnm
            exact ⟨List.cons_prefix_cons.mpr ⟨rfl, h1⟩, by simp [h2]⟩
          · rw [if_neg hnm] at h
            simp [lookupE] at h

theorem setFileE_self (content : String) : ∀ (es es' : FSEntries) (n : String)
    (rest : List String), setFileE es n rest content = some es' →
    lookupE es' n rest = some (.file content) := by
  intro es es' n rest hset
  cases es with
  | nil =>
      simp only [setFileE, Option.some.injEq] at hset
      cases hset
      simp only [lookupE, if_pos rfl]
      exact chainFile_lookup_self content rest
  | cons m c tail =>
      by_cases hmn : m = n
      · subst hmn
        cases rest with
        | nil =>
            cases c with
            | dir ces => simp [setFileE, if_pos rfl] at hset
            | file f =>
                simp only [setFileE, if_pos rfl, Option.some.injEq] at hset
                cases hset
                simp [lookupE, lookupT]
        | cons r rs =>
            cases c with
            | file f => simp [setFileE, if_pos rfl] at hset
            | dir ces =>
                simp only [setFileE, if_pos rfl] at hset
                cases hrec : setFileE ces r rs content with
                | none => rw [hrec] at hset; simp at hset
                | some ces' =>
                    rw [hrec] at hset
                    simp only [Option.map_some', Option.some.injEq] at hset
                    cases hset
                    simp only [lookupE, if_pos rfl, lookupT]
                    exact setFileE_self content ces ces' r rs hrec
      · rw [setFileE_cons_ne m c tail n rest content hmn] at hset
        cases hrec : setFileE tail n rest content with
        | none => rw [hrec] at hset; simp at hset
        | some tail' =>
            rw [hrec] at hset
            simp only [Option.map_some', Option.some.injEq] at hset
            cases hset
            simp only [lookupE, if_neg hmn]
            exact setFileE_self content tail tail' n rest hrec

theorem setFileE_new_file (content : String) : ∀ (es es' : FSEntries) (n : String)
    (rest : List String), setFileE es n rest content = some es' →
    ∀ (m' : String) (qr : List String) (c : String),
      lookupE es' m' qr = some (.file c) →
      (m' = n ∧ qr = rest ∧ c = content) ∨ lookupE es m' qr = some (.file c) := by
  intro es es' n rest hset m' qr c hl
  cases es with
  | nil =>
      simp only [setFileE, Option.some.injEq] at hset
      cases hset
      simp only [lookupE] at hl
      by_cases hnm : n = m'
      · rw [if_pos hnm] at hl
        obtain ⟨h1, h2⟩ := chainFile_file_cases content rest qr c hl
        exact Or.inl ⟨hnm.symm, h1, h2⟩
      · rw [if_neg hnm] at hl
        simp [lookupE] at hl
  | cons m c0 tail =>
      by_cases hmn : m = n
      · subst hmn
        cases rest with
        | nil =>
            cases c0 with
            | dir ces => simp [setFileE, if_pos rfl] at hset
            | file f =>
                simp only [setFileE, if_pos rfl, Option.some.injEq] at hset
                cases hset
                simp only [lookupE] at hl ⊢
                by_cases hm' : m = m'
                · rw [if_pos hm'] at hl
                  cases qr with
                  | nil =>
                      simp only [lookupT, Option.some.injEq, FSTree.file.injEq] at hl
                      exact Or.inl ⟨hm'.symm, rfl, hl.symm⟩
                  | cons a qs => simp [lookupT] at hl
                · rw [if_neg hm'] at hl
                  rw [if_neg hm']
                  exact Or.inr hl
        | cons r rs =>
            cases c0 with
            | file f => simp [setFileE, if_pos rfl] at hset
            | dir ces =>
                simp only [setFileE, if_pos rfl] at hset
                cases hrec : setFileE ces r rs content with
                | none => rw [hrec] at hset; simp at hset
                | some ces' =>
                    rw [hrec] at hset
                    simp only [Option.map_some', Option.some.injEq] at hset
                    cases hset
                    simp only [lookupE] at hl ⊢
                    by_cases hm' : m = m'
                    · rw [if_pos hm'] at hl
                      rw [if_pos hm']
                      cases qr with
                      | nil => simp [lookupT] at hl
                      | cons a qs =>
                          simp only [lookupT] at hl ⊢
                          rcases setFileE_new_file content ces ces' r rs hrec a qs c hl with
                            ⟨h1, h2, h3⟩ | hold
                          · exact Or.inl ⟨hm'.symm, by rw [h1, h2], h3⟩
                          · exact Or.inr hold
                    · rw [if_neg hm'] at hl
                      rw [if_neg hm']
                      exact Or.inr hl
      · rw [setFileE_cons_ne m c0 tail n rest content hmn] at hset
        cases hrec : setFileE tail n rest content with
        | none => rw [hrec] at hset; simp at hset
        | some tail' =>
            rw [hrec] at hset
            simp only [Option.map_some', Option.some.injEq] at hset
            cases hset
            simp only [lookupE] at hl ⊢
            by_cases hm' : m = m'
            · rw [if_pos hm'] at hl
              rw [if_pos hm']
              exact Or.inr hl
            · rw [if_neg hm'] at hl
              rw [if_neg hm']
              exact setFileE_new_file content tail tail' n rest hrec m' qr c hl

theorem setFileE_new_dir (content : String) : ∀ (es es' : FSEntries) (n : String)
    (rest : List String), setFileE es n rest content = some es' →
    ∀ (m' : String) (qr : List String) (es2 : FSEntries),
      lookupE es' m' qr = some (.dir es2) →
      (m' = n ∧ qr <+: rest ∧ qr ≠ rest) ∨ ∃ es3, lookupE es m' qr = some (.dir es3) := by
  intro es es' n rest hset m' qr es2 hl
  cases es with
  | nil =>
      simp only [setFileE, Option.some.injEq] at hset
      cases hset
      simp only [lookupE] at hl
      by_cases hnm : n = m'
      · rw [if_pos hnm] at hl
        obtain ⟨h1, h2⟩ := chainFile_dir_cases content rest qr es2 hl
        exact Or.inl ⟨hnm.symm, h1, h2⟩
      · rw [if_neg hnm] at hl
        simp [lookupE] at hl
  | cons m c0 tail =>
      by_cases hmn : m = n
      · subst hmn
        cases rest with
        | nil =>
            cases c0 with
            | dir ces => simp [setFileE, if_pos rfl] at hset
            | file f =>
                simp only [setFileE, if_pos rfl, Option.some.injEq] at hset
                cases hset
                simp only [lookupE] at hl ⊢
                by_cases hm' : m = m'
                · rw [if_pos hm'] at hl
                  cases qr with
                  | nil => simp [lookupT] at hl
                  | cons a qs => simp [lookupT] at hl
                · rw [if_neg hm'] at hl
                  rw [if_neg hm']
                  exact Or.inr ⟨es2, hl⟩
        | cons r rs =>
            cases c0 with
            | file f => simp [setFileE, if_pos rfl] at hset
            | dir ces =>
                simp only [setFileE, if_pos rfl] at hset
                cases hrec : setFileE ces r rs content with
                | none => rw [hrec] at hset; simp at hset
                | some ces' =>
                    rw [hrec] at hset
                    simp only [Option.map_some', Option.some.injEq] at hset
                    cases hset
                    simp only [lookupE] at hl ⊢
                    by_cases hm' : m = m'
                    · rw [if_pos hm'] at hl
                      rw [if_pos hm']
                      cases qr with
                      | nil =>
                          refine Or.inl ⟨hm'.symm, List.nil_prefix, by simp⟩
                      | cons a qs =>
                          simp only [lookupT] at hl ⊢
                          rcases setFileE_new_dir content ces ces' r rs hrec a qs es2 hl with
                            ⟨h1, h2, h3⟩ | ⟨es3, hold⟩
                          · refine Or.inl ⟨hm'.symm, ?_, ?_⟩
                            · exact List.cons_prefix_cons.mpr ⟨h1, h2⟩
                            · simp [h1, h3]
                          · exact Or.inr ⟨es3, hold⟩
                    · rw [if_neg hm'] at hl
                      rw [if_neg hm']
                      exact Or.inr ⟨es2, hl⟩
      · rw [setFileE_cons_ne m c0 tail n rest content hmn] at hset
        cases hrec : setFileE tail n rest content with
        | none => rw [hrec] at hset; simp at hset
        | some tail' =>
            rw [hrec] at hset
            simp only [Option.map_some', Option.some.injEq] at hset
            cases hset
            simp only [lookupE] at hl ⊢
            by_cases hm' : m = m'
            · rw [if_pos hm'] at hl
              rw [if_pos hm']
              exact Or.inr ⟨es2, hl⟩
            · rw [if_neg hm'] at hl
              rw [if_neg hm']
              exact setFileE_new_dir content tail tail' n rest hrec m' qr es2 hl

theorem setFileE_success (content : String) : ∀ (es : FSEntries) (n : String)
    (rest : List String),
    (∀ (qr : List String) (c : String), qr <+: rest → qr ≠ rest →
        lookupE es n qr ≠ some (.file c)) →
    (∀ es2, lookupE es n rest ≠ some (.dir es2)) →
    (setFileE es n rest content).isSome = true := by
  intro es n rest hfile hdir
  cases es with
  | nil => simp [setFileE]
  | cons m c0 tail =>
      by_cases hmn : m = n
      · subst hmn
        cases rest with
        | nil =>
            cases c0 with
            | file f => simp [setFileE]
            | dir ces =>
                exfalso
                exact hdir ces (by simp [lookupE, lookupT])
        | cons r rs =>
            cases c0 with
            | file f =>
                exfalso
                exact hfile [] f List.nil_prefix (by simp) (by simp [lookupE, lookupT])
            | dir ces =>
                have hf2 : ∀ (qr : List String) (c : String), qr <+: rs → qr ≠ rs →
                    lookupE ces r qr ≠ some (.file c) := by
                  intro qr c hpre hne h
                  apply hfile (r :: qr) c
                    (List.cons_prefix_cons.mpr ⟨rfl, hpre⟩) (by simp [hne])
                  simp only [lookupE, if_pos rfl, lookupT]
                  exact h
                have hd2 : ∀ es2, lookupE ces r rs ≠ some (.dir es2) := by
                  intro es2 h
                  apply hdir es2
                  simp only [lookupE, if_pos rfl, lookupT]
                  exact h
                have hrec := setFileE_success content ces r rs hf2 hd2
                simp only [setFileE, if_pos rfl]
                cases h : setFileE ces r rs content with
                | none => rw [h] at hrec; simp at hrec
                | some ces' => simp
      · have hf2 : ∀ (qr : List String) (c : String), qr <+: rest → qr ≠ rest →
            lookupE tail n qr ≠ some (.file c) := by
          intro qr c hpre hne h
          apply hfile qr c hpre hne
          simp only [lookupE, if_neg hmn]
          exact h
        have hd2 : ∀ es2, lookupE tail n rest ≠ some (.dir es2) := by
          intro es2 h
          apply hdir es2
          simp only [lookupE, if_neg hmn]
          exact h
        have hrec := setFileE_success content tail n rest hf2 hd2
        rw [setFileE_cons_ne m c0 tail n rest content hmn]
        cases h : setFileE tail n rest content with
        | none => rw [h] at hrec; simp at hrec
        | some tail' => simp

theorem setFileT_self (cur cur' : FSTree) (p : List String) (content : String)
    (hset : setFileT cur p content = some cur') :
    lookupT cur' p = some (.file content) := by
  cases cur with
  | file f => cases p <;> simp [setFileT] at hset
  | dir es =>
      cases p with
      | nil => simp [setFileT] at hset
      | cons n rest =>
          simp only [setFileT] at hset
          cases hrec : setFileE es n rest content with
          | none => rw [hrec] at hset; simp at hset
          | some es' =>
              rw [hrec] at hset
              simp only [Option.map_some', Option.some.injEq] at hset
              cases hset
              simp only [lookupT]
              exact setFileE_self content es es' n rest hrec

theorem setFileT_new_file (cur cur' : FSTree) (p : List String) (content : String)
    (hset : setFileT cur p content = some cur') :
    ∀ (q : List String) (c : String), lookupT cur' q = some (.file c) →
      (q = p ∧ c = content) ∨ lookupT cur q = some (.file c) := by
  intro q c hl
  cases cur with
  | file f => cases p <;> simp [setFileT] at hset
  | dir es =>
      cases p with
      | nil => simp [setFileT] at hset
      | cons n rest =>
          simp only [setFileT] at hset
          cases hrec : setFileE es n rest content with
          | none => rw [hrec] at hset; simp at hset
          | some es' =>
              rw [hrec] at hset
              simp only [Option.map_some', Option.some.injEq] at hset
              cases hset
              cases q with
              | nil => simp [lookupT] at hl
              | cons m' qr =>
                  simp only [lookupT] at hl ⊢
                  rcases setFileE_new_file content es es' n rest hrec m' qr c hl with
                    ⟨h1, h2, h3⟩ | hold
                  · exact Or.inl ⟨by rw [h1, h2], h3⟩
                  · exact Or.inr hold

theorem setFileT_new_dir (cur cur' : FSTree) (p : List String) (content : String)
    (hset : setFileT cur p content = some cur') :
    ∀ (q : List String) (es2 : FSEntries), q ≠ [] →
      lookupT cur' q = some (.dir es2) →
      (q <+: p ∧ q ≠ p) ∨ ∃ es3, lookupT cur q = some (.dir es3) := by
  intro q es2 hq hl
  cases cur with
  | file f => cases p <;> simp [setFileT] at hset
  | dir es =>
      cases p with
      | nil => simp [setFileT] at hset
      | cons n rest =>
          simp only [setFileT] at hset
          cases hrec : setFileE es n rest content with
          | none => rw [hrec] at hset; simp at hset
          | some es' =>
              rw [hrec] at hset
              simp only [Option.map_some', Option.some.injEq] at hset
              cases hset
              cases q with
              | nil => exact absurd rfl hq
              | cons m' qr =>
                  simp only [lookupT] at hl ⊢
                  rcases setFileE_new_dir content es es' n rest hrec m' qr es2 hl with
                    ⟨h1, h2, h3⟩ | ⟨es3, hold⟩
                  · refine Or.inl ⟨List.cons_prefix_cons.mpr ⟨h1, h2⟩, by simp [h1, h3]⟩
                  · exact Or.inr ⟨es3, hold⟩

theorem setFileT_success (es : FSEntries) (p : List String) (content : String)
    (hp : p ≠ [])
    (hfile : ∀ (q : List String) (c : String), q <+: p → q ≠ p →
        lookupT (.dir es) q ≠ some (.file c))
    (hdir : ∀ es2, lookupT (.dir es) p ≠ some (.dir es2)) :
    (setFileT (.dir es) p content).isSome = true := by
  cases p with
  | nil => exact absurd rfl hp
  | cons n rest =>
      simp only [setFileT]
      have hmain := setFileE_success content es n rest ?hf ?hd
      case hf =>
        intro qr c hpre hne h
        apply hfile (n :: qr) c (List.cons_prefix_cons.mpr ⟨rfl, hpre⟩) (by simp [hne])
        simp only [lookupT]
        exact h
      case hd =>
        intro es2 h
        apply hdir es2
        simp only [lookupT]
        exact h
      cases h : setFileE es n rest content with
      | none => rw [h] at hmain; simp at hmain
      | some es' => simp

theorem lookup_below_file (src : FSTree) (r q : List String) (c : String)
    (hr : lookupT src r = some (.file c)) (hpre : r <+: q) (hne : r ≠ q) :
    lookupT src q = none := by
  obtain ⟨u, hu⟩ := hpre
  cases u with
  | nil => rw [List.append_nil] at hu; exact absurd hu hne
  | cons v vs =>
      rw [← hu, lookup_append, hr]
      simp [lookupT]

theorem setFileT_dir (es : FSEntries) (p : List String) (content : String) (cur' : FSTree)
    (h : setFileT (.dir es) p content = some cur') : ∃ es2, cur' = .dir es2 := by
  cases p with
  | nil => simp [setFileT] at h
  | cons n rest =>
      simp only [setFileT] at h
      cases hrec : setFileE es n rest content with
      | none => rw [hrec] at h; simp at h
      | some es2 =>
          rw [hrec] at h
          simp only [Option.map_some', Option.some.injEq] at h
          exact ⟨es2, h.symm⟩

theorem copyAll_roundtrip (src : FSTree) : ∀ (rps : List (List String)),
    (∀ r ∈ rps, r ≠ [] ∧ ∃ c, lookupT src r = some (.file c)) →
    ∀ (es : FSEntries),
    (∀ q c, lookupT (.dir es) q = some (.file c) → lookupT src q = some (.file c)) →
    (∀ q es2, q ≠ [] → lookupT (.dir es) q = some (.dir es2) →
        ∃ q' c', lookupT src q' = some (.file c') ∧ q <+: q' ∧ q ≠ q') →
    ∃ es', copyAll src (.dir es) rps = some (.dir es') ∧
      (∀ q c, lookupT (.dir es) q = some (.file c) →
        lookupT (.dir es') q = some (.file c)) ∧
      (∀ r ∈ rps, ∀ c, lookupT src r = some (.file c) →
        lookupT (.dir es') r = some (.file c)) := by
  intro rps
  induction rps with
  | nil =>
      intro _ es _ _
      exact ⟨es, rfl, fun q c h => h, by simp⟩
  | cons r rs ih =>
      intro hin es hfileinv hdirinv
      obtain ⟨hrne, c, hc⟩ := hin r (List.mem_cons_self r rs)
      have hsucc : (setFileT (.dir es) r c).isSome = true := by
        apply setFileT_success es r c hrne
        · intro q c2 hpre hne hl
          have hsq := hfileinv q c2 hl
          have := lookup_below_file src q r c2 hsq hpre hne
          rw [this] at hc
          exact Option.noConfusion hc
        · intro es2 hl
          obtain ⟨q', c', hq', hpre', hne'⟩ := hdirinv r es2 hrne hl
          have := lookup_below_file src r q' c hc hpre' hne'
          rw [this] at hq'
          exact Option.noConfusion hq'
      cases hset1 : setFileT (.dir es) r c with
      | none => rw [hset1] at hsucc; simp at hsucc
      | some cur1 =>
          obtain ⟨es1, hes1⟩ := setFileT_dir es r c cur1 hset1
          subst hes1
          have hnodirr : ∀ es2, lookupT (.dir es) r ≠ some (.dir es2) := by
            intro es2 hl
            obtain ⟨q', c', hq', hpre', hne'⟩ := hdirinv r es2 hrne hl
            have := lookup_below_file src r q' c hc hpre' hne'
            rw [this] at hq'
            exact Option.noConfusion hq'
          have hto1 : ∀ q c2, lookupT (.dir es) q = some (.file c2) →
              lookupT (.dir es1) q = some (.file c2) := by
            intro q c2 hl
            by_cases hq : q = r
            · subst hq
              have hsq := hfileinv q c2 hl
              rw [hc] at hsq
              have hc2 : c2 = c := by
                have := Option.some.inj hsq
                exact (FSTree.file.inj this).symm
              rw [hc2]
              exact setFileT_self (.dir es) (.dir es1) q c hset1
            · by_cases hpre : r <+: q
              · exfalso
                obtain ⟨u, hu⟩ := hpre
                cases u with
                | nil => rw [List.append_nil] at hu; exact hq hu.symm
                | cons v vs =>
                    rw [← hu, lookup_append] at hl
                    cases hr0 : lookupT (.dir es) r with
                    | none => rw [hr0] at hl; simp at hl
                    | some t0 =>
                        rw [hr0] at hl
                        cases t0 with
                        | file f => simp [lookupT] at hl
                        | dir es2 => exact hnodirr es2 hr0
              · have hkf := setFileT_kind_frame (.dir es) (.dir es1) r c hset1 q
                  (fun hcon => hpre hcon) (by rw [hl]; simp)
                rw [hl] at hkf
                cases hl1 : lookupT (.dir es1) q with
                | none => rw [hl1] at hkf; simp at hkf
                | some x =>
                    rw [hl1] at hkf
                    simp only [Option.map_some', Option.some.injEq] at hkf
                    rw [kindOf_file x c2 (by rw [hkf]; rfl)]
          have hfileinv1 : ∀ q c2, lookupT (.dir es1) q = some (.file c2) →
              lookupT src q = some (.file c2) := by
            intro q c2 hl
            rcases setFileT_new_file (.dir es) (.dir es1) r c hset1 q c2 hl with
              ⟨h1, h2⟩ | hold
            · rw [h1, h2]; exact hc
            · exact hfileinv q c2 hold
          have hdirinv1 : ∀ q es2, q ≠ [] → lookupT (.dir es1) q = some (.dir es2) →
              ∃ q' c', lookupT src q' = some (.file c') ∧ q <+: q' ∧ q ≠ q' := by
            intro q es2 hq hl
            rcases setFileT_new_dir (.dir es) (.dir es1) r c hset1 q es2 hq hl with
              ⟨h1, h2⟩ | ⟨es3, hold⟩
            · exact ⟨r, c, hc, h1, h2⟩
            · exact hdirinv q es3 hq hold
          obtain ⟨es', hcp', hpers', hprop'⟩ :=
            ih (fun r' hr' => hin r' (List.mem_cons_of_mem r hr')) es1 hfileinv1 hdirinv1
          have hstep : copyAll src (.dir es) (r :: rs) = copyAll src (.dir es1) rs := by
            simp only [copyAll, hc, hset1]
          refine ⟨es', by rw [hstep]; exact hcp', ?_, ?_⟩
          · intro q c2 hl
            exact hpers' q c2 (hto1 q c2 hl)
          · intro r' hr' c2 hsr
            rcases List.mem_cons.mp hr' with h1 | h2
            · subst h1
              rw [hc] at hsr
              have hc2 : c2 = c := by
                have := Option.some.inj hsr
                exact (FSTree.file.inj this).symm
              rw [hc2]
              exact hpers' r' c (setFileT_self (.dir es) (.dir es1) r' c hset1)
            · exact hprop' r' h2 c2 hsr

/-- C4: with `cleanDest = false` and an empty or missing destination,
`CopyFiles` succeeds on any list of relative paths that are files under the
source root, and afterwards each listed path exists at the destination with
exactly the source file's content. -/
theorem C4_round_trip (src : FSTree) (dst : Option FSTree)
    (rps : List (List String)) (E dirSegs : List String)
    (hdst : dst = none ∨ dst = some (.dir .nil))
    (hin : ∀ r ∈ rps, r ≠ [] ∧ ∃ c, lookupT src r = some (.file c)) :
    ∃ dfin, CopyFiles src dst rps false E dirSegs = some dfin ∧
      ∀ r ∈ rps, ∀ c, lookupT src r = some (.file c) →
        lookupT dfin r = some (.file c) := by
  have hinv1 : ∀ q c, lookupT (FSTree.dir .nil) q = some (.file c) →
      lookupT src q = some (.file c) := by
    intro q c h
    cases q with
    | nil => simp [lookupT] at h
    | cons m qr => simp [lookupT, lookupE] at h
  have hinv2 : ∀ q es2, q ≠ [] → lookupT (FSTree.dir .nil) q = some (.dir es2) →
      ∃ q' c', lookupT src q' = some (.file c') ∧ q <+: q' ∧ q ≠ q' := by
    intro q es2 hq h
    cases q with
    | nil => exact absurd rfl hq
    | cons m qr => simp [lookupT, lookupE] at h
  obtain ⟨es', hcp, _, hprop⟩ := copyAll_roundtrip src rps hin .nil hinv1 hinv2
  have hmain : CopyFiles src dst rps false E dirSegs = copyAll src (.dir .nil) rps := by
    rcases hdst with h | h <;> subst h <;> rfl
  exact ⟨.dir es', by rw [hmain]; exact hcp, hprop⟩

theorem C4_round_trip_witness :
    ∃ dfin, CopyFiles (.dir (.cons "dir1" (.dir (.cons "f.txt" (.file "hello") .nil)) .nil))
        none [["dir1", "f.txt"]] false [".gitkeep"] ["dest"] = some dfin ∧
      ∀ r ∈ [["dir1", "f.txt"]], ∀ c,
        lookupT (.dir (.cons "dir1" (.dir (.cons "f.txt" (.file "hello") .nil)) .nil)) r =
          some (.file c) →
        lookupT dfin r = some (.file c) :=
  C4_round_trip (.dir (.cons "dir1" (.dir (.cons "f.txt" (.file "hello") .nil)) .nil))
    none [["dir1", "f.txt"]] [".gitkeep"] ["dest"] (Or.inl rfl)
    (by
      intro r hr
      rw [List.mem_singleton] at hr
      subst hr
      exact ⟨by decide, "hello", rfl⟩)

/-! ## Lookup characterizations of the copy-phase primitives -/

theorem lookupE_upsert (t : FSTree) (n m' : String) (qr : List String) :
    ∀ (des : FSEntries), lookupE (upsertE des n t) m' qr =
      if m' = n then lookupT t qr else lookupE des m' qr := by
  intro des
  cases des with
  | nil =>
      by_cases h : m' = n
      · simp [upsertE, lookupE, h]
      · have h2 : ¬ n = m' := fun hc => h hc.symm
        simp [upsertE, lookupE, h, h2]
  | cons m c tail =>
      by_cases hmn : m = n
      · subst hmn
        by_cases hm' : m = m'
        · simp [upsertE, lookupE, hm'.symm]
        · have : ¬ m' = m := fun hc => hm' hc.symm
          simp [upsertE, lookupE, hm', this]
      · by_cases hm' : m = m'
        · subst hm'
          have : ¬ m = n := hmn
          simp [upsertE, lookupE, if_neg hmn, this]
        · simp [upsertE, lookupE, if_neg hmn, hm', lookupE_upsert t n m' qr tail]

theorem findE_upsert (t : FSTree) (n m' : String) :
    ∀ (des : FSEntries), findE (upsertE des n t) m' =
      if m' = n then some t else findE des m' := by
  intro des
  cases des with
  | nil =>
      by_cases h : m' = n
      · simp [upsertE, findE, h]
      · have h2 : ¬ n = m' := fun hc => h hc.symm
        simp [upsertE, findE, h, h2]
  | cons m c tail =>
      by_cases hmn : m = n
      · subst hmn
        by_cases hm' : m = m'
        · simp [upsertE, findE, hm'.symm]
        · have : ¬ m' = m := fun hc => hm' hc.symm
          simp [upsertE, findE, hm', this]
      · by_cases hm' : m = m'
        · subst hm'
          have : ¬ m = n := hmn
          simp [upsertE, findE, if_neg hmn, this]
        · simp [upsertE, findE, if_neg hmn, hm', findE_upsert t n m' tail]

theorem lookupE_keepHidden (m' : String) (qr : List String) :
    ∀ (des : FSEntries), lookupE (keepHiddenE des) m' qr =
      if isHiddenName m' = true then lookupE des m' qr else none := by
  intro des
  cases des with
  | nil => simp [keepHiddenE, lookupE]
  | cons n c tail =>
      by_cases hh : isHiddenName n
      · by_cases hnm : n = m'
        · subst hnm
          simp [keepHiddenE, hh, lookupE]
        · simp [keepHiddenE, hh, lookupE, hnm, lookupE_keepHidden m' qr tail]
      · by_cases hnm : n = m'
        · subst hnm
          simp only [keepHiddenE, hh, Bool.false_eq_true, if_false]
          rw [lookupE_keepHidden n qr tail]
          simp [hh]
        · simp only [keepHiddenE, hh, Bool.false_eq_true, if_false]
          rw [lookupE_keepHidden m' qr tail]
          by_cases hhid : isHiddenName m'
          · simp [hhid, lookupE, hnm]
          · simp [hhid]

theorem findE_keepHidden (m' : String) :
    ∀ (des : FSEntries), findE (keepHiddenE des) m' =
      if isHiddenName m' = true then findE des m' else none := by
  intro des
  cases des with
  | nil => simp [keepHiddenE, findE]
  | cons n c tail =>
      by_cases hh : isHiddenName n
      · by_cases hnm : n = m'
        · subst hnm
          simp [keepHiddenE, hh, findE]
        · simp [keepHiddenE, hh, findE, hnm, findE_keepHidden m' tail]
      · by_cases hnm : n = m'
        · subst hnm
          simp only [keepHiddenE, hh, Bool.false_eq_true, if_false]
          rw [findE_keepHidden n tail]
          simp [hh]
        · simp only [keepHiddenE, hh, Bool.false_eq_true, if_false]
          rw [findE_keepHidden m' tail]
          by_cases hhid : isHiddenName m'
          · simp [hhid, findE, hnm]
          · simp [hhid]

theorem findE_none_not_mem : ∀ (es : FSEntries) (n : String),
    findE es n = none → n ∉ namesE es := by
  intro es n h
  cases es with
  | nil => simp [namesE]
  | cons m c tail =>
      simp only [findE] at h
      by_cases hmn : m = n
      · rw [if_pos hmn] at h; exact Option.noConfusion h
      · rw [if_neg hmn] at h
        simp only [namesE, List.mem_cons, not_or]
        exact ⟨fun hc => hmn hc.symm, findE_none_not_mem tail n h⟩

theorem copyEntries_frame (m' : String) : ∀ (ses des des' : FSEntries),
    copyEntries ses des = some des' → m' ∉ namesE ses →
    (∀ qr, lookupE des' m' qr = lookupE des m' qr) ∧ findE des' m' = findE des m' := by
  intro ses
  cases ses with
  | nil =>
      intro des des' h _
      simp only [copyEntries, Option.some.injEq] at h
      cases h
      exact ⟨fun qr => rfl, rfl⟩
  | cons n c rest =>
      intro des des' h hm
      simp only [namesE, List.mem_cons, not_or] at hm
      obtain ⟨hne, hrest⟩ := hm
      cases c with
      | file content =>
          simp only [copyEntries] at h
          cases hput : putFileE des n content with
          | none => rw [hput] at h; exact Option.noConfusion h
          | some des1 =>
              rw [hput] at h
              have hdes1 : des1 = upsertE des n (.file content) := by
                simp only [putFileE] at hput
                cases hf : findE des n with
                | none => rw [hf] at hput; simp at hput; exact hput.symm
                | some x =>
                    cases x with
                    | file f => rw [hf] at hput; simp at hput; exact hput.symm
                    | dir d => rw [hf] at hput; simp at hput
              obtain ⟨h1, h2⟩ := copyEntries_frame m' rest des1 des' h hrest
              subst hdes1
              constructor
              · intro qr
                rw [h1 qr, lookupE_upsert, if_neg hne]
              · rw [h2, findE_upsert, if_neg hne]
      | dir ces =>
          simp only [copyEntries] at h
          cases hcd : copyDirT (.dir ces) (findE des n) with
          | none => rw [hcd] at h; exact Option.noConfusion h
          | some sub =>
              rw [hcd] at h
              obtain ⟨h1, h2⟩ := copyEntries_frame m' rest (upsertE des n sub) des' h hrest
              constructor
              · intro qr
                rw [h1 qr, lookupE_upsert, if_neg hne]
              · rw [h2, findE_upsert, if_neg hne]

theorem putFileE_eq (des : FSEntries) (n content : String) (des' : FSEntries)
    (h : putFileE des n content = some des') :
    des' = upsertE des n (.file content) := by
  simp only [putFileE] at h
  cases hf : findE des n with
  | none => rw [hf] at h; simp at h; exact h.symm
  | some x =>
      cases x with
      | file f => rw [hf] at h; simp at h; exact h.symm
      | dir d => rw [hf] at h; simp at h

/-- The value `copyEntries` leaves at a name the source also carries, file
case: the source file wins, whatever the destination held. -/
theorem copyEntries_char_file : ∀ (ses des des' : FSEntries) (n content : String),
    copyEntries ses des = some des' → nodupE ses = true →
    findE ses n = some (.file content) →
    ∀ qr, lookupE des' n qr = lookupT (.file content) qr := by
  intro ses des des' n content h hnd hf qr
  cases ses with
  | nil => simp [findE] at hf
  | cons m c rest =>
      obtain ⟨hm, hndc, hndr⟩ := (nodupE_cons_iff m c rest).mp hnd
      by_cases hmn : m = n
      · subst hmn
        have hf2 : c = .file content := by simpa [findE] using hf
        subst hf2
        simp only [copyEntries] at h
        cases hput : putFileE des m content with
        | none => rw [hput] at h; exact Option.noConfusion h
        | some des1 =>
            rw [hput] at h
            have h1 := (copyEntries_frame m rest des1 des' h hm).1 qr
            rw [h1, putFileE_eq des m content des1 hput, lookupE_upsert, if_pos rfl]
      · simp only [findE, if_neg hmn] at hf
        cases c with
        | file c0 =>
            simp only [copyEntries] at h
            cases hput : putFileE des m c0 with
            | none => rw [hput] at h; exact Option.noConfusion h
            | some des1 =>
                rw [hput] at h
                exact copyEntries_char_file rest des1 des' n content h hndr hf qr
        | dir ces0 =>
            simp only [copyEntries] at h
            cases hcd : copyDirT (.dir ces0) (findE des m) with
            | none => rw [hcd] at h; exact Option.noConfusion h
            | some sub =>
                rw [hcd] at h
                exact copyEntries_char_file rest (upsertE des m sub) des' n content h hndr hf qr

/-- The value `copyEntries` leaves at a name the source also carries,
directory case: the recursive `copyDir` merge of the source subdirectory
into whatever `findE` sees at that name. -/
theorem copyEntries_char_dir : ∀ (ses des des' : FSEntries) (n : String) (ces : FSEntries),
    copyEntries ses des = some des' → nodupE ses = true →
    findE ses n = some (.dir ces) →
    ∃ M, copyDirT (.dir ces) (findE des n) = some M ∧
      ∀ qr, lookupE des' n qr = lookupT M qr := by
  intro ses des des' n ces h hnd hf
  cases ses with
  | nil => simp [findE] at hf
  | cons m c rest =>
      obtain ⟨hm, hndc, hndr⟩ := (nodupE_cons_iff m c rest).mp hnd
      by_cases hmn : m = n
      · subst hmn
        have hf2 : c = .dir ces := by simpa [findE] using hf
        subst hf2
        simp only [copyEntries] at h
        cases hcd : copyDirT (.dir ces) (findE des m) with
        | none => rw [hcd] at h; exact Option.noConfusion h
        | some sub =>
            rw [hcd] at h
            refine ⟨sub, rfl, ?_⟩
            intro qr
            have h1 := (copyEntries_frame m rest (upsertE des m sub) des' h hm).1 qr
            rw [h1, lookupE_upsert, if_pos rfl]
      · simp only [findE, if_neg hmn] at hf
        cases c with
        | file c0 =>
            simp only [copyEntries] at h
            cases hput : putFileE des m c0 with
            | none => rw [hput] at h; exact Option.noConfusion h
            | some des1 =>
                rw [hput] at h
                obtain ⟨M, hM, hl⟩ := copyEntries_char_dir rest des1 des' n ces h hndr hf
                refine ⟨M, ?_, hl⟩
                rw [← hM, putFileE_eq des m c0 des1 hput, findE_upsert,
                  if_neg (fun hc => hmn hc.symm)]
        | dir ces0 =>
            simp only [copyEntries] at h
            cases hcd : copyDirT (.dir ces0) (findE des m) with
            | none => rw [hcd] at h; exact Option.noConfusion h
            | some sub =>
                rw [hcd] at h
                obtain ⟨M, hM, hl⟩ := copyEntries_char_dir rest (upsertE des m sub) des' n ces h hndr hf
                refine ⟨M, ?_, hl⟩
                rw [← hM, findE_upsert, if_neg (fun hc => hmn hc.symm)]

/-- `copyEntries` leaves names the source does not carry untouched. -/
theorem copyEntries_char_none (ses des des' : FSEntries) (n : String)
    (h : copyEntries ses des = some des') (hf : findE ses n = none) :
    (∀ qr, lookupE des' n qr = lookupE des n qr) ∧ findE des' n = findE des n :=
  copyEntries_frame n ses des des' h (findE_none_not_mem ses n hf)

theorem chainDir_self (t : FSTree) : ∀ (rest : List String),
    lookupT (chainDir rest t) rest = some t := by
  intro rest
  induction rest with
  | nil => cases t <;> rfl
  | cons n rs ih => simpa [chainDir, lookupT, lookupE] using ih

theorem chainDir_cases (t : FSTree) : ∀ (rest q : List String) (x : FSTree),
    lookupT (chainDir rest t) q = some x →
    (∃ u, q = rest ++ u ∧ lookupT t u = some x) ∨
      (q <+: rest ∧ q ≠ rest ∧ ∃ es2, x = .dir es2) := by
  intro rest
  induction rest with
  | nil =>
      intro q x h
      exact Or.inl ⟨q, rfl, h⟩
  | cons n rs ih =>
      intro q x h
      cases q with
      | nil =>
          simp only [chainDir, lookupT, Option.some.injEq] at h
          exact Or.inr ⟨List.nil_prefix, by simp, _, h.symm⟩
      | cons m qr =>
          simp only [chainDir, lookupT, lookupE] at h
          by_cases hnm : n = m
          · rw [if_pos hnm] at h
            subst hnm
            rcases ih qr x h with ⟨u, hu, hl⟩ | ⟨h1, h2, h3⟩
            · exact Or.inl ⟨u, by rw [hu]; rfl, hl⟩
            · exact Or.inr ⟨List.cons_prefix_cons.mpr ⟨rfl, h1⟩, by simp [h2], h3⟩
          · rw [if_neg hnm] at h
            simp [lookupE] at h

mutual
theorem copyDirAtT_untouched (src : FSTree) : ∀ (cur cur' : FSTree) (r : List String),
    copyDirAtT src cur r = some cur' →
    ∀ q, ¬ (r <+: q) → ¬ (q <+: r) → lookupT cur' q = lookupT cur q := by
  intro cur cur' r hcp q h1 h2
  cases r with
  | nil => exact absurd List.nil_prefix h1
  | cons n rest =>
      cases cur with
      | file f => simp [copyDirAtT] at hcp
      | dir es =>
          simp only [copyDirAtT] at hcp
          cases hrec : copyDirAtE src es n rest with
          | none => rw [hrec] at hcp; simp at hcp
          | some es' =>
              rw [hrec] at hcp
              simp only [Option.map_some', Option.some.injEq] at hcp
              cases hcp
              cases q with
              | nil => exact absurd List.nil_prefix h2
              | cons m' qr =>
                  exact copyDirAtE_untouched src es es' n rest hrec m' qr h1 h2
theorem copyDirAtE_untouched (src : FSTree) : ∀ (es es' : FSEntries) (n : String)
    (rest : List String), copyDirAtE src es n rest = some es' →
    ∀ (m' : String) (qr : List String), ¬ ((n :: rest) <+: (m' :: qr)) →
      ¬ ((m' :: qr) <+: (n :: rest)) → lookupE es' m' qr = lookupE es m' qr := by
  intro es es' n rest hcp m' qr h1 h2
  by_cases hm'n : m' = n
  · subst hm'n
    have hq1 : ¬ (rest <+: qr) := fun hc => h1 (List.cons_prefix_cons.mpr ⟨rfl, hc⟩)
    have hq2 : ¬ (qr <+: rest) := fun hc => h2 (List.cons_prefix_cons.mpr ⟨rfl, hc⟩)
    cases es with
    | nil =>
        simp only [copyDirAtE] at hcp
        cases hcd : copyDirT src none with
        | none => rw [hcd] at hcp; simp at hcp
        | some sub =>
            rw [hcd] at hcp
            simp only [Option.some.injEq] at hcp
            cases hcp
            simp only [lookupE, if_pos rfl]
            cases hl : lookupT (chainDir rest sub) qr with
            | none => rfl
            | some x =>
                rcases chainDir_cases sub rest qr x hl with ⟨u, hu, _⟩ | ⟨hp, _, _⟩
                · exact absurd ⟨u, hu.symm⟩ hq1
                · exact absurd hp hq2
    | cons m c tail =>
        by_cases hmn : m = m'
        · subst hmn
          cases rest with
          | nil => exact absurd List.nil_prefix hq1
          | cons a rs =>
              simp only [copyDirAtE, if_pos rfl] at hcp
              cases hrec : copyDirAtT src c (a :: rs) with
              | none => rw [hrec] at hcp; simp at hcp
              | some sub =>
                  rw [hrec] at hcp
                  simp only [Option.map_some', Option.some.injEq] at hcp
                  cases hcp
                  simp only [lookupE, if_pos rfl]
                  exact copyDirAtT_untouched src c sub (a :: rs) hrec qr hq1 hq2
        · rw [copyDirAtE_cons_ne src m c tail m' rest hmn] at hcp
          cases hrec : copyDirAtE src tail m' rest with
          | none => rw [hrec] at hcp; simp at hcp
          | some tail' =>
              rw [hrec] at hcp
              simp only [Option.map_some', Option.some.injEq] at hcp
              cases hcp
              simp only [lookupE, if_neg hmn]
              exact copyDirAtE_untouched src tail tail' m' rest hrec m' qr h1 h2
  · cases es with
    | nil =>
        simp only [copyDirAtE] at hcp
        cases hcd : copyDirT src none with
        | none => rw [hcd] at hcp; simp at hcp
        | some sub =>
            rw [hcd] at hcp
            simp only [Option.some.injEq] at hcp
            cases hcp
            have hne : ¬ n = m' := fun hc => hm'n hc.symm
            simp [lookupE, hne]
    | cons m c tail =>
        by_cases hmn : m = n
        · subst hmn
          have hmm' : ¬ m = m' := fun hc => hm'n hc.symm
          cases rest with
          | nil =>
              simp only [copyDirAtE, if_pos rfl] at hcp
              cases hcd : copyDirT src (some c) with
              | none => rw [hcd] at hcp; simp at hcp
              | some sub =>
                  rw [hcd] at hcp
                  simp only [Option.map_some', Option.some.injEq] at hcp
                  cases hcp
                  simp [lookupE, hmm']
          | cons a rs =>
              simp only [copyDirAtE, if_pos rfl] at hcp
              cases hrec : copyDirAtT src c (a :: rs) with
              | none => rw [hrec] at hcp; simp at hcp
              | some sub =>
                  rw [hrec] at hcp
                  simp only [Option.map_some', Option.some.injEq] at hcp
                  cases hcp
                  simp [lookupE, hmm']
        · rw [copyDirAtE_cons_ne src m c tail n rest hmn] at hcp
          cases hrec : copyDirAtE src tail n rest with
          | none => rw [hrec] at hcp; simp at hcp
          | some tail' =>
              rw [hrec] at hcp
              simp only [Option.map_some', Option.some.injEq] at hcp
              cases hcp
              by_cases hmm' : m = m'
              · simp [lookupE, hmm']
              · simp only [lookupE, hmm', if_false]
                exact copyDirAtE_untouched src tail tail' n rest hrec m' qr h1 h2
end

mutual
theorem setFileT_untouched (content : String) : ∀ (cur cur' : FSTree) (r : List String),
    setFileT cur r content = some cur' →
    ∀ q, ¬ (r <+: q) → ¬ (q <+: r) → lookupT cur' q = lookupT cur q := by
  intro cur cur' r hset q h1 h2
  cases cur with
  | file f => cases r <;> simp [setFileT] at hset
  | dir es =>
      cases r with
      | nil => simp [setFileT] at hset
      | cons n rest =>
          simp only [setFileT] at hset
          cases hrec : setFileE es n rest content with
          | none => rw [hrec] at hset; simp at hset
          | some es' =>
              rw [hrec] at hset
              simp only [Option.map_some', Option.some.injEq] at hset
              cases hset
              cases q with
              | nil => exact absurd List.nil_prefix h2
              | cons m' qr =>
                  exact setFileE_untouched content es es' n rest hrec m' qr h1 h2
theorem setFileE_untouched (content : String) : ∀ (es es' : FSEntries) (n : String)
    (rest : List String), setFileE es n rest content = some es' →
    ∀ (m' : String) (qr : List String), ¬ ((n :: rest) <+: (m' :: qr)) →
      ¬ ((m' :: qr) <+: (n :: rest)) → lookupE es' m' qr = lookupE es m' qr := by
  intro es es' n rest hset m' qr h1 h2
  by_cases hm'n : m' = n
  · subst hm'n
    have hq1 : ¬ (rest <+: qr) := fun hc => h1 (List.cons_prefix_cons.mpr ⟨rfl, hc⟩)
    have hq2 : ¬ (qr <+: rest) := fun hc => h2 (List.cons_prefix_cons.mpr ⟨rfl, hc⟩)
    cases es with
    | nil =>
        simp only [setFileE, Option.some.injEq] at hset
        cases hset
        simp only [lookupE, if_pos rfl]
        cases hl : lookupT (chainFile rest content) qr with
        | none => rfl
        | some x =>
            exfalso
            cases x with
            | file f =>
                obtain ⟨ha, _⟩ := chainFile_file_cases content rest qr f hl
                exact hq2 (ha ▸ List.prefix_rfl)
            | dir es2 =>
                obtain ⟨ha, _⟩ := chainFile_dir_cases content rest qr es2 hl
                exact hq2 ha
    | cons m c tail =>
        by_cases hmn : m = m'
        · subst hmn
          cases rest with
          | nil => exact absurd List.nil_prefix hq1
          | cons a rs =>
              cases c with
              | file f => simp [setFileE, if_pos rfl] at hset
              | dir ces =>
                  simp only [setFileE, if_pos rfl] at hset
                  cases hrec : setFileE ces a rs content with
                  | none => rw [hrec] at hset; simp at hset
                  | some ces' =>
                      rw [hrec] at hset
                      simp only [Option.map_some', Option.some.injEq] at hset
                      cases hset
                      simp only [lookupE, if_pos rfl]
                      cases qr with
                      | nil => exact absurd List.nil_prefix hq2
                      | cons b qs =>
                          simp only [lookupT]
                          have hb1 : ¬ ((a :: rs) <+: (b :: qs)) := hq1
                          have hb2 : ¬ ((b :: qs) <+: (a :: rs)) := hq2
                          exact setFileE_untouched content ces ces' a rs hrec b qs hb1 hb2
        · rw [setFileE_cons_ne m c tail m' rest content hmn] at hset
          cases hrec : setFileE tail m' rest content with
          | none => rw [hrec] at hset; simp at hset
          | some tail' =>
              rw [hrec] at hset
              simp only [Option.map_some', Option.some.injEq] at hset
              cases hset
              simp only [lookupE, if_neg hmn]
              exact setFileE_untouched content tail tail' m' rest hrec m' qr h1 h2
  · cases es with
    | nil =>
        simp only [setFileE, Option.some.injEq] at hset
        cases hset
        have hne : ¬ n = m' := fun hc => hm'n hc.symm
        simp [lookupE, hne]
    | cons m c tail =>
        by_cases hmn : m = n
        · subst hmn
          have hmm' : ¬ m = m' := fun hc => hm'n hc.symm
          cases rest with
          | nil =>
              cases c with
              | dir ces => simp [setFileE, if_pos rfl] at hset
              | file f =>
                  simp only [setFileE, if_pos rfl, Option.some.injEq] at hset
                  cases hset
                  simp [lookupE, hmm']
          | cons a rs =>
              cases c with
              | file f => simp [setFileE, if_pos rfl] at hset
              | dir ces =>
                  simp only [setFileE, if_pos rfl] at hset
                  cases hrec : setFileE ces a rs content with
                  | none => rw [hrec] at hset; simp at hset
                  | some ces' =>
                      rw [hrec] at hset
                      simp only [Option.map_some', Option.some.injEq] at hset
                      cases hset
                      simp [lookupE, hmm']
        · rw [setFileE_cons_ne m c tail n rest content hmn] at hset
          cases hrec : setFileE tail n rest content with
          | none => rw [hrec] at hset; simp at hset
          | some tail' =>
              rw [hrec] at hset
              simp only [Option.map_some', Option.some.injEq] at hset
              cases hset
              by_cases hmm' : m = m'
              · simp [lookupE, hmm']
              · simp only [lookupE, hmm', if_false]
                exact setFileE_untouched content tail tail' n rest hrec m' qr h1 h2
end

mutual
/-- What a successful `copyDir` copy step leaves at the target path: the
`copyDir` merge of the source into whatever the destination held there. -/
theorem copyDirAtT_at (src : FSTree) : ∀ (cur cur' : FSTree) (r : List String),
    copyDirAtT src cur r = some cur' →
    ∃ M, copyDirT src (lookupT cur r) = some M ∧ lookupT cur' r = some M := by
  intro cur cur' r hcp
  cases r with
  | nil =>
      refine ⟨cur', ?_, ?_⟩
      · have : lookupT cur [] = some cur := by cases cur <;> rfl
        rw [this]
        cases cur <;> exact hcp
      · cases cur' <;> rfl
  | cons n rest =>
      cases cur with
      | file f => simp [copyDirAtT] at hcp
      | dir es =>
          simp only [copyDirAtT] at hcp
          cases hrec : copyDirAtE src es n rest with
          | none => rw [hrec] at hcp; simp at hcp
          | some es' =>
              rw [hrec] at hcp
              simp only [Option.map_some', Option.some.injEq] at hcp
              cases hcp
              exact copyDirAtE_at src es es' n rest hrec
theorem copyDirAtE_at (src : FSTree) : ∀ (es es' : FSEntries) (n : String)
    (rest : List String), copyDirAtE src es n rest = some es' →
    ∃ M, copyDirT src (lookupE es n rest) = some M ∧ lookupE es' n rest = some M := by
  intro es es' n rest hcp
  cases es with
  | nil =>
      simp only [copyDirAtE] at hcp
      cases hcd : copyDirT src none with
      | none => rw [hcd] at hcp; simp at hcp
      | some sub =>
          rw [hcd] at hcp
          simp only [Option.some.injEq] at hcp
          cases hcp
          refine ⟨sub, by simp [lookupE]; exact hcd, ?_⟩
          simp only [lookupE, if_pos rfl]
          exact chainDir_self sub rest
  | cons m c tail =>
      by_cases hmn : m = n
      · subst hmn
        cases rest with
        | nil =>
            simp only [copyDirAtE, if_pos rfl] at hcp
            cases hcd : copyDirT src (some c) with
            | none => rw [hcd] at hcp; simp at hcp
            | some sub =>
                rw [hcd] at hcp
                simp only [Option.map_some', Option.some.injEq] at hcp
                cases hcp
                refine ⟨sub, ?_, ?_⟩
                · have : lookupE (FSEntries.cons m c tail) m [] = some c := by
                    simp [lookupE]
                    cases c <;> rfl
                  rw [this]
                  exact hcd
                · simp only [lookupE, if_pos rfl]
                  cases sub <;> rfl
        | cons a rs =>
            simp only [copyDirAtE, if_pos rfl] at hcp
            cases hrec : copyDirAtT src c (a :: rs) with
            | none => rw [hrec] at hcp; simp at hcp
            | some sub =>
                rw [hrec] at hcp
                simp only [Option.map_some', Option.some.injEq] at hcp
                cases hcp
                obtain ⟨M, hM, hl⟩ := copyDirAtT_at src c sub (a :: rs) hrec
                refine ⟨M, ?_, ?_⟩
                · simp only [lookupE, if_pos rfl]
                  exact hM
                · simp only [lookupE, if_pos rfl]
                  exact hl
      · rw [copyDirAtE_cons_ne src m c tail n rest hmn] at hcp
        cases hrec : copyDirAtE src tail n rest with
        | none => rw [hrec] at hcp; simp at hcp
        | some tail' =>
            rw [hrec] at hcp
            simp only [Option.map_some', Option.some.injEq] at hcp
            cases hcp
            obtain ⟨M, hM, hl⟩ := copyDirAtE_at src tail tail' n rest hrec
            refine ⟨M, ?_, ?_⟩
            · simp only [lookupE, if_neg hmn]
              exact hM
            · simp only [lookupE, if_neg hmn]
              exact hl
end

mutual
/-- After a successful copy step at `r`, every proper prefix of `r` is a
directory (pre-existing or created by `os.MkdirAll`). -/
theorem copyDirAtT_chain (src : FSTree) : ∀ (cur cur' : FSTree) (r : List String),
    copyDirAtT src cur r = some cur' →
    ∀ p, p <+: r → p ≠ r → ∃ es2, lookupT cur' p = some (.dir es2) := by
  intro cur cur' r hcp p hpre hne
  cases r with
  | nil =>
      rw [List.prefix_nil] at hpre
      exact absurd hpre hne
  | cons n rest =>
      cases cur with
      | file f => simp [copyDirAtT] at hcp
      | dir es =>
          simp only [copyDirAtT] at hcp
          cases hrec : copyDirAtE src es n rest with
          | none => rw [hrec] at hcp; simp at hcp
          | some es' =>
              rw [hrec] at hcp
              simp only [Option.map_some', Option.some.injEq] at hcp
              cases hcp
              cases p with
              | nil => exact ⟨es', rfl⟩
              | cons m' pr =>
                  obtain ⟨hm', hpr⟩ := List.cons_prefix_cons.mp hpre
                  subst hm'
                  have hprne : pr ≠ rest := fun hc => hne (by rw [hc])
                  exact copyDirAtE_chain src es es' m' rest hrec pr hpr hprne
theorem copyDirAtE_chain (src : FSTree) : ∀ (es es' : FSEntries) (n : String)
    (rest : List String), copyDirAtE src es n rest = some es' →
    ∀ pr, pr <+: rest → pr ≠ rest → ∃ es2, lookupE es' n pr = some (.dir es2) := by
  intro es es' n rest hcp pr hpre hne
  cases es with
  | nil =>
      simp only [copyDirAtE] at hcp
      cases hcd : copyDirT src none with
      | none => rw [hcd] at hcp; simp at hcp
      | some sub =>
          rw [hcd] at hcp
          simp only [Option.some.injEq] at hcp
          cases hcp
          simp only [lookupE, if_pos rfl]
          obtain ⟨u, hu⟩ := hpre
          cases u with
          | nil => rw [List.append_nil] at hu; exact absurd hu hne
          | cons v vs =>
              rw [← hu]
              clear hu hne
              induction pr with
              | nil => exact ⟨.cons v (chainDir vs sub) .nil, rfl⟩
              | cons w ws ih =>
                  simp only [List.cons_append, chainDir, lookupT, lookupE, if_pos rfl]
                  exact ih
  | cons m c tail =>
      by_cases hmn : m = n
      · subst hmn
        cases rest with
        | nil =>
            rw [List.prefix_nil] at hpre
            exact absurd hpre hne
        | cons a rs =>
            simp only [copyDirAtE, if_pos rfl] at hcp
            cases hrec : copyDirAtT src c (a :: rs) with
            | none => rw [hrec] at hcp; simp at hcp
            | some sub =>
                rw [hrec] at hcp
                simp only [Option.map_some', Option.some.injEq] at hcp
                cases hcp
                simp only [lookupE, if_pos rfl]
                exact copyDirAtT_chain src c sub (a :: rs) hrec pr hpre hne
      · rw [copyDirAtE_cons_ne src m c tail n rest hmn] at hcp
        cases hrec : copyDirAtE src tail n rest with
        | none => rw [hrec] at hcp; simp at hcp
        | some tail' =>
            rw [hrec] at hcp
            simp only [Option.map_some', Option.some.injEq] at hcp
            cases hcp
            simp only [lookupE, if_neg hmn]
            exact copyDirAtE_chain src tail tail' n rest hrec pr hpre hne
end

theorem lookupT_nil (t : FSTree) : lookupT t [] = some t := by
  cases t <;> rfl

theorem chainFile_prefix_dir (content : String) : ∀ (rest pr : List String),
    pr <+: rest → pr ≠ rest → ∃ es2, lookupT (chainFile rest content) pr = some (.dir es2) := by
  intro rest
  induction rest with
  | nil =>
      intro pr hpre hne
      rw [List.prefix_nil] at hpre
      exact absurd hpre hne
  | cons v vs ih =>
      intro pr hpre hne
      cases pr with
      | nil => exact ⟨.cons v (chainFile vs content) .nil, rfl⟩
      | cons w ws =>
          obtain ⟨hw, hws⟩ := List.cons_prefix_cons.mp hpre
          subst hw
          simp only [chainFile, lookupT, lookupE, if_pos rfl]
          exact ih ws hws (fun hc => hne (by rw [hc]))

mutual
theorem setFileT_chain (content : String) : ∀ (cur cur' : FSTree) (r : List String),
    setFileT cur r content = some cur' →
    ∀ p, p <+: r → p ≠ r → ∃ es2, lookupT cur' p = some (.dir es2) := by
  intro cur cur' r hset p hpre hne
  cases cur with
  | file f => cases r <;> simp [setFileT] at hset
  | dir es =>
      cases r with
      | nil => simp [setFileT] at hset
      | cons n rest =>
          simp only [setFileT] at hset
          cases hrec : setFileE es n rest content with
          | none => rw [hrec] at hset; simp at hset
          | some es' =>
              rw [hrec] at hset
              simp only [Option.map_some', Option.some.injEq] at hset
              cases hset
              cases p with
              | nil => exact ⟨es', rfl⟩
              | cons m' pr =>
                  obtain ⟨hm', hpr⟩ := List.cons_prefix_cons.mp hpre
                  subst hm'
                  have hprne : pr ≠ rest := fun hc => hne (by rw [hc])
                  exact setFileE_chain content es es' m' rest hrec pr hpr hprne
theorem setFileE_chain (content : String) : ∀ (es es' : FSEntries) (n : String)
    (rest : List String), setFileE es n rest content = some es' →
    ∀ pr, pr <+: rest → pr ≠ rest → ∃ es2, lookupE es' n pr = some (.dir es2) := by
  intro es es' n rest hset pr hpre hne
  cases es with
  | nil =>
      simp only [setFileE, Option.some.injEq] at hset
      cases hset
      simp only [lookupE, if_pos rfl]
      exact chainFile_prefix_dir content rest pr hpre hne
  | cons m c tail =>
      by_cases hmn : m = n
      · subst hmn
        cases rest with
        | nil =>
            rw [List.prefix_nil] at hpre
            exact absurd hpre hne
        | cons a rs =>
            cases c with
            | file f => simp [setFileE, if_pos rfl] at hset
            | dir ces =>
                simp only [setFileE, if_pos rfl] at hset
                cases hrec : setFileE ces a rs content with
                | none => rw [hrec] at hset; simp at hset
                | some ces' =>
                    rw [hrec] at hset
                    simp only [Option.map_some', Option.some.injEq] at hset
                    cases hset
                    simp only [lookupE, if_pos rfl]
                    cases pr with
                    | nil => exact ⟨ces', rfl⟩
                    | cons b qs =>
                        obtain ⟨hb, hqs⟩ := List.cons_prefix_cons.mp hpre
                        subst hb
                        simp only [lookupT]
                        exact setFileE_chain content ces ces' b rs hrec qs hqs
                          (fun hc => hne (by rw [hc]))
      · rw [setFileE_cons_ne m c tail n rest content hmn] at hset
        cases hrec : setFileE tail n rest content with
        | none => rw [hrec] at hset; simp at hset
        | some tail' =>
            rw [hrec] at hset
            simp only [Option.map_some', Option.some.injEq] at hset
            cases hset
            simp only [lookupE, if_neg hmn]
            exact setFileE_chain content tail tail' n rest hrec pr hpre hne
end

theorem findE_nodup : ∀ (es : FSEntries) (n : String) (c : FSTree),
    findE es n = some c → nodupE es = true → nodupT c = true := by
  intro es n c hf hnd
  cases es with
  | nil => simp [findE] at hf
  | cons m c0 rest =>
      obtain ⟨_, hc0, hrest⟩ := (nodupE_cons_iff m c0 rest).mp hnd
      simp only [findE] at hf
      by_cases hmn : m = n
      · rw [if_pos hmn] at hf
        cases hf
        exact hc0
      · rw [if_neg hmn] at hf
        exact findE_nodup rest n c hf hrest

mutual
/-- Copy dominance: every path the (duplicate-free) source carries exists
after the `copyDir` merge with the same observable kind — source content
always wins over whatever the destination held. -/
theorem copyDirT_dominates : ∀ (s : FSTree) (b : Option FSTree) (M : FSTree),
    copyDirT s b = some M → nodupT s = true →
    ∀ u y, lookupT s u = some y → ∃ x, lookupT M u = some x ∧ kindOf x = kindOf y := by
  intro s b M hM hnd u y hy
  cases s with
  | file f => cases b with
      | none => simp [copyDirT] at hM
      | some bt => cases bt <;> simp [copyDirT] at hM
  | dir ses =>
      have hstep : ∃ des', M = .dir des' ∧ copyEntries ses
          (match b with
           | some (.dir desb) => keepHiddenE desb
           | _ => .nil) = some des' := by
        cases b with
        | none =>
            simp only [copyDirT] at hM
            cases hce : copyEntries ses .nil with
            | none => rw [hce] at hM; simp at hM
            | some des' =>
                rw [hce] at hM
                simp only [Option.map_some', Option.some.injEq] at hM
                exact ⟨des', hM.symm, rfl⟩
        | some bt =>
            cases bt with
            | file f => simp [copyDirT] at hM
            | dir desb =>
                simp only [copyDirT] at hM
                cases hce : copyEntries ses (keepHiddenE desb) with
                | none => rw [hce] at hM; simp at hM
                | some des' =>
                    rw [hce] at hM
                    simp only [Option.map_some', Option.some.injEq] at hM
                    exact ⟨des', hM.symm, rfl⟩
      obtain ⟨des', hMeq, hce⟩ := hstep
      subst hMeq
      cases u with
      | nil =>
          rw [lookupT_nil] at hy
          cases hy
          exact ⟨.dir des', rfl, rfl⟩
      | cons n qr =>
          exact copyEntries_dominates ses _ des' hce hnd n qr y hy
theorem copyEntries_dominates : ∀ (ses des des' : FSEntries),
    copyEntries ses des = some des' → nodupE ses = true →
    ∀ (n : String) (qr : List String) (y : FSTree), lookupE ses n qr = some y →
    ∃ x, lookupE des' n qr = some x ∧ kindOf x = kindOf y := by
  intro ses des des' hce hnd n qr y hy
  cases ses with
  | nil => simp [lookupE] at hy
  | cons m c0 rest =>
      obtain ⟨hm, hc0, hrest⟩ := (nodupE_cons_iff m c0 rest).mp hnd
      by_cases hmn : m = n
      · subst hmn
        simp only [lookupE, if_pos rfl] at hy
        cases c0 with
        | file f =>
            cases qr with
            | cons a qs => simp [lookupT] at hy
            | nil =>
                rw [lookupT_nil] at hy
                cases hy
                simp only [copyEntries] at hce
                cases hput : putFileE des m f with
                | none => rw [hput] at hce; exact Option.noConfusion hce
                | some des1 =>
                    rw [hput] at hce
                    have hfr := (copyEntries_frame m rest des1 des' hce hm).1 []
                    rw [putFileE_eq des m f des1 hput, lookupE_upsert, if_pos rfl,
                      lookupT_nil] at hfr
                    exact ⟨.file f, hfr, rfl⟩
        | dir ces =>
            simp only [copyEntries] at hce
            cases hcd : copyDirT (.dir ces) (findE des m) with
            | none => rw [hcd] at hce; exact Option.noConfusion hce
            | some sub =>
                rw [hcd] at hce
                obtain ⟨x, hx, hk⟩ := copyDirT_dominates (.dir ces) (findE des m) sub hcd hc0 qr y hy
                have hfr := (copyEntries_frame m rest (upsertE des m sub) des' hce hm).1 qr
                rw [lookupE_upsert, if_pos rfl] at hfr
                exact ⟨x, by rw [hfr]; exact hx, hk⟩
      · simp only [lookupE, if_neg hmn] at hy
        cases c0 with
        | file f =>
            simp only [copyEntries] at hce
            cases hput : putFileE des m f with
            | none => rw [hput] at hce; exact Option.noConfusion hce
            | some des1 =>
                rw [hput] at hce
                exact copyEntries_dominates rest des1 des' hce hrest n qr y hy
        | dir ces =>
            simp only [copyEntries] at hce
            cases hcd : copyDirT (.dir ces) (findE des m) with
            | none => rw [hcd] at hce; exact Option.noConfusion hce
            | some sub =>
                rw [hcd] at hce
                exact copyEntries_dominates rest (upsertE des m sub) des' hce hrest n qr y hy
end

/-- Shape of an off-source path inside a `copyDir` merge result: it diverges
from the source tree at a hidden entry, after a chain of hidden source
directories. Only base content of this shape survives the merge; everything
else under the target comes from the source. -/
def shapeOK (s : FSTree) (u : List String) : Prop :=
  ∃ a h b, u = a ++ h :: b ∧
    (∀ p, p <+: a → ∃ d, lookupT s p = some (FSTree.dir d)) ∧
    (∀ seg ∈ a, isHiddenName seg = true) ∧
    isHiddenName h = true ∧ lookupT s (a ++ [h]) = none

theorem shapeOK_cons_none (ses : FSEntries) (n : String) (qr : List String)
    (hh : isHiddenName n = true) (hf : findE ses n = none) :
    shapeOK (.dir ses) (n :: qr) := by
  refine ⟨[], n, qr, rfl, ?_, by simp, hh, ?_⟩
  · intro p hp
    rw [List.prefix_nil] at hp
    subst hp
    exact ⟨ses, rfl⟩
  · show lookupE ses n [] = none
    rw [findE_lookupE, hf]
    rfl

theorem shapeOK_cons_dir (ses ces : FSEntries) (n : String) (qr : List String)
    (hh : isHiddenName n = true) (hf : findE ses n = some (.dir ces))
    (hs : shapeOK (.dir ces) qr) : shapeOK (.dir ses) (n :: qr) := by
  obtain ⟨a, h, b, hqr, hdirs, hhid, hhh, hnone⟩ := hs
  refine ⟨n :: a, h, b, by rw [hqr]; rfl, ?_, ?_, hhh, ?_⟩
  · intro p hp
    cases p with
    | nil => exact ⟨ses, rfl⟩
    | cons w ws =>
        obtain ⟨hw, hws⟩ := List.cons_prefix_cons.mp hp
        subst hw
        obtain ⟨d, hd⟩ := hdirs ws hws
        refine ⟨d, ?_⟩
        show lookupE ses w ws = some (.dir d)
        rw [findE_lookupE, hf]
        exact hd
  · intro seg hseg
    rcases List.mem_cons.mp hseg with h1 | h2
    · rw [h1]; exact hh
    · exact hhid seg h2
  · show lookupE ses n (a ++ [h]) = none
    rw [findE_lookupE, hf]
    exact hnone

theorem shapeOK_cons_cases (s : FSTree) (n : String) (qr : List String)
    (hs : shapeOK s (n :: qr)) :
    isHiddenName n = true ∧
      (lookupT s [n] = none ∨
        ∃ d, lookupT s [n] = some (.dir d) ∧ shapeOK (.dir d) qr) := by
  obtain ⟨a, h, b, hu, hdirs, hhid, hhh, hnone⟩ := hs
  cases a with
  | nil =>
      simp only [List.nil_append, List.cons.injEq] at hu
      obtain ⟨hn, hq⟩ := hu
      subst hn
      subst hq
      rw [List.nil_append] at hnone
      exact ⟨hhh, Or.inl hnone⟩
  | cons w ws =>
      simp only [List.cons_append, List.cons.injEq] at hu
      obtain ⟨hn, hq⟩ := hu
      subst hn
      obtain ⟨d, hd⟩ := hdirs [n] (List.cons_prefix_cons.mpr ⟨rfl, List.nil_prefix⟩)
      refine ⟨hhid n (List.mem_cons_self n ws), Or.inr ⟨d, hd, ws, h, b, hq, ?_, ?_, hhh, ?_⟩⟩
      · intro p hp
        obtain ⟨d0, hd0⟩ := hdirs (n :: p) (List.cons_prefix_cons.mpr ⟨rfl, hp⟩)
        refine ⟨d0, ?_⟩
        have := hd0
        rw [show (n :: p) = [n] ++ p from rfl, lookup_append, hd] at this
        simpa using this
      · intro seg hseg
        exact hhid seg (List.mem_cons_of_mem n hseg)
      · have := hnone
        rw [show (n :: ws) ++ [h] = [n] ++ (ws ++ [h]) from rfl, lookup_append, hd] at this
        simpa using this

mutual
/-- Provenance of a `copyDir` merge result: every path of the result either
mirrors a source path of the same kind, or is destination content carried
over unchanged, sitting behind a hidden divergence from the source. -/
theorem copyDirT_provenance : ∀ (s : FSTree) (b : Option FSTree) (M : FSTree),
    copyDirT s b = some M → nodupT s = true →
    ∀ u x, lookupT M u = some x →
      (∃ y, lookupT s u = some y ∧ kindOf x = kindOf y) ∨
      (∃ bt, b = some bt ∧ lookupT bt u = some x ∧ shapeOK s u) := by
  intro s b M hM hnd u x hx
  cases s with
  | file f => cases b with
      | none => simp [copyDirT] at hM
      | some bt => cases bt <;> simp [copyDirT] at hM
  | dir ses =>
      cases b with
      | none =>
          simp only [copyDirT] at hM
          cases hce : copyEntries ses .nil with
          | none => rw [hce] at hM; simp at hM
          | some des' =>
              rw [hce] at hM
              simp only [Option.map_some', Option.some.injEq] at hM
              cases hM
              cases u with
              | nil =>
                  rw [lookupT_nil] at hx
                  cases hx
                  exact Or.inl ⟨.dir ses, lookupT_nil _, rfl⟩
              | cons n qr =>
                  rcases copyEntries_provenance ses .nil des' hce hnd n qr x hx with
                    ⟨y, hy, hk⟩ | ⟨hb, _⟩
                  · exact Or.inl ⟨y, hy, hk⟩
                  · simp [lookupE] at hb
      | some bt =>
          cases bt with
          | file f => simp [copyDirT] at hM
          | dir desb =>
              simp only [copyDirT] at hM
              cases hce : copyEntries ses (keepHiddenE desb) with
              | none => rw [hce] at hM; simp at hM
              | some des' =>
                  rw [hce] at hM
                  simp only [Option.map_some', Option.some.injEq] at hM
                  cases hM
                  cases u with
                  | nil =>
                      rw [lookupT_nil] at hx
                      cases hx
                      exact Or.inl ⟨.dir ses, lookupT_nil _, rfl⟩
                  | cons n qr =>
                      rcases copyEntries_provenance ses (keepHiddenE desb) des' hce hnd n qr x hx with
                        ⟨y, hy, hk⟩ | ⟨hb, hsh⟩
                      · exact Or.inl ⟨y, hy, hk⟩
                      · rw [lookupE_keepHidden] at hb
                        by_cases hhid : isHiddenName n
                        · rw [if_pos hhid] at hb
                          refine Or.inr ⟨.dir desb, rfl, hb, ?_⟩
                          rcases hsh with hnone | ⟨ces, hces, hqr⟩
                          · exact shapeOK_cons_none ses n qr hhid hnone
                          · exact shapeOK_cons_dir ses ces n qr hhid hces hqr
                        · rw [if_neg hhid] at hb
                          exact Option.noConfusion hb
theorem copyEntries_provenance : ∀ (ses des des' : FSEntries),
    copyEntries ses des = some des' → nodupE ses = true →
    ∀ (n : String) (qr : List String) (x : FSTree), lookupE des' n qr = some x →
      (∃ y, lookupE ses n qr = some y ∧ kindOf x = kindOf y) ∨
      (lookupE des n qr = some x ∧
        (findE ses n = none ∨
          ∃ ces, findE ses n = some (.dir ces) ∧ shapeOK (.dir ces) qr)) := by
  intro ses des des' hce hnd n qr x hx
  cases ses with
  | nil =>
      simp only [copyEntries, Option.some.injEq] at hce
      cases hce
      exact Or.inr ⟨hx, Or.inl rfl⟩
  | cons m c0 rest =>
      obtain ⟨hm, hc0, hrest⟩ := (nodupE_cons_iff m c0 rest).mp hnd
      by_cases hmn : m = n
      · subst hmn
        cases c0 with
        | file f =>
            simp only [copyEntries] at hce
            cases hput : putFileE des m f with
            | none => rw [hput] at hce; exact Option.noConfusion hce
            | some des1 =>
                rw [hput] at hce
                have hfr := (copyEntries_frame m rest des1 des' hce hm).1 qr
                rw [hfr, putFileE_eq des m f des1 hput, lookupE_upsert, if_pos rfl] at hx
                refine Or.inl ⟨.file f, ?_, ?_⟩
                · simp only [lookupE, if_pos rfl]
                  cases qr with
                  | nil => rfl
                  | cons a qs => simp [lookupT] at hx
                · cases qr with
                  | nil => rw [lookupT_nil] at hx; cases hx; rfl
                  | cons a qs => simp [lookupT] at hx
        | dir ces =>
            simp only [copyEntries] at hce
            cases hcd : copyDirT (.dir ces) (findE des m) with
            | none => rw [hcd] at hce; exact Option.noConfusion hce
            | some sub =>
                rw [hcd] at hce
                have hfr := (copyEntries_frame m rest (upsertE des m sub) des' hce hm).1 qr
                rw [hfr, lookupE_upsert, if_pos rfl] at hx
                rcases copyDirT_provenance (.dir ces) (findE des m) sub hcd hc0 qr x hx with
                  ⟨y, hy, hk⟩ | ⟨bt, hbt, hbx, hsh⟩
                · refine Or.inl ⟨y, ?_, hk⟩
                  simp only [lookupE, if_pos rfl]
                  exact hy
                · refine Or.inr ⟨?_, Or.inr ⟨ces, by simp [findE], hsh⟩⟩
                  rw [findE_lookupE, hbt]
                  exact hbx
      · cases c0 with
        | file f =>
            simp only [copyEntries] at hce
            cases hput : putFileE des m f with
            | none => rw [hput] at hce; exact Option.noConfusion hce
            | some des1 =>
                rw [hput] at hce
                rcases copyEntries_provenance rest des1 des' hce hrest n qr x hx with
                  ⟨y, hy, hk⟩ | ⟨hb, hsh⟩
                · refine Or.inl ⟨y, ?_, hk⟩
                  simp only [lookupE, if_neg hmn]
                  exact hy
                · rw [putFileE_eq des m f des1 hput, lookupE_upsert,
                    if_neg (fun hc => hmn hc.symm)] at hb
                  refine Or.inr ⟨hb, ?_⟩
                  simpa [findE, hmn] using hsh
        | dir ces =>
            simp only [copyEntries] at hce
            cases hcd : copyDirT (.dir ces) (findE des m) with
            | none => rw [hcd] at hce; exact Option.noConfusion hce
            | some sub =>
                rw [hcd] at hce
                rcases copyEntries_provenance rest (upsertE des m sub) des' hce hrest n qr x hx with
                  ⟨y, hy, hk⟩ | ⟨hb, hsh⟩
                · refine Or.inl ⟨y, ?_, hk⟩
                  simp only [lookupE, if_neg hmn]
                  exact hy
                · rw [lookupE_upsert, if_neg (fun hc => hmn hc.symm)] at hb
                  refine Or.inr ⟨hb, ?_⟩
                  simpa [findE, hmn] using hsh
end

theorem findE_eq_lookup_nil (es : FSEntries) (n : String) :
    lookupE es n [] = findE es n := by
  rw [findE_lookupE]
  cases findE es n with
  | none => rfl
  | some c => simp [lookupT_nil]

theorem findE_some_mem (es : FSEntries) (n : String) (c : FSTree)
    (h : findE es n = some c) : n ∈ namesE es :=
  lookupE_mem_names n [] c es (by rw [findE_eq_lookup_nil]; exact h)

mutual
/-- Wholesale survival: destination content behind a hidden divergence from
the source (shape `shapeOK`) passes through a `copyDir` merge unchanged. -/
theorem copyDirT_keeps : ∀ (s bt M : FSTree), copyDirT s (some bt) = some M →
    nodupT s = true → ∀ u x, shapeOK s u → lookupT bt u = some x →
    lookupT M u = some x := by
  intro s bt M hM hnd u x hsh hx
  cases s with
  | file f => cases bt <;> simp [copyDirT] at hM
  | dir ses =>
      cases bt with
      | file f => simp [copyDirT] at hM
      | dir desb =>
          simp only [copyDirT] at hM
          cases hce : copyEntries ses (keepHiddenE desb) with
          | none => rw [hce] at hM; simp at hM
          | some des' =>
              rw [hce] at hM
              simp only [Option.map_some', Option.some.injEq] at hM
              cases hM
              cases u with
              | nil =>
                  obtain ⟨a, h, b, hu, _⟩ := hsh
                  exact absurd hu.symm (by simp)
              | cons n qr =>
                  obtain ⟨hhid, hcase⟩ := shapeOK_cons_cases _ n qr hsh
                  have hb : lookupE (keepHiddenE desb) n qr = some x := by
                    rw [lookupE_keepHidden, if_pos hhid]
                    exact hx
                  show lookupE des' n qr = some x
                  refine copyEntries_keeps ses (keepHiddenE desb) des' hce hnd n qr x ?_ hb
                  rcases hcase with hnone | ⟨d, hd, hint⟩
                  · left
                    rw [← findE_eq_lookup_nil]
                    exact hnone
                  · right
                    refine ⟨d, ?_, hint⟩
                    rw [← findE_eq_lookup_nil]
                    exact hd
theorem copyEntries_keeps : ∀ (ses des des' : FSEntries), copyEntries ses des = some des' →
    nodupE ses = true → ∀ (n : String) (qr : List String) (x : FSTree),
    (findE ses n = none ∨ ∃ ces, findE ses n = some (.dir ces) ∧ shapeOK (.dir ces) qr) →
    lookupE des n qr = some x → lookupE des' n qr = some x := by
  intro ses des des' hce hnd n qr x hdisj hx
  cases ses with
  | nil =>
      simp only [copyEntries, Option.some.injEq] at hce
      cases hce
      exact hx
  | cons m c0 rest =>
      obtain ⟨hm, hc0, hrest⟩ := (nodupE_cons_iff m c0 rest).mp hnd
      by_cases hmn : m = n
      · subst hmn
        rcases hdisj with hnone | ⟨ces, hces, hsh⟩
        · simp [findE] at hnone
        · have hc0eq : c0 = .dir ces := by simpa [findE] using hces
          subst hc0eq
          simp only [copyEntries] at hce
          cases hcd : copyDirT (.dir ces) (findE des m) with
          | none => rw [hcd] at hce; exact Option.noConfusion hce
          | some sub =>
              rw [hcd] at hce
              have hfr := (copyEntries_frame m rest (upsertE des m sub) des' hce hm).1 qr
              rw [hfr, lookupE_upsert, if_pos rfl]
              rw [findE_lookupE] at hx
              cases hbt : findE des m with
              | none => rw [hbt] at hx; exact Option.noConfusion hx
              | some bt =>
                  rw [hbt] at hx
                  simp only [Option.some_bind] at hx
                  rw [hbt] at hcd
                  exact copyDirT_keeps (.dir ces) bt sub hcd hc0 qr x hsh hx
      · cases c0 with
        | file f =>
            simp only [copyEntries] at hce
            cases hput : putFileE des m f with
            | none => rw [hput] at hce; exact Option.noConfusion hce
            | some des1 =>
                rw [hput] at hce
                refine copyEntries_keeps rest des1 des' hce hrest n qr x ?_ ?_
                · simpa [findE, hmn] using hdisj
                · rw [putFileE_eq des m f des1 hput, lookupE_upsert,
                    if_neg (fun hc => hmn hc.symm)]
                  exact hx
        | dir ces =>
            simp only [copyEntries] at hce
            cases hcd : copyDirT (.dir ces) (findE des m) with
            | none => rw [hcd] at hce; exact Option.noConfusion hce
            | some sub =>
                rw [hcd] at hce
                refine copyEntries_keeps rest (upsertE des m sub) des' hce hrest n qr x ?_ ?_
                · simpa [findE, hmn] using hdisj
                · rw [lookupE_upsert, if_neg (fun hc => hmn hc.symm)]
                  exact hx
end

/-- Kind-submap: every path of `B` exists in `A` with the same observable
kind (file content or directory-ness). -/
def subK (B A : FSTree) : Prop :=
  ∀ q x, lookupT B q = some x → ∃ y, lookupT A q = some y ∧ kindOf x = kindOf y

/-- `subK` on optional trees: a missing tree is below everything. -/
def subKO : Option FSTree → Option FSTree → Prop
  | none, _ => True
  | some _, none => False
  | some b, some a => subK b a

/-- Merge saturation: the tree `X` mirrors every source path with the
source's kind, and everything else in `X` hides behind a hidden divergence
from the source. Exactly the trees a `copyDir` merge maps to themselves,
kind for kind. -/
def Sat (s X : FSTree) : Prop :=
  (∀ u y, lookupT s u = some y → ∃ x, lookupT X u = some x ∧ kindOf x = kindOf y) ∧
  (∀ u x, lookupT X u = some x → (∃ y, lookupT s u = some y ∧ kindOf x = kindOf y) ∨ shapeOK s u)

theorem copyDirT_Sat (s : FSTree) (b : Option FSTree) (M : FSTree)
    (hM : copyDirT s b = some M) (hnd : nodupT s = true) : Sat s M := by
  constructor
  · intro u y hy
    exact copyDirT_dominates s b M hM hnd u y hy
  · intro u x hx
    rcases copyDirT_provenance s b M hM hnd u x hx with ⟨y, hy, hk⟩ | ⟨bt, _, _, hsh⟩
    · exact Or.inl ⟨y, hy, hk⟩
    · exact Or.inr hsh

theorem Sat_sub (s X c bt : FSTree) (n : String) (hSat : Sat s X)
    (hc : lookupT s [n] = some c) (hbt : lookupT X [n] = some bt) : Sat c bt := by
  constructor
  · intro u y hy
    obtain ⟨x, hx, hk⟩ := hSat.1 ([n] ++ u) y (by rw [lookup_append, hc]; simpa using hy)
    rw [lookup_append, hbt] at hx
    exact ⟨x, by simpa using hx, hk⟩
  · intro u x hx
    have hXu : lookupT X ([n] ++ u) = some x := by
      rw [lookup_append, hbt]
      simpa using hx
    rcases hSat.2 ([n] ++ u) x hXu with ⟨y, hy, hk⟩ | hsh
    · rw [lookup_append, hc] at hy
      exact Or.inl ⟨y, by simpa using hy, hk⟩
    · obtain ⟨_, hcase⟩ := shapeOK_cons_cases s n u hsh
      rcases hcase with hnone | ⟨d, hd, hint⟩
      · rw [hnone] at hc; exact absurd hc (by simp)
      · rw [hd] at hc
        cases hc
        exact Or.inr hint

mutual
theorem Sat_merge_success : ∀ (ses : FSEntries) (X : FSTree), Sat (.dir ses) X →
    nodupE ses = true → (copyDirT (.dir ses) (some X)).isSome = true := by
  intro ses X hSat hnd
  cases X with
  | file f =>
      exfalso
      obtain ⟨x, hx, hk⟩ := hSat.1 [] (.dir ses) (lookupT_nil _)
      rw [lookupT_nil] at hx
      cases hx
      simp [kindOf] at hk
  | dir desX =>
      simp only [copyDirT]
      have hsucc := copyEntries_success_inv ses (keepHiddenE desX) hnd ?_
      · cases hce : copyEntries ses (keepHiddenE desX) with
        | none => rw [hce] at hsucc; simp at hsucc
        | some des' => simp
      · intro n c hc
        rw [findE_keepHidden]
        by_cases hhid : isHiddenName n
        · rw [if_pos hhid]
          cases hbt : findE desX n with
          | none => exact Or.inl rfl
          | some bt =>
              refine Or.inr ⟨bt, rfl, ?_, ?_⟩
              · rintro ⟨f, hf⟩ d hbd
                subst hf
                subst hbd
                obtain ⟨x, hx, hk⟩ := hSat.1 [n] (.file f)
                  (by rw [show lookupT (FSTree.dir ses) [n] = lookupE ses n [] from rfl,
                    findE_eq_lookup_nil, hc])
                rw [show lookupT (FSTree.dir desX) [n] = lookupE desX n [] from rfl,
                  findE_eq_lookup_nil, hbt] at hx
                cases hx
                simp [kindOf] at hk
              · rintro ⟨ces2, hces⟩
                subst hces
                exact Sat_sub (.dir ses) (.dir desX) (.dir ces2) bt n hSat
                  (by rw [show lookupT (FSTree.dir ses) [n] = lookupE ses n [] from rfl,
                    findE_eq_lookup_nil, hc])
                  (by rw [show lookupT (FSTree.dir desX) [n] = lookupE desX n [] from rfl,
                    findE_eq_lookup_nil, hbt])
        · rw [if_neg hhid]
          exact Or.inl rfl
theorem copyEntries_success_inv : ∀ (ses des : FSEntries), nodupE ses = true →
    (∀ n c, findE ses n = some c →
      findE des n = none ∨
      ∃ bt, findE des n = some bt ∧
        ((∃ f, c = .file f) → ∀ d, bt ≠ .dir d) ∧
        ((∃ ces2, c = .dir ces2) → Sat c bt)) →
    (copyEntries ses des).isSome = true := by
  intro ses des hnd hinv
  cases ses with
  | nil => simp [copyEntries]
  | cons m c0 rest =>
      obtain ⟨hm, hc0, hrest⟩ := (nodupE_cons_iff m c0 rest).mp hnd
      have hminv := hinv m c0 (by simp [findE])
      cases c0 with
      | file f =>
          have hput : ∃ des1, putFileE des m f = some des1 := by
            rcases hminv with hnone | ⟨bt, hbt, hnf, _⟩
            · simp [putFileE, hnone]
            · cases bt with
              | file g => simp [putFileE, hbt]
              | dir d => exact absurd rfl (hnf ⟨f, rfl⟩ d)
          obtain ⟨des1, hdes1⟩ := hput
          simp only [copyEntries, hdes1]
          refine copyEntries_success_inv rest des1 hrest ?_
          intro n c hc
          have hnm : n ≠ m := by
            intro hcon
            subst hcon
            exact hm (findE_some_mem rest n c hc)
          have hc' : findE (.cons m (.file f) rest) n = some c := by
            have hmn2 : ¬ m = n := fun hc2 => hnm hc2.symm
            simp only [findE, if_neg hmn2]
            exact hc
          have := hinv n c hc'
          rw [putFileE_eq des m f des1 hdes1, findE_upsert, if_neg hnm]
          exact this
      | dir ces =>
          have hcd : ∃ sub, copyDirT (.dir ces) (findE des m) = some sub := by
            rcases hminv with hnone | ⟨bt, hbt, _, hSat⟩
            · rw [hnone]
              simp only [copyDirT]
              have hpure : (copyEntries ces FSEntries.nil).isSome = true := by
                refine copyEntries_success_inv ces FSEntries.nil hc0 ?_
                intro n2 c2 hc2
                exact Or.inl rfl
              cases hce : copyEntries ces FSEntries.nil with
              | none => rw [hce] at hpure; simp at hpure
              | some d2 => exact ⟨.dir d2, rfl⟩
            · rw [hbt]
              have hmg : (copyDirT (.dir ces) (some bt)).isSome = true :=
                Sat_merge_success ces bt (hSat ⟨ces, rfl⟩) hc0
              cases hcd2 : copyDirT (.dir ces) (some bt) with
              | none => rw [hcd2] at hmg; simp at hmg
              | some sub => exact ⟨sub, rfl⟩
          obtain ⟨sub, hsub⟩ := hcd
          simp only [copyEntries, hsub]
          refine copyEntries_success_inv rest (upsertE des m sub) hrest ?_
          intro n c hc
          have hnm : n ≠ m := by
            intro hcon
            subst hcon
            exact hm (findE_some_mem rest n c hc)
          have hc' : findE (.cons m (.dir ces) rest) n = some c := by
            have hmn2 : ¬ m = n := fun hc2 => hnm hc2.symm
            simp only [findE, if_neg hmn2]
            exact hc
          have := hinv n c hc'
          rw [findE_upsert, if_neg hnm]
          exact this
end

/-- A merge onto a saturated tree succeeds and is a kind-level no-op. -/
theorem Sat_merge (ses : FSEntries) (X : FSTree) (hSat : Sat (.dir ses) X)
    (hnd : nodupE ses = true) :
    ∃ M, copyDirT (.dir ses) (some X) = some M ∧
      ∀ u, (lookupT M u).map kindOf = (lookupT X u).map kindOf := by
  have hs := Sat_merge_success ses X hSat hnd
  cases hM : copyDirT (.dir ses) (some X) with
  | none => rw [hM] at hs; simp at hs
  | some M =>
      refine ⟨M, rfl, ?_⟩
      intro u
      cases hxM : lookupT M u with
      | some x =>
          rcases copyDirT_provenance (.dir ses) (some X) M hM hnd u x hxM with
            ⟨y, hy, hk⟩ | ⟨bt, hbt, hbx, _⟩
          · obtain ⟨x2, hx2, hk2⟩ := hSat.1 u y hy
            rw [hx2]
            simp [hk, hk2]
          · cases hbt
            rw [hbx]
      | none =>
          cases hxX : lookupT X u with
          | none => rfl
          | some x =>
              exfalso
              rcases hSat.2 u x hxX with ⟨y, hy, hk⟩ | hsh
              · obtain ⟨x2, hx2, _⟩ := copyDirT_dominates (.dir ses) (some X) M hM hnd u y hy
                rw [hxM] at hx2
                exact Option.noConfusion hx2
              · have := copyDirT_keeps (.dir ses) X M hM hnd u x hsh hxX
                rw [hxM] at this
                exact Option.noConfusion this

/-- Merging the same source onto kind-related bases yields kind-related
results. -/
theorem copyDirT_mono (s : FSTree) (bB bC : Option FSTree) (MB MC : FSTree)
    (hB : copyDirT s bB = some MB) (hC : copyDirT s bC = some MC)
    (hnd : nodupT s = true) (hsub : subKO bB bC) : subK MB MC := by
  intro u x hx
  rcases copyDirT_provenance s bB MB hB hnd u x hx with
    ⟨y, hy, hk⟩ | ⟨bt, hbt, hbx, hsh⟩
  · obtain ⟨x2, hx2, hk2⟩ := copyDirT_dominates s bC MC hC hnd u y hy
    exact ⟨x2, hx2, by rw [hk, ← hk2]⟩
  · subst hbt
    cases bC with
    | none => exact absurd hsub (by simp [subKO])
    | some btC =>
        obtain ⟨x2, hx2, hk2⟩ := hsub u x hbx
        have := copyDirT_keeps s btC MC hC hnd u x2 hsh hx2
        exact ⟨x2, this, hk2⟩

/-! ## Duplicate-freeness is preserved by every operation -/

mutual
theorem nodupT_filterT (K : List String → Bool) : ∀ (t : FSTree) (rel : List String),
    nodupT t = true → nodupT (filterT K rel t) = true := by
  intro t rel h
  cases t with
  | file c => simp [filterT, nodupT]
  | dir es => exact nodupE_filterE K es rel h
theorem nodupE_filterE (K : List String → Bool) : ∀ (es : FSEntries) (rel : List String),
    nodupE es = true → nodupE (filterE K rel es) = true := by
  intro es rel h
  cases es with
  | nil => simp [filterE, nodupE]
  | cons m c rest =>
      obtain ⟨hm, hc, hrest⟩ := (nodupE_cons_iff m c rest).mp h
      simp only [filterE]
      by_cases hK : K (rel ++ [m]) = true
      · rw [if_pos hK]
        refine (nodupE_cons_iff _ _ _).mpr ⟨?_, ?_, ?_⟩
        · intro hmem
          exact hm (namesE_filterE K rel m rest hmem)
        · exact nodupT_filterT K c (rel ++ [m]) hc
        · exact nodupE_filterE K rest rel hrest
      · rw [if_neg hK]
        exact nodupE_filterE K rest rel hrest
end

theorem chainFile_nodup (content : String) : ∀ (rest : List String),
    nodupT (chainFile rest content) = true := by
  intro rest
  induction rest with
  | nil => rfl
  | cons n rs ih =>
      show nodupE (.cons n (chainFile rs content) .nil) = true
      exact (nodupE_cons_iff _ _ _).mpr ⟨by simp [namesE], ih, rfl⟩

theorem chainDir_nodup (t : FSTree) (hnd : nodupT t = true) : ∀ (rest : List String),
    nodupT (chainDir rest t) = true := by
  intro rest
  induction rest with
  | nil => exact hnd
  | cons n rs ih =>
      show nodupE (.cons n (chainDir rs t) .nil) = true
      exact (nodupE_cons_iff _ _ _).mpr ⟨by simp [namesE], ih, rfl⟩

theorem namesE_setFileE (content : String) : ∀ (es es' : FSEntries) (n : String)
    (rest : List String), setFileE es n rest content = some es' →
    ∀ m, m ∈ namesE es' → m = n ∨ m ∈ namesE es := by
  intro es es' n rest hset m hm
  cases es with
  | nil =>
      simp only [setFileE, Option.some.injEq] at hset
      cases hset
      simp only [namesE, List.mem_cons] at hm
      rcases hm with h1 | h2
      · exact Or.inl h1
      · simp [namesE] at h2
  | cons m0 c tail =>
      by_cases hmn : m0 = n
      · subst hmn
        cases rest with
        | nil =>
            cases c with
            | dir ces => simp [setFileE, if_pos rfl] at hset
            | file f =>
                simp only [setFileE, if_pos rfl, Option.some.injEq] at hset
                cases hset
                exact Or.inr hm
        | cons r rs =>
            cases c with
            | file f => simp [setFileE, if_pos rfl] at hset
            | dir ces =>
                simp only [setFileE, if_pos rfl] at hset
                cases hrec : setFileE ces r rs content with
                | none => rw [hrec] at hset; simp at hset
                | some ces' =>
                    rw [hrec] at hset
                    simp only [Option.map_some', Option.some.injEq] at hset
                    cases hset
                    exact Or.inr hm
      · rw [setFileE_cons_ne m0 c tail n rest content hmn] at hset
        cases hrec : setFileE tail n rest content with
        | none => rw [hrec] at hset; simp at hset
        | some tail' =>
            rw [hrec] at hset
            simp only [Option.map_some', Option.some.injEq] at hset
            cases hset
            simp only [namesE, List.mem_cons] at hm ⊢
            rcases hm with h1 | h2
            · exact Or.inr (Or.inl h1)
            · rcases namesE_setFileE content tail tail' n rest hrec m h2 with h3 | h4
              · exact Or.inl h3
              · exact Or.inr (Or.inr h4)

mutual
theorem setFileT_nodup (content : String) : ∀ (cur cur' : FSTree) (r : List String),
    setFileT cur r content = some cur' → nodupT cur = true → nodupT cur' = true := by
  intro cur cur' r hset hnd
  cases cur with
  | file f => cases r <;> simp [setFileT] at hset
  | dir es =>
      cases r with
      | nil => simp [setFileT] at hset
      | cons n rest =>
          simp only [setFileT] at hset
          cases hrec : setFileE es n rest content with
          | none => rw [hrec] at hset; simp at hset
          | some es' =>
              rw [hrec] at hset
              simp only [Option.map_some', Option.some.injEq] at hset
              cases hset
              exact setFileE_nodup content es es' n rest hrec hnd
theorem setFileE_nodup (content : String) : ∀ (es es' : FSEntries) (n : String)
    (rest : List String), setFileE es n rest content = some es' →
    nodupE es = true → nodupE es' = true := by
  intro es es' n rest hset hnd
  cases es with
  | nil =>
      simp only [setFileE, Option.some.injEq] at hset
      cases hset
      exact (nodupE_cons_iff _ _ _).mpr ⟨by simp [namesE], chainFile_nodup content rest, rfl⟩
  | cons m c tail =>
      obtain ⟨hm, hc, htail⟩ := (nodupE_cons_iff m c tail).mp hnd
      by_cases hmn : m = n
      · subst hmn
        cases rest with
        | nil =>
            cases c with
            | dir ces => simp [setFileE, if_pos rfl] at hset
            | file f =>
                simp only [setFileE, if_pos rfl, Option.some.injEq] at hset
                cases hset
                exact (nodupE_cons_iff _ _ _).mpr ⟨hm, rfl, htail⟩
        | cons r rs =>
            cases c with
            | file f => simp [setFileE, if_pos rfl] at hset
            | dir ces =>
                simp only [setFileE, if_pos rfl] at hset
                cases hrec : setFileE ces r rs content with
                | none => rw [hrec] at hset; simp at hset
                | some ces' =>
                    rw [hrec] at hset
                    simp only [Option.map_some', Option.some.injEq] at hset
                    cases hset
                    exact (nodupE_cons_iff _ _ _).mpr
                      ⟨hm, setFileE_nodup content ces ces' r rs hrec hc, htail⟩
      · rw [setFileE_cons_ne m c tail n rest content hmn] at hset
        cases hrec : setFileE tail n rest content with
        | none => rw [hrec] at hset; simp at hset
        | some tail' =>
            rw [hrec] at hset
            simp only [Option.map_some', Option.some.injEq] at hset
            cases hset
            refine (nodupE_cons_iff _ _ _).mpr ⟨?_, hc, setFileE_nodup content tail tail' n rest hrec htail⟩
            intro hmem
            rcases namesE_setFileE content tail tail' n rest hrec m hmem with h1 | h2
            · exact hmn h1
            · exact hm h2
end

theorem namesE_upsert : ∀ (des : FSEntries) (n : String) (t : FSTree) (m : String),
    m ∈ namesE (upsertE des n t) → m = n ∨ m ∈ namesE des := by
  intro des n t m hm
  cases des with
  | nil =>
      simp only [upsertE, namesE, List.mem_cons] at hm
      rcases hm with h1 | h2
      · exact Or.inl h1
      · simp at h2
  | cons m0 c tail =>
      by_cases hmn : m0 = n
      · subst hmn
        simp only [upsertE, if_pos rfl, namesE, List.mem_cons] at hm
        rcases hm with h1 | h2
        · exact Or.inr (by simp [namesE, h1])
        · exact Or.inr (by simp [namesE, h2])
      · simp only [upsertE, if_neg hmn, namesE, List.mem_cons] at hm
        rcases hm with h1 | h2
        · exact Or.inr (by simp [namesE, h1])
        · rcases namesE_upsert tail n t m h2 with h3 | h4
          · exact Or.inl h3
          · exact Or.inr (by simp [namesE, h4])

theorem nodupE_upsert : ∀ (des : FSEntries) (n : String) (t : FSTree),
    nodupE des = true → nodupT t = true → nodupE (upsertE des n t) = true := by
  intro des n t hnd hndt
  cases des with
  | nil => exact (nodupE_cons_iff _ _ _).mpr ⟨by simp [namesE], hndt, rfl⟩
  | cons m0 c tail =>
      obtain ⟨hm0, hc, htail⟩ := (nodupE_cons_iff m0 c tail).mp hnd
      by_cases hmn : m0 = n
      · subst hmn
        simp only [upsertE, if_pos rfl]
        exact (nodupE_cons_iff _ _ _).mpr ⟨hm0, hndt, htail⟩
      · simp only [upsertE, if_neg hmn]
        refine (nodupE_cons_iff _ _ _).mpr ⟨?_, hc, nodupE_upsert tail n t htail hndt⟩
        intro hmem
        rcases namesE_upsert tail n t m0 hmem with h1 | h2
        · exact hmn h1
        · exact hm0 h2

theorem namesE_keepHidden : ∀ (des : FSEntries) (m : String),
    m ∈ namesE (keepHiddenE des) → m ∈ namesE des := by
  intro des m hm
  cases des with
  | nil => simpa [keepHiddenE] using hm
  | cons n c tail =>
      simp only [keepHiddenE] at hm
      by_cases hh : isHiddenName n
      · rw [if_pos hh] at hm
        simp only [namesE, List.mem_cons] at hm ⊢
        rcases hm with h1 | h2
        · exact Or.inl h1
        · exact Or.inr (namesE_keepHidden tail m h2)
      · rw [if_neg hh] at hm
        exact List.mem_cons_of_mem n (namesE_keepHidden tail m hm)

theorem nodupE_keepHidden : ∀ (des : FSEntries),
    nodupE des = true → nodupE (keepHiddenE des) = true := by
  intro des hnd
  cases des with
  | nil => rfl
  | cons n c tail =>
      obtain ⟨hn, hc, htail⟩ := (nodupE_cons_iff n c tail).mp hnd
      simp only [keepHiddenE]
      by_cases hh : isHiddenName n
      · rw [if_pos hh]
        refine (nodupE_cons_iff _ _ _).mpr ⟨?_, hc, nodupE_keepHidden tail htail⟩
        intro hmem
        exact hn (namesE_keepHidden tail n hmem)
      · rw [if_neg hh]
        exact nodupE_keepHidden tail htail

mutual
theorem copyDirT_nodup : ∀ (s : FSTree) (b : Option FSTree) (M : FSTree),
    copyDirT s b = some M → nodupT s = true →
    (∀ bt, b = some bt → nodupT bt = true) → nodupT M = true := by
  intro s b M hM hnds hndb
  cases s with
  | file f => cases b with
      | none => simp [copyDirT] at hM
      | some bt => cases bt <;> simp [copyDirT] at hM
  | dir ses =>
      cases b with
      | none =>
          simp only [copyDirT] at hM
          cases hce : copyEntries ses .nil with
          | none => rw [hce] at hM; simp at hM
          | some des' =>
              rw [hce] at hM
              simp only [Option.map_some', Option.some.injEq] at hM
              cases hM
              exact copyEntries_nodup ses .nil des' hce hnds rfl
      | some bt =>
          cases bt with
          | file f => simp [copyDirT] at hM
          | dir desb =>
              simp only [copyDirT] at hM
              cases hce : copyEntries ses (keepHiddenE desb) with
              | none => rw [hce] at hM; simp at hM
              | some des' =>
                  rw [hce] at hM
                  simp only [Option.map_some', Option.some.injEq] at hM
                  cases hM
                  exact copyEntries_nodup ses (keepHiddenE desb) des' hce hnds
                    (nodupE_keepHidden desb (hndb (.dir desb) rfl))
theorem copyEntries_nodup : ∀ (ses des des' : FSEntries),
    copyEntries ses des = some des' → nodupE ses = true → nodupE des = true →
    nodupE des' = true := by
  intro ses des des' hce hnds hndd
  cases ses with
  | nil =>
      simp only [copyEntries, Option.some.injEq] at hce
      cases hce
      exact hndd
  | cons m c0 rest =>
      obtain ⟨hm, hc0, hrest⟩ := (nodupE_cons_iff m c0 rest).mp hnds
      cases c0 with
      | file f =>
          simp only [copyEntries] at hce
          cases hput : putFileE des m f with
          | none => rw [hput] at hce; exact Option.noConfusion hce
          | some des1 =>
              rw [hput] at hce
              refine copyEntries_nodup rest des1 des' hce hrest ?_
              rw [putFileE_eq des m f des1 hput]
              exact nodupE_upsert des m (.file f) hndd rfl
      | dir ces =>
          simp only [copyEntries] at hce
          cases hcd : copyDirT (.dir ces) (findE des m) with
          | none => rw [hcd] at hce; exact Option.noConfusion hce
          | some sub =>
              rw [hcd] at hce
              have hsubnd : nodupT sub = true := by
                refine copyDirT_nodup (.dir ces) (findE des m) sub hcd hc0 ?_
                intro bt hbt
                exact findE_nodup des m bt hbt hndd
              refine copyEntries_nodup rest (upsertE des m sub) des' hce hrest
                (nodupE_upsert des m sub hndd hsubnd)
end

theorem namesE_copyDirAtE (src : FSTree) : ∀ (es es' : FSEntries) (n : String)
    (rest : List String), copyDirAtE src es n rest = some es' →
    ∀ m, m ∈ namesE es' → m = n ∨ m ∈ namesE es := by
  intro es es' n rest hcp m hm
  cases es with
  | nil =>
      simp only [copyDirAtE] at hcp
      cases hcd : copyDirT src none with
      | none => rw [hcd] at hcp; simp at hcp
      | some sub =>
          rw [hcd] at hcp
          simp only [Option.some.injEq] at hcp
          cases hcp
          simp only [namesE, List.mem_cons] at hm
          rcases hm with h1 | h2
          · exact Or.inl h1
          · simp [namesE] at h2
  | cons m0 c tail =>
      by_cases hmn : m0 = n
      · subst hmn
        cases rest with
        | nil =>
            simp only [copyDirAtE, if_pos rfl] at hcp
            cases hcd : copyDirT src (some c) with
            | none => rw [hcd] at hcp; simp at hcp
            | some sub =>
                rw [hcd] at hcp
                simp only [Option.map_some', Option.some.injEq] at hcp
                cases hcp
                exact Or.inr hm
        | cons a rs =>
            simp only [copyDirAtE, if_pos rfl] at hcp
            cases hrec : copyDirAtT src c (a :: rs) with
            | none => rw [hrec] at hcp; simp at hcp
            | some sub =>
                rw [hrec] at hcp
                simp only [Option.map_some', Option.some.injEq] at hcp
                cases hcp
                exact Or.inr hm
      · rw [copyDirAtE_cons_ne src m0 c tail n rest hmn] at hcp
        cases hrec : copyDirAtE src tail n rest with
        | none => rw [hrec] at hcp; simp at hcp
        | some tail' =>
            rw [hrec] at hcp
            simp only [Option.map_some', Option.some.injEq] at hcp
            cases hcp
            simp only [namesE, List.mem_cons] at hm ⊢
            rcases hm with h1 | h2
            · exact Or.inr (Or.inl h1)
            · rcases namesE_copyDirAtE src tail tail' n rest hrec m h2 with h3 | h4
              · exact Or.inl h3
              · exact Or.inr (Or.inr h4)

mutual
theorem copyDirAtT_nodup (src : FSTree) : ∀ (cur cur' : FSTree) (r : List String),
    copyDirAtT src cur r = some cur' → nodupT src = true → nodupT cur = true →
    nodupT cur' = true := by
  intro cur cur' r hcp hnds hndc
  cases r with
  | nil =>
      have : copyDirT src (some cur) = some cur' := by cases cur <;> exact hcp
      exact copyDirT_nodup src (some cur) cur' this hnds
        (fun bt hbt => by cases hbt; exact hndc)
  | cons n rest =>
      cases cur with
      | file f => simp [copyDirAtT] at hcp
      | dir es =>
          simp only [copyDirAtT] at hcp
          cases hrec : copyDirAtE src es n rest with
          | none => rw [hrec] at hcp; simp at hcp
          | some es' =>
              rw [hrec] at hcp
              simp only [Option.map_some', Option.some.injEq] at hcp
              cases hcp
              exact copyDirAtE_nodup src es es' n rest hrec hnds hndc
theorem copyDirAtE_nodup (src : FSTree) : ∀ (es es' : FSEntries) (n : String)
    (rest : List String), copyDirAtE src es n rest = some es' → nodupT src = true →
    nodupE es = true → nodupE es' = true := by
  intro es es' n rest hcp hnds hnde
  cases es with
  | nil =>
      simp only [copyDirAtE] at hcp
      cases hcd : copyDirT src none with
      | none => rw [hcd] at hcp; simp at hcp
      | some sub =>
          rw [hcd] at hcp
          simp only [Option.some.injEq] at hcp
          cases hcp
          refine (nodupE_cons_iff _ _ _).mpr ⟨by simp [namesE], ?_, rfl⟩
          exact chainDir_nodup sub (copyDirT_nodup src none sub hcd hnds (by simp)) rest
  | cons m c tail =>
      obtain ⟨hm, hc, htail⟩ := (nodupE_cons_iff m c tail).mp hnde
      by_cases hmn : m = n
      · subst hmn
        cases rest with
        | nil =>
            simp only [copyDirAtE, if_pos rfl] at hcp
            cases hcd : copyDirT src (some c) with
            | none => rw [hcd] at hcp; simp at hcp
            | some sub =>
                rw [hcd] at hcp
                simp only [Option.map_some', Option.some.injEq] at hcp
                cases hcp
                refine (nodupE_cons_iff _ _ _).mpr ⟨hm, ?_, htail⟩
                exact copyDirT_nodup src (some c) sub hcd hnds
                  (fun bt hbt => by cases hbt; exact hc)
        | cons a rs =>
            simp only [copyDirAtE, if_pos rfl] at hcp
            cases hrec : copyDirAtT src c (a :: rs) with
            | none => rw [hrec] at hcp; simp at hcp
            | some sub =>
                rw [hrec] at hcp
                simp only [Option.map_some', Option.some.injEq] at hcp
                cases hcp
                exact (nodupE_cons_iff _ _ _).mpr
                  ⟨hm, copyDirAtT_nodup src c sub (a :: rs) hrec hnds hc, htail⟩
      · rw [copyDirAtE_cons_ne src m c tail n rest hmn] at hcp
        cases hrec : copyDirAtE src tail n rest with
        | none => rw [hrec] at hcp; simp at hcp
        | some tail' =>
            rw [hrec] at hcp
            simp only [Option.map_some', Option.some.injEq] at hcp
            cases hcp
            refine (nodupE_cons_iff _ _ _).mpr ⟨?_, hc, copyDirAtE_nodup src tail tail' n rest hrec hnds htail⟩
            intro hmem
            rcases namesE_copyDirAtE src tail tail' n rest hrec m hmem with h1 | h2
            · exact hmn h1
            · exact hm h2
end

theorem copyAll_nodup (src : FSTree) : ∀ (rps : List (List String)) (cur cur' : FSTree),
    copyAll src cur rps = some cur' → nodupT src = true → nodupT cur = true →
    nodupT cur' = true := by
  intro rps
  induction rps with
  | nil =>
      intro cur cur' hcp _ hndc
      simp only [copyAll, Option.some.injEq] at hcp
      cases hcp
      exact hndc
  | cons r rs ih =>
      intro cur cur' hcp hnds hndc
      simp only [copyAll] at hcp
      cases hsrc : lookupT src r with
      | none => rw [hsrc] at hcp; simp at hcp
      | some sc =>
          rw [hsrc] at hcp
          cases sc with
          | dir ses =>
              have hcp2 : (match copyDirAtT (.dir ses) cur r with
                  | none => none
                  | some cur1 => copyAll src cur1 rs) = some cur' := hcp
              cases hstep : copyDirAtT (.dir ses) cur r with
              | none => rw [hstep] at hcp2; simp at hcp2
              | some cur1 =>
                  rw [hstep] at hcp2
                  have hsesnd : nodupT (.dir ses) = true := nodup_lookupT src hnds r _ hsrc
                  exact ih cur1 cur' hcp2 hnds
                    (copyDirAtT_nodup (.dir ses) cur cur1 r hstep hsesnd hndc)
          | file content =>
              have hcp2 : (match setFileT cur r content with
                  | none => none
                  | some cur1 => copyAll src cur1 rs) = some cur' := hcp
              cases hstep : setFileT cur r content with
              | none => rw [hstep] at hcp2; simp at hcp2
              | some cur1 =>
                  rw [hstep] at hcp2
                  exact ih cur1 cur' hcp2 hnds (setFileT_nodup content cur cur1 r hstep hndc)

theorem kindOf_none_dir (x : FSTree) (h : kindOf x = none) : ∃ d, x = .dir d := by
  cases x with
  | file f => simp [kindOf] at h
  | dir d => exact ⟨d, rfl⟩

theorem lookup_prefix_dir (t : FSTree) (q p : List String) (y : FSTree)
    (hy : lookupT t q = some y) (hpre : p <+: q) (hne : p ≠ q) :
    ∃ d, lookupT t p = some (.dir d) := by
  obtain ⟨u, hu⟩ := hpre
  cases u with
  | nil => rw [List.append_nil] at hu; exact absurd hu hne
  | cons v vs =>
      rw [← hu, lookup_append] at hy
      cases htp : lookupT t p with
      | none => rw [htp] at hy; exact Option.noConfusion hy
      | some tp =>
          rw [htp] at hy
          cases tp with
          | file f => simp [lookupT] at hy
          | dir d => exact ⟨d, rfl⟩

theorem copyDirT_dir (s : FSTree) (b : Option FSTree) (M : FSTree)
    (hM : copyDirT s b = some M) : ∃ des', M = .dir des' := by
  cases s with
  | file f => cases b with
      | none => simp [copyDirT] at hM
      | some bt => cases bt <;> simp [copyDirT] at hM
  | dir ses =>
      cases b with
      | none =>
          simp only [copyDirT] at hM
          cases hce : copyEntries ses .nil with
          | none => rw [hce] at hM; simp at hM
          | some des' =>
              rw [hce] at hM
              simp only [Option.map_some', Option.some.injEq] at hM
              exact ⟨des', hM.symm⟩
      | some bt =>
          cases bt with
          | file f => simp [copyDirT] at hM
          | dir desb =>
              simp only [copyDirT] at hM
              cases hce : copyEntries ses (keepHiddenE desb) with
              | none => rw [hce] at hM; simp at hM
              | some des' =>
                  rw [hce] at hM
                  simp only [Option.map_some', Option.some.injEq] at hM
                  exact ⟨des', hM.symm⟩

mutual
theorem setFileT_not_dir (content : String) : ∀ (cur cur' : FSTree) (r : List String),
    setFileT cur r content = some cur' → ∀ d, lookupT cur r ≠ some (.dir d) := by
  intro cur cur' r hset d hl
  cases cur with
  | file f => cases r <;> simp [setFileT] at hset
  | dir es =>
      cases r with
      | nil => simp [setFileT] at hset
      | cons n rest =>
          simp only [setFileT] at hset
          cases hrec : setFileE es n rest content with
          | none => rw [hrec] at hset; simp at hset
          | some es' =>
              exact setFileE_not_dir content es es' n rest hrec d hl
theorem setFileE_not_dir (content : String) : ∀ (es es' : FSEntries) (n : String)
    (rest : List String), setFileE es n rest content = some es' →
    ∀ d, lookupE es n rest ≠ some (.dir d) := by
  intro es es' n rest hset d hl
  cases es with
  | nil => simp [lookupE] at hl
  | cons m c tail =>
      by_cases hmn : m = n
      · subst hmn
        simp only [lookupE, if_pos rfl] at hl
        cases rest with
        | nil =>
            rw [lookupT_nil] at hl
            cases hl
            simp [setFileE, if_pos rfl] at hset
        | cons r rs =>
            cases c with
            | file f => simp [lookupT] at hl
            | dir ces =>
                simp only [setFileE, if_pos rfl] at hset
                cases hrec : setFileE ces r rs content with
                | none => rw [hrec] at hset; simp at hset
                | some ces' =>
                    exact setFileE_not_dir content ces ces' r rs hrec d hl
      · simp only [lookupE, if_neg hmn] at hl
        rw [setFileE_cons_ne m c tail n rest content hmn] at hset
        cases hrec : setFileE tail n rest content with
        | none => rw [hrec] at hset; simp at hset
        | some tail' =>
            exact setFileE_not_dir content tail tail' n rest hrec d hl
end

theorem Sat_sub_path : ∀ (v : List String) (s X sv Xv : FSTree), Sat s X →
    lookupT s v = some sv → lookupT X v = some Xv → Sat sv Xv := by
  intro v
  induction v with
  | nil =>
      intro s X sv Xv hSat hs hX
      rw [lookupT_nil] at hs hX
      cases hs
      cases hX
      exact hSat
  | cons n vs ih =>
      intro s X sv Xv hSat hs hX
      have hs' : lookupT s ([n] ++ vs) = some sv := hs
      have hX' : lookupT X ([n] ++ vs) = some Xv := hX
      rw [lookup_append] at hs' hX'
      cases hc : lookupT s [n] with
      | none => rw [hc] at hs'; exact Option.noConfusion hs'
      | some c =>
          rw [hc] at hs'
          simp only [Option.some_bind] at hs'
          cases hbt : lookupT X [n] with
          | none => rw [hbt] at hX'; exact Option.noConfusion hX'
          | some bt =>
              rw [hbt] at hX'
              simp only [Option.some_bind] at hX'
              exact ih c bt sv Xv (Sat_sub s X c bt n hSat hc hbt) hs' hX'

/-- The final-state property of each copied path after `copyAll`: a listed
source file sits at the destination with its content, a listed source
directory sits there as a merge-saturated tree, and the directory chain
above it exists. -/
def SatAt (src cur : FSTree) (r : List String) : Prop :=
  (∀ c, lookupT src r = some (.file c) → lookupT cur r = some (.file c)) ∧
  (∀ ses, lookupT src r = some (.dir ses) → ∃ X, lookupT cur r = some X ∧ Sat (.dir ses) X) ∧
  (∀ p, p <+: r → p ≠ r → ∃ d, lookupT cur p = some (.dir d))

theorem SatAt_establish_file (src cur cur1 : FSTree) (r : List String) (content : String)
    (hsrc : lookupT src r = some (.file content))
    (hset : setFileT cur r content = some cur1) : SatAt src cur1 r := by
  refine ⟨?_, ?_, ?_⟩
  · intro c hc
    rw [hsrc] at hc
    have := FSTree.file.inj (Option.some.inj hc)
    rw [← this]
    exact setFileT_self cur cur1 r content hset
  · intro ses hses
    rw [hsrc] at hses
    exact FSTree.noConfusion (Option.some.inj hses)
  · exact setFileT_chain content cur cur1 r hset

theorem SatAt_establish_dir (src cur cur1 : FSTree) (r : List String) (ses : FSEntries)
    (hsrc : lookupT src r = some (.dir ses)) (hnd : nodupT src = true)
    (hcp : copyDirAtT (.dir ses) cur r = some cur1) : SatAt src cur1 r := by
  refine ⟨?_, ?_, ?_⟩
  · intro c hc
    rw [hsrc] at hc
    exact FSTree.noConfusion (Option.some.inj hc)
  · intro ses2 hses2
    rw [hsrc] at hses2
    have hse : ses2 = ses := FSTree.dir.inj (Option.some.inj hses2).symm
    rw [hse]
    obtain ⟨M, hM, hlM⟩ := copyDirAtT_at (.dir ses) cur cur1 r hcp
    exact ⟨M, hlM, copyDirT_Sat (.dir ses) (lookupT cur r) M hM
      (nodup_lookupT src hnd r (.dir ses) hsrc)⟩
  · exact copyDirAtT_chain (.dir ses) cur cur1 r hcp

theorem SatAt_preserve_set (src cur cur2 : FSTree) (r rr : List String) (content : String)
    (hsrcrr : lookupT src rr = some (.file content))
    (hop : setFileT cur rr content = some cur2)
    (hsrcr : lookupT src r ≠ none) (hS : SatAt src cur r) : SatAt src cur2 r := by
  by_cases heq : rr = r
  · subst heq
    exact SatAt_establish_file src cur cur2 rr content hsrcrr hop
  by_cases hpre1 : rr <+: r
  · exfalso
    exact hsrcr (lookup_below_file src rr r content hsrcrr hpre1 heq)
  by_cases hpre2 : r <+: rr
  · obtain ⟨v, hv⟩ := hpre2
    have hvne : v ≠ [] := by
      intro hc
      rw [hc, List.append_nil] at hv
      exact heq hv.symm
    refine ⟨?_, ?_, ?_⟩
    · intro c hc
      exfalso
      have := lookup_below_file src r rr c hc ⟨v, hv⟩ (fun hc2 => heq hc2.symm)
      rw [this] at hsrcrr
      exact Option.noConfusion hsrcrr
    · intro ses hses
      obtain ⟨X, hX, hSat⟩ := hS.2.1 ses hses
      obtain ⟨d, hd⟩ := setFileT_chain content cur cur2 rr hop r ⟨v, hv⟩
        (fun hc2 => heq hc2.symm)
      refine ⟨.dir d, hd, ?_, ?_⟩
      · -- source paths of `ses` keep their kinds in the updated subtree
        intro u y hy
        have hsv : lookupT (.dir ses) v = some (.file content) := by
          have h1 : lookupT src (r ++ v) = some (.file content) := by rw [hv]; exact hsrcrr
          rw [lookup_append, hses] at h1
          simpa using h1
        have hXdapp : ∀ w, lookupT cur2 (r ++ w) = lookupT (.dir d) w := by
          intro w
          rw [lookup_append, hd]
          simp
        have hXapp : ∀ w, lookupT cur (r ++ w) = lookupT X w := by
          intro w
          rw [lookup_append, hX]
          simp
        by_cases hu1 : v <+: u
        · by_cases huv : u = v
          · subst huv
            have := setFileT_self cur cur2 rr content hop
            rw [← hv] at this
            rw [hXdapp u] at this
            rw [hsv] at hy
            cases hy
            exact ⟨.file content, this, rfl⟩
          · exfalso
            have := lookup_below_file (.dir ses) v u content hsv hu1 (fun hc2 => huv hc2.symm)
            rw [this] at hy
            exact Option.noConfusion hy
        · by_cases hu2 : u <+: v
          · -- u is a proper prefix of v: the write leaves a directory there
            have hune : u ≠ v := fun hc2 => hu1 (hc2 ▸ List.prefix_rfl)
            obtain ⟨d2, hd2⟩ := setFileT_chain content cur cur2 rr hop (r ++ u)
              (by rw [← hv]; exact (List.prefix_append_right_inj r).mpr hu2)
              (by intro hc2; rw [← hv] at hc2; exact hune (List.append_cancel_left hc2))
            rw [hXdapp u] at hd2
            obtain ⟨d3, hd3⟩ := lookup_prefix_dir (.dir ses) v u (.file content) hsv hu2 hune
            rw [hd3] at hy
            cases hy
            exact ⟨.dir d2, hd2, rfl⟩
          · -- untouched region
            have hfr := setFileT_untouched content cur cur2 rr hop (r ++ u)
              (by rw [← hv]; intro hc2; exact hu1 ((List.prefix_append_right_inj r).mp hc2))
              (by rw [← hv]; intro hc2; exact hu2 ((List.prefix_append_right_inj r).mp hc2))
            rw [hXdapp u, hXapp u] at hfr
            obtain ⟨x, hx, hk⟩ := hSat.1 u y hy
            exact ⟨x, by rw [hfr]; exact hx, hk⟩
      · -- paths of the updated subtree are source paths or hidden leftovers
        intro u x hx
        have hsv : lookupT (.dir ses) v = some (.file content) := by
          have h1 : lookupT src (r ++ v) = some (.file content) := by rw [hv]; exact hsrcrr
          rw [lookup_append, hses] at h1
          simpa using h1
        have hXdapp : ∀ w, lookupT cur2 (r ++ w) = lookupT (.dir d) w := by
          intro w
          rw [lookup_append, hd]
          simp
        have hXapp : ∀ w, lookupT cur (r ++ w) = lookupT X w := by
          intro w
          rw [lookup_append, hX]
          simp
        have hxg : lookupT cur2 (r ++ u) = some x := by rw [hXdapp u]; exact hx
        cases x with
        | file f =>
            rcases setFileT_new_file cur cur2 rr content hop (r ++ u) f hxg with ⟨h1, h2⟩ | hold
            · rw [← hv] at h1
              have huv : u = v := List.append_cancel_left h1
              subst huv
              subst h2
              exact Or.inl ⟨.file f, hsv, rfl⟩
            · rw [hXapp u] at hold
              exact hSat.2 u (.file f) hold
        | dir es2 =>
            by_cases hu0 : u = []
            · subst hu0
              exact Or.inl ⟨.dir ses, lookupT_nil _, rfl⟩
            rcases setFileT_new_dir cur cur2 rr content hop (r ++ u) es2
              (by intro hc2; rw [List.append_eq_nil] at hc2
                  exact hu0 hc2.2) hxg with ⟨h1, h2⟩ | ⟨es3, hold⟩
            · rw [← hv] at h1
              have huv : u <+: v := (List.prefix_append_right_inj r).mp h1
              have hune : u ≠ v := fun hc2 => h2 (by rw [hc2, hv])
              obtain ⟨d3, hd3⟩ := lookup_prefix_dir (.dir ses) v u (.file content) hsv huv hune
              exact Or.inl ⟨.dir d3, hd3, rfl⟩
            · rw [hXapp u] at hold
              have := hSat.2 u (.dir es3) hold
              rcases this with ⟨y, hy, hk⟩ | hsh
              · exact Or.inl ⟨y, hy, hk⟩
              · exact Or.inr hsh
    · intro p hp hpne
      exact setFileT_chain content cur cur2 rr hop p
        (hp.trans ⟨v, hv⟩) (by
          intro hc2
          subst hc2
          exact hpre1 hp)
  · -- the write is unrelated to `r`
    refine ⟨?_, ?_, ?_⟩
    · intro c hc
      have hfr := setFileT_untouched content cur cur2 rr hop r
        (fun hc2 => hpre1 hc2) (fun hc2 => hpre2 hc2)
      rw [hfr]
      exact hS.1 c hc
    · intro ses hses
      obtain ⟨X, hX, hSat⟩ := hS.2.1 ses hses
      have hfr := setFileT_untouched content cur cur2 rr hop r
        (fun hc2 => hpre1 hc2) (fun hc2 => hpre2 hc2)
      exact ⟨X, by rw [hfr]; exact hX, hSat⟩
    · intro p hp hpne
      obtain ⟨d, hd⟩ := hS.2.2 p hp hpne
      by_cases hp1 : rr <+: p
      · exfalso
        by_cases hprr : p = rr
        · rw [hprr] at hd
          exact setFileT_not_dir content cur cur2 rr hop d hd
        · obtain ⟨d2, hd2⟩ := lookup_prefix_dir cur p rr (.dir d) hd hp1 (fun h => hprr h.symm)
          exact setFileT_not_dir content cur cur2 rr hop d2 hd2
      · by_cases hp2 : p <+: rr
        · exact setFileT_chain content cur cur2 rr hop p hp2 (fun hc2 => hp1 (hc2 ▸ List.prefix_rfl))
        · have hfr := setFileT_untouched content cur cur2 rr hop p hp1 hp2
          exact ⟨d, by rw [hfr]; exact hd⟩

theorem SatAt_preserve_dirop (src cur cur2 : FSTree) (r rr : List String) (sesrr : FSEntries)
    (hsrcrr : lookupT src rr = some (.dir sesrr)) (hnd : nodupT src = true)
    (hop : copyDirAtT (.dir sesrr) cur rr = some cur2)
    (hsrcr : lookupT src r ≠ none) (hS : SatAt src cur r) : SatAt src cur2 r := by
  have hndrr : nodupE sesrr = true := nodup_lookupT src hnd rr (.dir sesrr) hsrcrr
  obtain ⟨M, hM, hMr⟩ := copyDirAtT_at (.dir sesrr) cur cur2 rr hop
  have hSatM : Sat (.dir sesrr) M := copyDirT_Sat (.dir sesrr) (lookupT cur rr) M hM hndrr
  have hMapp : ∀ w, lookupT cur2 (rr ++ w) = lookupT M w := by
    intro w
    rw [lookup_append, hMr]
    simp
  by_cases heq : rr = r
  · subst heq
    exact SatAt_establish_dir src cur cur2 rr sesrr hsrcrr hnd hop
  by_cases hpre1 : rr <+: r
  · -- the copy covers `r`: its whole region is rebuilt from the source
    obtain ⟨v, hv⟩ := hpre1
    have hvne : v ≠ [] := by
      intro hc
      rw [hc, List.append_nil] at hv
      exact heq hv
    have hsrcv : lookupT (.dir sesrr) v = lookupT src r := by
      rw [← hv, lookup_append, hsrcrr]
      simp
    refine ⟨?_, ?_, ?_⟩
    · intro c hc
      rw [hc] at hsrcv
      obtain ⟨x, hx, hk⟩ := hSatM.1 v (.file c) hsrcv
      rw [kindOf_file x c hk] at hx
      rw [← hv, hMapp v]
      exact hx
    · intro ses hses
      rw [hses] at hsrcv
      obtain ⟨x, hx, hk⟩ := hSatM.1 v (.dir ses) hsrcv
      refine ⟨x, by rw [← hv, hMapp v]; exact hx, ?_⟩
      exact Sat_sub_path v (.dir sesrr) M (.dir ses) x hSatM hsrcv hx
    · intro p hp hpne
      by_cases hp1 : p <+: rr
      · by_cases hprr : p = rr
        · obtain ⟨d, hd⟩ := copyDirT_dir (.dir sesrr) (lookupT cur rr) M hM
          exact ⟨d, by rw [hprr, hMr, hd]⟩
        · exact copyDirAtT_chain (.dir sesrr) cur cur2 rr hop p hp1 hprr
      · have hrrp : rr <+: p := by
          rcases List.prefix_or_prefix_of_prefix hp ⟨v, hv⟩ with h1 | h2
          · exact absurd h1 hp1
          · exact h2
        obtain ⟨w, hw⟩ := hrrp
        obtain ⟨y0, hy0⟩ := Option.ne_none_iff_exists'.mp hsrcr
        obtain ⟨dp, hdp⟩ := lookup_prefix_dir src r p y0 hy0 hp hpne
        have hsw : lookupT (.dir sesrr) w = some (.dir dp) := by
          have := hdp
          rw [← hw, lookup_append, hsrcrr] at this
          simpa using this
        obtain ⟨x, hx, hk⟩ := hSatM.1 w (.dir dp) hsw
        obtain ⟨d2, hd2⟩ := kindOf_none_dir x hk
        refine ⟨d2, ?_⟩
        rw [← hw, hMapp w, hx, hd2]
  by_cases hpre2 : r <+: rr
  · -- the copy happens strictly inside `r`'s subtree
    obtain ⟨v, hv⟩ := hpre2
    have hvne : v ≠ [] := by
      intro hc
      rw [hc, List.append_nil] at hv
      exact heq hv.symm
    refine ⟨?_, ?_, ?_⟩
    · intro c hc
      exfalso
      have := lookup_below_file src r rr c hc ⟨v, hv⟩ (fun hc2 => heq hc2.symm)
      rw [this] at hsrcrr
      exact Option.noConfusion hsrcrr
    · intro ses hses
      obtain ⟨X, hX, hSat⟩ := hS.2.1 ses hses
      obtain ⟨d, hd⟩ := copyDirAtT_chain (.dir sesrr) cur cur2 rr hop r ⟨v, hv⟩
        (fun hc2 => heq hc2.symm)
      have hsv : lookupT (.dir ses) v = some (.dir sesrr) := by
        have h1 : lookupT src (r ++ v) = some (.dir sesrr) := by rw [hv]; exact hsrcrr
        rw [lookup_append, hses] at h1
        simpa using h1
      have hXdapp : ∀ w, lookupT cur2 (r ++ w) = lookupT (.dir d) w := by
        intro w
        rw [lookup_append, hd]
        simp
      have hXapp : ∀ w, lookupT cur (r ++ w) = lookupT X w := by
        intro w
        rw [lookup_append, hX]
        simp
      have hbase : lookupT cur rr = lookupT X v := by
        rw [← hv]
        exact hXapp v
      refine ⟨.dir d, hd, ?_, ?_⟩
      · intro u y hy
        by_cases hu1 : v <+: u
        · obtain ⟨w, hw⟩ := hu1
          have hyw : lookupT (.dir sesrr) w = some y := by
            rw [← hw, lookup_append, hsv] at hy
            simpa using hy
          obtain ⟨x, hx, hk⟩ := hSatM.1 w y hyw
          refine ⟨x, ?_, hk⟩
          calc lookupT (FSTree.dir d) u
              = lookupT cur2 (r ++ u) := (hXdapp u).symm
            _ = lookupT cur2 (rr ++ w) := by rw [← hw, ← List.append_assoc, hv]
            _ = lookupT M w := hMapp w
            _ = some x := hx
        · by_cases hu2 : u <+: v
          · have hune : u ≠ v := fun hc2 => hu1 (hc2 ▸ List.prefix_rfl)
            obtain ⟨d2, hd2⟩ := copyDirAtT_chain (.dir sesrr) cur cur2 rr hop (r ++ u)
              (by rw [← hv]; exact (List.prefix_append_right_inj r).mpr hu2)
              (by rw [← hv]; intro hc2; exact hune (List.append_cancel_left hc2))
            rw [hXdapp u] at hd2
            obtain ⟨d3, hd3⟩ := lookup_prefix_dir (.dir ses) v u (.dir sesrr) hsv hu2 hune
            rw [hd3] at hy
            cases hy
            exact ⟨.dir d2, hd2, rfl⟩
          · have hfr := copyDirAtT_untouched (.dir sesrr) cur cur2 rr hop (r ++ u)
              (by rw [← hv]; intro hc2; exact hu1 ((List.prefix_append_right_inj r).mp hc2))
              (by rw [← hv]; intro hc2; exact hu2 ((List.prefix_append_right_inj r).mp hc2))
            rw [hXdapp u, hXapp u] at hfr
            obtain ⟨x, hx, hk⟩ := hSat.1 u y hy
            exact ⟨x, by rw [hfr]; exact hx, hk⟩
      · intro u x hx
        by_cases hu0 : u = []
        · subst hu0
          rw [lookupT_nil] at hx
          cases hx
          exact Or.inl ⟨.dir ses, lookupT_nil _, rfl⟩
        by_cases hu1 : v <+: u
        · obtain ⟨w, hw⟩ := hu1
          have hxw : lookupT M w = some x := by
            calc lookupT M w
                = lookupT cur2 (rr ++ w) := (hMapp w).symm
              _ = lookupT cur2 (r ++ u) := by rw [← hw, ← List.append_assoc, hv]
              _ = lookupT (FSTree.dir d) u := hXdapp u
              _ = some x := hx
          rcases copyDirT_provenance (.dir sesrr) (lookupT cur rr) M hM hndrr w x hxw with
            ⟨y, hy, hk⟩ | ⟨bt, hbt, hbx, hshape⟩
          · refine Or.inl ⟨y, ?_, hk⟩
            rw [← hw, lookup_append, hsv]
            simpa using hy
          · have hXvw : lookupT X (v ++ w) = some x := by
              rw [lookup_append]
              rw [hbase] at hbt
              rw [hbt]
              simpa using hbx
            rw [hw] at hXvw
            rcases hSat.2 u x hXvw with ⟨y, hy, hk⟩ | hsh
            · exact Or.inl ⟨y, hy, hk⟩
            · exact Or.inr hsh
        · by_cases hu2 : u <+: v
          · have hune : u ≠ v := fun hc2 => hu1 (hc2 ▸ List.prefix_rfl)
            obtain ⟨d2, hd2⟩ := copyDirAtT_chain (.dir sesrr) cur cur2 rr hop (r ++ u)
              (by rw [← hv]; exact (List.prefix_append_right_inj r).mpr hu2)
              (by rw [← hv]; intro hc2; exact hune (List.append_cancel_left hc2))
            rw [hXdapp u] at hd2
            rw [hd2] at hx
            cases hx
            obtain ⟨d3, hd3⟩ := lookup_prefix_dir (.dir ses) v u (.dir sesrr) hsv hu2 hune
            exact Or.inl ⟨.dir d3, hd3, rfl⟩
          · have hfr := copyDirAtT_untouched (.dir sesrr) cur cur2 rr hop (r ++ u)
              (by rw [← hv]; intro hc2; exact hu1 ((List.prefix_append_right_inj r).mp hc2))
              (by rw [← hv]; intro hc2; exact hu2 ((List.prefix_append_right_inj r).mp hc2))
            rw [hXdapp u, hXapp u] at hfr
            rw [hfr] at hx
            exact hSat.2 u x hx
    · intro p hp hpne
      exact copyDirAtT_chain (.dir sesrr) cur cur2 rr hop p (hp.trans ⟨v, hv⟩)
        (by intro hc2; subst hc2; exact hpre1 hp)
  · -- the copy is unrelated to `r`
    refine ⟨?_, ?_, ?_⟩
    · intro c hc
      have hfr := copyDirAtT_untouched (.dir sesrr) cur cur2 rr hop r hpre1 hpre2
      rw [hfr]
      exact hS.1 c hc
    · intro ses hses
      obtain ⟨X, hX, hSat⟩ := hS.2.1 ses hses
      have hfr := copyDirAtT_untouched (.dir sesrr) cur cur2 rr hop r hpre1 hpre2
      exact ⟨X, by rw [hfr]; exact hX, hSat⟩
    · intro p hp hpne
      obtain ⟨d, hd⟩ := hS.2.2 p hp hpne
      by_cases hp1 : p <+: rr
      · by_cases hprr : p = rr
        · obtain ⟨d2, hd2⟩ := copyDirT_dir (.dir sesrr) (lookupT cur rr) M hM
          exact ⟨d2, by rw [hprr, hMr, hd2]⟩
        · exact copyDirAtT_chain (.dir sesrr) cur cur2 rr hop p hp1 hprr
      · by_cases hp2 : rr <+: p
        · obtain ⟨w, hw⟩ := hp2
          obtain ⟨y0, hy0⟩ := Option.ne_none_iff_exists'.mp hsrcr
          obtain ⟨dp, hdp⟩ := lookup_prefix_dir src r p y0 hy0 hp hpne
          have hsw : lookupT (.dir sesrr) w = some (.dir dp) := by
            have := hdp
            rw [← hw, lookup_append, hsrcrr] at this
            simpa using this
          obtain ⟨x, hx, hk⟩ := hSatM.1 w (.dir dp) hsw
          obtain ⟨d2, hd2⟩ := kindOf_none_dir x hk
          refine ⟨d2, ?_⟩
          rw [← hw, hMapp w, hx, hd2]
        · have hfr := copyDirAtT_untouched (.dir sesrr) cur cur2 rr hop p hp2 hp1
          exact ⟨d, by rw [hfr]; exact hd⟩

theorem copyAll_SatAt (src : FSTree) : ∀ (rps : List (List String)) (cur cur' : FSTree),
    copyAll src cur rps = some cur' → nodupT src = true →
    (∀ r ∈ rps, SatAt src cur' r) ∧
    (∀ r, lookupT src r ≠ none → SatAt src cur r → SatAt src cur' r) := by
  intro rps
  induction rps with
  | nil =>
      intro cur cur' hcp _
      simp only [copyAll, Option.some.injEq] at hcp
      cases hcp
      exact ⟨by simp, fun r _ hS => hS⟩
  | cons rr rs ih =>
      intro cur cur' hcp hnd
      simp only [copyAll] at hcp
      cases hsrc : lookupT src rr with
      | none => rw [hsrc] at hcp; simp at hcp
      | some sc =>
          rw [hsrc] at hcp
          cases sc with
          | dir sesrr =>
              have hcp2 : (match copyDirAtT (.dir sesrr) cur rr with
                  | none => none
                  | some cur1 => copyAll src cur1 rs) = some cur' := hcp
              cases hstep : copyDirAtT (.dir sesrr) cur rr with
              | none => rw [hstep] at hcp2; simp at hcp2
              | some cur1 =>
                  rw [hstep] at hcp2
                  obtain ⟨P1, P2⟩ := ih cur1 cur' hcp2 hnd
                  constructor
                  · intro r hr
                    rcases List.mem_cons.mp hr with h1 | h2
                    · subst h1
                      exact P2 r (by rw [hsrc]; simp)
                        (SatAt_establish_dir src cur cur1 r sesrr hsrc hnd hstep)
                    · exact P1 r h2
                  · intro r hsrcr hS
                    exact P2 r hsrcr
                      (SatAt_preserve_dirop src cur cur1 r rr sesrr hsrc hnd hstep hsrcr hS)
          | file content =>
              have hcp2 : (match setFileT cur rr content with
                  | none => none
                  | some cur1 => copyAll src cur1 rs) = some cur' := hcp
              cases hstep : setFileT cur rr content with
              | none => rw [hstep] at hcp2; simp at hcp2
              | some cur1 =>
                  rw [hstep] at hcp2
                  obtain ⟨P1, P2⟩ := ih cur1 cur' hcp2 hnd
                  constructor
                  · intro r hr
                    rcases List.mem_cons.mp hr with h1 | h2
                    · subst h1
                      exact P2 r (by rw [hsrc]; simp)
                        (SatAt_establish_file src cur cur1 r content hsrc hstep)
                    · exact P1 r h2
                  · intro r hsrcr hS
                    exact P2 r hsrcr
                      (SatAt_preserve_set src cur cur1 r rr content hsrc hstep hsrcr hS)

theorem copyAll_untouched (src : FSTree) : ∀ (rps : List (List String)) (B B' : FSTree),
    copyAll src B rps = some B' → ∀ q, (∀ r ∈ rps, ¬ (r <+: q) ∧ ¬ (q <+: r)) →
    lookupT B' q = lookupT B q := by
  intro rps
  induction rps with
  | nil =>
      intro B B' hcp q _
      simp only [copyAll, Option.some.injEq] at hcp
      cases hcp
      rfl
  | cons rr rs ih =>
      intro B B' hcp q hq
      simp only [copyAll] at hcp
      cases hsrc : lookupT src rr with
      | none => rw [hsrc] at hcp; simp at hcp
      | some sc =>
          rw [hsrc] at hcp
          obtain ⟨h1, h2⟩ := hq rr (List.mem_cons_self rr rs)
          cases sc with
          | dir sesrr =>
              have hcp2 : (match copyDirAtT (.dir sesrr) B rr with
                  | none => none
                  | some B1 => copyAll src B1 rs) = some B' := hcp
              cases hstep : copyDirAtT (.dir sesrr) B rr with
              | none => rw [hstep] at hcp2; simp at hcp2
              | some B1 =>
                  rw [hstep] at hcp2
                  rw [ih B1 B' hcp2 q (fun r hr => hq r (List.mem_cons_of_mem rr hr))]
                  exact copyDirAtT_untouched (.dir sesrr) B B1 rr hstep q h1 h2
          | file content =>
              have hcp2 : (match setFileT B rr content with
                  | none => none
                  | some B1 => copyAll src B1 rs) = some B' := hcp
              cases hstep : setFileT B rr content with
              | none => rw [hstep] at hcp2; simp at hcp2
              | some B1 =>
                  rw [hstep] at hcp2
                  rw [ih B1 B' hcp2 q (fun r hr => hq r (List.mem_cons_of_mem rr hr))]
                  exact setFileT_untouched content B B1 rr hstep q h1 h2

theorem copyAll_src_exists (src : FSTree) : ∀ (rps : List (List String)) (B B' : FSTree),
    copyAll src B rps = some B' → ∀ r ∈ rps, lookupT src r ≠ none := by
  intro rps
  induction rps with
  | nil => intro B B' _ r hr; simp at hr
  | cons rr rs ih =>
      intro B B' hcp r hr
      simp only [copyAll] at hcp
      cases hsrc : lookupT src rr with
      | none => rw [hsrc] at hcp; simp at hcp
      | some sc =>
          rw [hsrc] at hcp
          rcases List.mem_cons.mp hr with h1 | h2
          · subst h1; rw [hsrc]; simp
          · cases sc with
            | dir sesrr =>
                have hcp2 : (match copyDirAtT (.dir sesrr) B rr with
                    | none => none
                    | some B1 => copyAll src B1 rs) = some B' := hcp
                cases hstep : copyDirAtT (.dir sesrr) B rr with
                | none => rw [hstep] at hcp2; simp at hcp2
                | some B1 =>
                    rw [hstep] at hcp2
                    exact ih B1 B' hcp2 r h2
            | file content =>
                have hcp2 : (match setFileT B rr content with
                    | none => none
                    | some B1 => copyAll src B1 rs) = some B' := hcp
                cases hstep : setFileT B rr content with
                | none => rw [hstep] at hcp2; simp at hcp2
                | some B1 =>
                    rw [hstep] at hcp2
                    exact ih B1 B' hcp2 r h2

theorem copyAll_root_dir (src : FSTree) : ∀ (rps : List (List String)) (B B' : FSTree),
    copyAll src B rps = some B' → (∃ d, B = .dir d) → ∃ d', B' = .dir d' := by
  intro rps
  induction rps with
  | nil =>
      intro B B' hcp hB
      simp only [copyAll, Option.some.injEq] at hcp
      cases hcp
      exact hB
  | cons rr rs ih =>
      intro B B' hcp hB
      simp only [copyAll] at hcp
      cases hsrc : lookupT src rr with
      | none => rw [hsrc] at hcp; simp at hcp
      | some sc =>
          rw [hsrc] at hcp
          cases sc with
          | dir sesrr =>
              have hcp2 : (match copyDirAtT (.dir sesrr) B rr with
                  | none => none
                  | some B1 => copyAll src B1 rs) = some B' := hcp
              cases hstep : copyDirAtT (.dir sesrr) B rr with
              | none => rw [hstep] at hcp2; simp at hcp2
              | some B1 =>
                  rw [hstep] at hcp2
                  refine ih B1 B' hcp2 ?_
                  cases rr with
                  | nil =>
                      have : copyDirT (.dir sesrr) (some B) = some B1 := by
                        cases B <;> exact hstep
                      exact copyDirT_dir _ _ _ this
                  | cons n rest =>
                      cases B with
                      | file f => simp [copyDirAtT] at hstep
                      | dir es =>
                          simp only [copyDirAtT] at hstep
                          cases hrec : copyDirAtE (.dir sesrr) es n rest with
                          | none => rw [hrec] at hstep; simp at hstep
                          | some es' =>
                              rw [hrec] at hstep
                              simp only [Option.map_some', Option.some.injEq] at hstep
                              exact ⟨es', hstep.symm⟩
          | file content =>
              have hcp2 : (match setFileT B rr content with
                  | none => none
                  | some B1 => copyAll src B1 rs) = some B' := hcp
              cases hstep : setFileT B rr content with
              | none => rw [hstep] at hcp2; simp at hcp2
              | some B1 =>
                  rw [hstep] at hcp2
                  refine ih B1 B' hcp2 ?_
                  cases B with
                  | file f => cases rr <;> simp [setFileT] at hstep
                  | dir es =>
                      cases rr with
                      | nil => simp [setFileT] at hstep
                      | cons n rest =>
                          simp only [setFileT] at hstep
                          cases hrec : setFileE es n rest content with
                          | none => rw [hrec] at hstep; simp at hstep
                          | some es' =>
                              rw [hrec] at hstep
                              simp only [Option.map_some', Option.some.injEq] at hstep
                              exact ⟨es', hstep.symm⟩

/-- A second `copyAll` run from any kind-submap of the first run's final
state stays below that final state, kind for kind: the final state is
merge-saturated at every listed path, so re-copying cannot raise anything
above it. -/
theorem copyAll_subK (src D1 : FSTree) (hnds : nodupT src = true) :
    ∀ (rps : List (List String)) (B B' : FSTree),
    copyAll src B rps = some B' →
    (∀ r ∈ rps, SatAt src D1 r) →
    (∀ q x, lookupT B q = some x → ∃ y, lookupT D1 q = some y ∧ kindOf x = kindOf y) →
    (∀ q x, lookupT B' q = some x → ∃ y, lookupT D1 q = some y ∧ kindOf x = kindOf y) := by
  intro rps
  induction rps with
  | nil =>
      intro B B' hcp _ hinv
      simp only [copyAll, Option.some.injEq] at hcp
      cases hcp
      exact hinv
  | cons rr rs ih =>
      intro B B' hcp hall hinv
      simp only [copyAll] at hcp
      cases hsrc : lookupT src rr with
      | none => rw [hsrc] at hcp; simp at hcp
      | some sc =>
          rw [hsrc] at hcp
          have hSrr := hall rr (List.mem_cons_self rr rs)
          cases sc with
          | file content =>
              have hcp2 : (match setFileT B rr content with
                  | none => none
                  | some B1 => copyAll src B1 rs) = some B' := hcp
              cases hstep : setFileT B rr content with
              | none => rw [hstep] at hcp2; simp at hcp2
              | some B1 =>
                  rw [hstep] at hcp2
                  refine ih B1 B' hcp2 (fun r hr => hall r (List.mem_cons_of_mem rr hr)) ?_
                  intro q x hx
                  cases x with
                  | file f =>
                      rcases setFileT_new_file B B1 rr content hstep q f hx with ⟨h1, h2⟩ | hold
                      · subst h1
                        subst h2
                        exact ⟨.file f, hSrr.1 f hsrc, rfl⟩
                      · exact hinv q (.file f) hold
                  | dir es2 =>
                      by_cases hq0 : q = []
                      · subst hq0
                        rw [lookupT_nil] at hx
                        cases hx
                        cases B with
                        | file f => cases rr <;> simp [setFileT] at hstep
                        | dir es0 =>
                            obtain ⟨y, hy, hk⟩ := hinv [] (.dir es0) (lookupT_nil _)
                            exact ⟨y, hy, by rw [← hk]; rfl⟩
                      · rcases setFileT_new_dir B B1 rr content hstep q es2 hq0 hx with
                          ⟨h1, h2⟩ | ⟨es3, hold⟩
                        · obtain ⟨d, hd⟩ := hSrr.2.2 q h1 h2
                          exact ⟨.dir d, hd, rfl⟩
                        · obtain ⟨y, hy, hk⟩ := hinv q (.dir es3) hold
                          exact ⟨y, hy, by rw [← hk]; rfl⟩
          | dir sesrr =>
              have hcp2 : (match copyDirAtT (.dir sesrr) B rr with
                  | none => none
                  | some B1 => copyAll src B1 rs) = some B' := hcp
              cases hstep : copyDirAtT (.dir sesrr) B rr with
              | none => rw [hstep] at hcp2; simp at hcp2
              | some B1 =>
                  rw [hstep] at hcp2
                  refine ih B1 B' hcp2 (fun r hr => hall r (List.mem_cons_of_mem rr hr)) ?_
                  obtain ⟨X, hX, hSatX⟩ := hSrr.2.1 sesrr hsrc
                  obtain ⟨MB, hMB, hMBr⟩ := copyDirAtT_at (.dir sesrr) B B1 rr hstep
                  have hndrr : nodupE sesrr = true := nodup_lookupT src hnds rr (.dir sesrr) hsrc
                  obtain ⟨MC, hMC, hMCX⟩ := Sat_merge sesrr X hSatX hndrr
                  have hsubB : subKO (lookupT B rr) (some X) := by
                    cases hbb : lookupT B rr with
                    | none => simp [subKO]
                    | some bt =>
                        show subK bt X
                        intro w xw hxw
                        have hBw : lookupT B (rr ++ w) = some xw := by
                          rw [lookup_append, hbb]
                          simpa using hxw
                        obtain ⟨y, hy, hk⟩ := hinv (rr ++ w) xw hBw
                        rw [lookup_append, hX] at hy
                        exact ⟨y, by simpa using hy, hk⟩
                  have hmono : subK MB MC := copyDirT_mono (.dir sesrr) (lookupT B rr) (some X)
                    MB MC hMB hMC (by exact hndrr) hsubB
                  intro q x hx
                  by_cases hcov : rr <+: q
                  · obtain ⟨w, hw⟩ := hcov
                    have hxw : lookupT MB w = some x := by
                      have h2 : lookupT B1 (rr ++ w) = some x := by rw [hw]; exact hx
                      rw [lookup_append, hMBr] at h2
                      simpa using h2
                    obtain ⟨x2, hx2, hk2⟩ := hmono w x hxw
                    have := hMCX w
                    rw [hx2] at this
                    cases hX3 : lookupT X w with
                    | none => rw [hX3] at this; simp at this
                    | some x3 =>
                        rw [hX3] at this
                        simp only [Option.map_some', Option.some.injEq] at this
                        refine ⟨x3, ?_, ?_⟩
                        · rw [← hw, lookup_append, hX]
                          simpa using hX3
                        · rw [hk2, this]
                  · by_cases hund : q <+: rr
                    · by_cases hq0 : q = []
                      · subst hq0
                        rw [lookupT_nil] at hx
                        cases hx
                        have hrrne : rr ≠ [] := by
                          intro hc
                          subst hc
                          exact hcov List.prefix_rfl
                        have hB1dir : ∃ d', B1 = FSTree.dir d' := by
                          cases rr with
                          | nil => exact absurd rfl hrrne
                          | cons n rest =>
                              cases B with
                              | file f => simp [copyDirAtT] at hstep
                              | dir es0 =>
                                  simp only [copyDirAtT] at hstep
                                  cases hrec : copyDirAtE (.dir sesrr) es0 n rest with
                                  | none => rw [hrec] at hstep; simp at hstep
                                  | some es' =>
                                      rw [hrec] at hstep
                                      simp only [Option.map_some', Option.some.injEq] at hstep
                                      exact ⟨es', hstep.symm⟩
                        obtain ⟨d', hd'⟩ := hB1dir
                        obtain ⟨y, hy, hk⟩ := hinv [] B (lookupT_nil _)
                        have hBdir : kindOf B = none := by
                          cases rr with
                          | nil => exact absurd rfl hrrne
                          | cons n rest =>
                              cases B with
                              | file f => simp [copyDirAtT] at hstep
                              | dir es0 => rfl
                        refine ⟨y, hy, ?_⟩
                        rw [hd']
                        show (none : Option String) = kindOf y
                        rw [← hk, hBdir]
                      · obtain ⟨d, hd⟩ := copyDirAtT_chain (.dir sesrr) B B1 rr hstep q hund
                          (fun hc => hcov (hc ▸ List.prefix_rfl))
                        rw [hd] at hx
                        cases hx
                        obtain ⟨d2, hd2⟩ := hSrr.2.2 q hund (fun hc => hcov (hc ▸ List.prefix_rfl))
                        exact ⟨.dir d2, hd2, rfl⟩
                    · have hfr := copyDirAtT_untouched (.dir sesrr) B B1 rr hstep q hcov hund
                      rw [hfr] at hx
                      exact hinv q x hx

theorem kind_frame_ne_none (B1 B' : FSTree) (q : List String)
    (hk : (lookupT B' q).map kindOf = (lookupT B1 q).map kindOf)
    (hne : lookupT B1 q ≠ none) : lookupT B' q ≠ none := by
  intro hc
  rw [hc] at hk
  cases hl : lookupT B1 q with
  | none => exact hne hl
  | some c => rw [hl] at hk; simp at hk

theorem copyAll_shadow_exists (src : FSTree) (hnds : nodupT src = true) :
    ∀ (rps : List (List String)) (B B' : FSTree),
    copyAll src B rps = some B' → ∀ q, lookupT src q ≠ none →
    (∃ r, r ∈ rps ∧ r <+: q) → lookupT B' q ≠ none := by
  intro rps
  induction rps with
  | nil =>
      intro B B' _ q _ hcov
      obtain ⟨r, hr, _⟩ := hcov
      simp at hr
  | cons rr rs ih =>
      intro B B' hcp q hsrcq hcov
      simp only [copyAll] at hcp
      cases hsrc : lookupT src rr with
      | none => rw [hsrc] at hcp; simp at hcp
      | some sc =>
          rw [hsrc] at hcp
          cases sc with
          | file content =>
              have hcp2 : (match setFileT B rr content with
                  | none => none
                  | some B1 => copyAll src B1 rs) = some B' := hcp
              cases hstep : setFileT B rr content with
              | none => rw [hstep] at hcp2; simp at hcp2
              | some B1 =>
                  rw [hstep] at hcp2
                  by_cases hcrs : ∃ r, r ∈ rs ∧ r <+: q
                  · exact ih B1 B' hcp2 q hsrcq hcrs
                  · obtain ⟨r, hr, hrq⟩ := hcov
                    have hrrq : rr <+: q := by
                      rcases List.mem_cons.mp hr with h1 | h2
                      · exact h1 ▸ hrq
                      · exact absurd ⟨r, h2, hrq⟩ hcrs
                    have hqrr : q = rr := by
                      by_cases hne : rr = q
                      · exact hne.symm
                      · exact absurd (lookup_below_file src rr q content hsrc hrrq hne) hsrcq
                    have hB1 : lookupT B1 q ≠ none := by
                      rw [hqrr, setFileT_self B B1 rr content hstep]
                      simp
                    refine kind_frame_ne_none B1 B' q ?_ hB1
                    exact copyAll_kind_frame src rs B1 B' hcp2 q
                      (fun r' hr' hpre => hcrs ⟨r', hr', hpre⟩) hB1
          | dir sesrr =>
              have hcp2 : (match copyDirAtT (.dir sesrr) B rr with
                  | none => none
                  | some B1 => copyAll src B1 rs) = some B' := hcp
              cases hstep : copyDirAtT (.dir sesrr) B rr with
              | none => rw [hstep] at hcp2; simp at hcp2
              | some B1 =>
                  rw [hstep] at hcp2
                  by_cases hcrs : ∃ r, r ∈ rs ∧ r <+: q
                  · exact ih B1 B' hcp2 q hsrcq hcrs
                  · obtain ⟨r, hr, hrq⟩ := hcov
                    have hrrq : rr <+: q := by
                      rcases List.mem_cons.mp hr with h1 | h2
                      · exact h1 ▸ hrq
                      · exact absurd ⟨r, h2, hrq⟩ hcrs
                    obtain ⟨u, hu⟩ := hrrq
                    have hndrr : nodupE sesrr = true :=
                      nodup_lookupT src hnds rr (.dir sesrr) hsrc
                    obtain ⟨MB, hMB, hMBr⟩ := copyDirAtT_at (.dir sesrr) B B1 rr hstep
                    have hsrcu : ∃ y, lookupT (.dir sesrr) u = some y := by
                      cases hy : lookupT src q with
                      | none => exact absurd hy hsrcq
                      | some y =>
                          refine ⟨y, ?_⟩
                          rw [← hu, lookup_append, hsrc] at hy
                          simpa using hy
                    obtain ⟨y, hy⟩ := hsrcu
                    obtain ⟨x, hx, _⟩ := copyDirT_dominates (.dir sesrr) (lookupT B rr) MB
                      hMB hndrr u y hy
                    have hB1 : lookupT B1 q ≠ none := by
                      rw [← hu, lookup_append, hMBr]
                      simp only [Option.some_bind]
                      rw [hx]
                      simp
                    refine kind_frame_ne_none B1 B' q ?_ hB1
                    exact copyAll_kind_frame src rs B1 B' hcp2 q
                      (fun r' hr' hpre => hcrs ⟨r', hr', hpre⟩) hB1

theorem copyAll_chain_exists (src : FSTree) (hnds : nodupT src = true) :
    ∀ (rps : List (List String)) (B B' : FSTree),
    copyAll src B rps = some B' → ∀ q, lookupT src q ≠ none →
    (∃ r, r ∈ rps ∧ q <+: r ∧ q ≠ r) → lookupT B' q ≠ none := by
  intro rps
  induction rps with
  | nil =>
      intro B B' _ q _ hcov
      obtain ⟨r, hr, _⟩ := hcov
      simp at hr
  | cons rr rs ih =>
      intro B B' hcp q hsrcq hcov
      simp only [copyAll] at hcp
      cases hsrc : lookupT src rr with
      | none => rw [hsrc] at hcp; simp at hcp
      | some sc =>
          rw [hsrc] at hcp
          cases sc with
          | file content =>
              have hcp2 : (match setFileT B rr content with
                  | none => none
                  | some B1 => copyAll src B1 rs) = some B' := hcp
              cases hstep : setFileT B rr content with
              | none => rw [hstep] at hcp2; simp at hcp2
              | some B1 =>
                  rw [hstep] at hcp2
                  by_cases hcr1 : ∃ r, r ∈ rs ∧ r <+: q
                  · exact copyAll_shadow_exists src hnds rs B1 B' hcp2 q hsrcq hcr1
                  by_cases hcr2 : ∃ r, r ∈ rs ∧ q <+: r ∧ q ≠ r
                  · exact ih B1 B' hcp2 q hsrcq hcr2
                  obtain ⟨r, hr, hqr, hqe⟩ := hcov
                  have hqrr : q <+: rr ∧ q ≠ rr := by
                    rcases List.mem_cons.mp hr with h1 | h2
                    · exact h1 ▸ ⟨hqr, hqe⟩
                    · exact absurd ⟨r, h2, hqr, hqe⟩ hcr2
                  obtain ⟨d, hd⟩ := setFileT_chain content B B1 rr hstep q hqrr.1 hqrr.2
                  have hB1 : lookupT B1 q ≠ none := by rw [hd]; simp
                  refine kind_frame_ne_none B1 B' q ?_ hB1
                  exact copyAll_kind_frame src rs B1 B' hcp2 q
                    (fun r' hr' hpre => hcr1 ⟨r', hr', hpre⟩) hB1
          | dir sesrr =>
              have hcp2 : (match copyDirAtT (.dir sesrr) B rr with
                  | none => none
                  | some B1 => copyAll src B1 rs) = some B' := hcp
              cases hstep : copyDirAtT (.dir sesrr) B rr with
              | none => rw [hstep] at hcp2; simp at hcp2
              | some B1 =>
                  rw [hstep] at hcp2
                  by_cases hcr1 : ∃ r, r ∈ rs ∧ r <+: q
                  · exact copyAll_shadow_exists src hnds rs B1 B' hcp2 q hsrcq hcr1
                  by_cases hcr2 : ∃ r, r ∈ rs ∧ q <+: r ∧ q ≠ r
                  · exact ih B1 B' hcp2 q hsrcq hcr2
                  obtain ⟨r, hr, hqr, hqe⟩ := hcov
                  have hqrr : q <+: rr ∧ q ≠ rr := by
                    rcases List.mem_cons.mp hr with h1 | h2
                    · exact h1 ▸ ⟨hqr, hqe⟩
                    · exact absurd ⟨r, h2, hqr, hqe⟩ hcr2
                  obtain ⟨d, hd⟩ := copyDirAtT_chain (.dir sesrr) B B1 rr hstep q hqrr.1 hqrr.2
                  have hB1 : lookupT B1 q ≠ none := by rw [hd]; simp
                  refine kind_frame_ne_none B1 B' q ?_ hB1
                  exact copyAll_kind_frame src rs B1 B' hcp2 q
                    (fun r' hr' hpre => hcr1 ⟨r', hr', hpre⟩) hB1

theorem copyAll_shape_survives (src : FSTree) (hnds : nodupT src = true) :
    ∀ (rps : List (List String)) (B B' : FSTree),
    copyAll src B rps = some B' → ∀ q,
    (∀ r u, r ∈ rps → r ++ u = q → u ≠ [] →
        ∃ sesr, lookupT src r = some (.dir sesr) ∧ shapeOK (.dir sesr) u) →
    lookupT B q ≠ none → lookupT B' q ≠ none := by
  intro rps
  induction rps with
  | nil =>
      intro B B' hcp q _ hB
      simp only [copyAll, Option.some.injEq] at hcp
      cases hcp
      exact hB
  | cons rr rs ih =>
      intro B B' hcp q hsha hB
      simp only [copyAll] at hcp
      cases hsrc : lookupT src rr with
      | none => rw [hsrc] at hcp; simp at hcp
      | some sc =>
          rw [hsrc] at hcp
          cases sc with
          | file content =>
              have hcp2 : (match setFileT B rr content with
                  | none => none
                  | some B1 => copyAll src B1 rs) = some B' := hcp
              cases hstep : setFileT B rr content with
              | none => rw [hstep] at hcp2; simp at hcp2
              | some B1 =>
                  rw [hstep] at hcp2
                  have hB1 : lookupT B1 q ≠ none := by
                    by_cases hcov : rr <+: q
                    · obtain ⟨u, hu⟩ := hcov
                      cases u with
                      | nil =>
                          rw [List.append_nil] at hu
                          subst hu
                          rw [setFileT_self B B1 rr content hstep]
                          simp
                      | cons v vs =>
                          exfalso
                          obtain ⟨sesr, hsesr, _⟩ := hsha rr (v :: vs)
                            (List.mem_cons_self rr rs) hu (by simp)
                          rw [hsrc] at hsesr
                          exact FSTree.noConfusion (Option.some.inj hsesr)
                    · exact kind_frame_ne_none B B1 q
                        (setFileT_kind_frame B B1 rr content hstep q hcov hB) hB
                  exact ih B1 B' hcp2 q
                    (fun r u hr => hsha r u (List.mem_cons_of_mem rr hr)) hB1
          | dir sesrr =>
              have hcp2 : (match copyDirAtT (.dir sesrr) B rr with
                  | none => none
                  | some B1 => copyAll src B1 rs) = some B' := hcp
              cases hstep : copyDirAtT (.dir sesrr) B rr with
              | none => rw [hstep] at hcp2; simp at hcp2
              | some B1 =>
                  rw [hstep] at hcp2
                  have hndrr : nodupE sesrr = true :=
                    nodup_lookupT src hnds rr (.dir sesrr) hsrc
                  have hB1 : lookupT B1 q ≠ none := by
                    by_cases hcov : rr <+: q
                    · obtain ⟨u, hu⟩ := hcov
                      obtain ⟨MB, hMB, hMBr⟩ := copyDirAtT_at (.dir sesrr) B B1 rr hstep
                      cases u with
                      | nil =>
                          rw [List.append_nil] at hu
                          subst hu
                          rw [hMBr]
                          simp
                      | cons v vs =>
                          obtain ⟨sesr, hsesr, hshape⟩ := hsha rr (v :: vs)
                            (List.mem_cons_self rr rs) hu (by simp)
                          rw [hsrc] at hsesr
                          have hse : sesr = sesrr := FSTree.dir.inj (Option.some.inj hsesr).symm
                          subst hse
                          cases hx : lookupT B q with
                          | none => exact absurd hx hB
                          | some x =>
                              have hx2 := hx
                              rw [← hu, lookup_append] at hx2
                              cases hbt : lookupT B rr with
                              | none => rw [hbt] at hx2; exact Option.noConfusion hx2
                              | some bt =>
                                  rw [hbt] at hx2
                                  simp only [Option.some_bind] at hx2
                                  rw [hbt] at hMB
                                  have hkeep := copyDirT_keeps (.dir sesr) bt MB hMB hndrr
                                    (v :: vs) x hshape hx2
                                  rw [← hu, lookup_append, hMBr]
                                  simp only [Option.some_bind]
                                  rw [hkeep]
                                  simp
                    · exact kind_frame_ne_none B B1 q
                        (copyDirAtT_frame (.dir sesrr) B B1 rr hstep q hcov hB) hB
                  exact ih B1 B' hcp2 q
                    (fun r u hr => hsha r u (List.mem_cons_of_mem rr hr)) hB1

/-- A node's own preservation reason, as a function of its path and of
whether it is a directory: hidden or matching name, or — directories — one
of the step-3 pattern forms. -/
def nodeHitB (dirSegs E q : List String) (isDir : Bool) : Bool :=
  localHit dirSegs E (dirSegs ++ q) ||
    (isDir && dirSpecialHit E (relString dirSegs (dirSegs ++ q)))

def isDirB : FSTree → Bool
  | .file _ => false
  | .dir _ => true

mutual
theorem anyLocalT_witness (dirSegs E : List String) : ∀ (c : FSTree) (rel : List String),
    nodupT c = true → anyLocalT dirSegs E rel c = true →
    ∃ w c', lookupT c w = some c' ∧
      nodeHitB dirSegs E (rel ++ w) (isDirB c') = true := by
  intro c rel hnd h
  cases c with
  | file f =>
      refine ⟨[], .file f, lookupT_nil _, ?_⟩
      unfold nodeHitB isDirB
      rw [List.append_nil]
      simp only [anyLocalT] at h
      rw [h]
      rfl
  | dir es =>
      simp only [anyLocalT, Bool.or_eq_true] at h
      rcases h with h1 | h2
      · refine ⟨[], .dir es, lookupT_nil _, ?_⟩
        unfold nodeHitB isDirB
        rw [List.append_nil]
        rcases h1 with ha | hb
        · rw [ha]; rfl
        · rw [hb]; simp
      · obtain ⟨w, c', hl, _, hhit⟩ := anyLocalE_witness dirSegs E es rel hnd h2
        exact ⟨w, c', hl, hhit⟩
theorem anyLocalE_witness (dirSegs E : List String) : ∀ (es : FSEntries) (rel : List String),
    nodupE es = true → anyLocalE dirSegs E rel es = true →
    ∃ w c', lookupT (.dir es) w = some c' ∧ w ≠ [] ∧
      nodeHitB dirSegs E (rel ++ w) (isDirB c') = true := by
  intro es rel hnd h
  cases es with
  | nil => simp [anyLocalE] at h
  | cons n c rest =>
      obtain ⟨hn, hc, hrest⟩ := (nodupE_cons_iff n c rest).mp hnd
      simp only [anyLocalE, Bool.or_eq_true] at h
      rcases h with h1 | h2
      · obtain ⟨w', c', hl, hhit⟩ := anyLocalT_witness dirSegs E c (rel ++ [n]) hc h1
        refine ⟨n :: w', c', ?_, by simp, ?_⟩
        · show lookupE (.cons n c rest) n w' = some c'
          simp only [lookupE, if_pos rfl]
          exact hl
        · rw [show rel ++ n :: w' = (rel ++ [n]) ++ w' by simp]
          exact hhit
      · obtain ⟨w, c', hl, hw, hhit⟩ := anyLocalE_witness dirSegs E rest rel hrest h2
        cases w with
        | nil => exact absurd rfl hw
        | cons m w'' =>
            have hm : m ∈ namesE rest := lookupE_mem_names m w'' c' rest hl
            have hnm : ¬ n = m := fun hc2 => hn (hc2 ▸ hm)
            refine ⟨m :: w'', c', ?_, by simp, hhit⟩
            show lookupE (.cons n c rest) m w'' = some c'
            simp only [lookupE, if_neg hnm]
            exact hl
end

mutual
theorem anyLocalT_intro (dirSegs E : List String) : ∀ (w : List String) (c c' : FSTree)
    (rel : List String), lookupT c w = some c' →
    nodeHitB dirSegs E (rel ++ w) (isDirB c') = true → anyLocalT dirSegs E rel c = true := by
  intro w c c' rel hl hhit
  cases w with
  | nil =>
      rw [lookupT_nil] at hl
      cases hl
      cases c with
      | file f =>
          unfold nodeHitB isDirB at hhit
          rw [List.append_nil] at hhit
          simp only [Bool.and_false, Bool.or_false] at hhit
          simpa [anyLocalT] using hhit
      | dir es =>
          unfold nodeHitB isDirB at hhit
          rw [List.append_nil] at hhit
          simp only [Bool.true_and, Bool.or_eq_true] at hhit
          simp only [anyLocalT, Bool.or_eq_true]
          rcases hhit with h1 | h2
          · exact Or.inl (Or.inl h1)
          · exact Or.inl (Or.inr h2)
  | cons n w' =>
      cases c with
      | file f => simp [lookupT] at hl
      | dir es =>
          simp only [anyLocalT, Bool.or_eq_true]
          refine Or.inr (anyLocalE_intro dirSegs E n w' es c' rel hl ?_)
          rw [show (rel ++ [n]) ++ w' = rel ++ n :: w' by simp]
          exact hhit
theorem anyLocalE_intro (dirSegs E : List String) : ∀ (n : String) (w' : List String)
    (es : FSEntries) (c' : FSTree) (rel : List String), lookupE es n w' = some c' →
    nodeHitB dirSegs E ((rel ++ [n]) ++ w') (isDirB c') = true →
    anyLocalE dirSegs E rel es = true := by
  intro n w' es c' rel hl hhit
  cases es with
  | nil => simp [lookupE] at hl
  | cons m c rest =>
      simp only [anyLocalE, Bool.or_eq_true]
      by_cases hmn : m = n
      · subst hmn
        simp only [lookupE, if_pos rfl] at hl
        exact Or.inl (anyLocalT_intro dirSegs E w' c c' (rel ++ [m]) hl hhit)
      · simp only [lookupE, if_neg hmn] at hl
        exact Or.inr (anyLocalE_intro dirSegs E n w' rest c' rel hl hhit)
end

/-! ## Claim C3: idempotence of clean + copy -/

theorem kindOf_filterT (K : List String → Bool) (rel : List String) (c : FSTree) :
    kindOf (filterT K rel c) = kindOf c := by
  cases c <;> rfl

theorem isDirB_filterT (K : List String → Bool) (rel : List String) (c : FSTree) :
    isDirB (filterT K rel c) = isDirB c := by
  cases c <;> rfl

theorem clear_kind_sub (dirSegs E : List String) (D1 : FSTree) (hnd : nodupT D1 = true) :
    ∀ q x, lookupT (clearDestinationDir dirSegs E D1) q = some x →
      ∃ y, lookupT D1 q = some y ∧ kindOf x = kindOf y := by
  intro q x hx
  rw [clearDest_eq_filter dirSegs E D1 hnd,
    lookup_filterT (P0at dirSegs E D1) D1 hnd [] q] at hx
  cases hl : lookupT D1 q with
  | none => rw [hl] at hx; exact absurd hx (by simp)
  | some c =>
      rw [hl] at hx
      have hx2 : (if chainK (P0at dirSegs E D1) [] q = true then
          some (filterT (P0at dirSegs E D1) ([] ++ q) c) else none) = some x := hx
      by_cases hch : chainK (P0at dirSegs E D1) [] q = true
      · rw [if_pos hch] at hx2
        refine ⟨c, rfl, ?_⟩
        rw [← Option.some.inj hx2]
        exact kindOf_filterT _ _ c
      · rw [if_neg hch] at hx2
        exact absurd hx2 (by simp)

theorem clear_lookup_some (dirSegs E : List String) (t : FSTree) (ht : nodupT t = true)
    (p : List String) (c : FSTree) (hl : lookupT t p = some c)
    (hch : chainK (P0at dirSegs E t) [] p = true) :
    lookupT (clearDestinationDir dirSegs E t) p =
      some (filterT (P0at dirSegs E t) ([] ++ p) c) := by
  rw [clearDest_eq_filter dirSegs E t ht, lookup_filterT (P0at dirSegs E t) t ht [] p, hl]
  have h2 : (if chainK (P0at dirSegs E t) [] p = true then
      some (filterT (P0at dirSegs E t) ([] ++ p) c) else none) =
      some (filterT (P0at dirSegs E t) ([] ++ p) c) := if_pos hch
  exact h2

theorem preservedP_of_shape (dirSegs E q : List String) (c1 : FSTree)
    (r a0 : List String) (hseg : String) (b : List String)
    (hq : q = r ++ (a0 ++ hseg :: b)) (hh : isHiddenName hseg = true) :
    preservedP dirSegs E q c1 = true := by
  cases b with
  | nil =>
      have hq2 : q = (r ++ a0) ++ [hseg] := by rw [hq]; simp
      have hloc : localHit dirSegs E (dirSegs ++ q) = true := by
        unfold localHit
        have hls : lastSeg (dirSegs ++ q) = hseg := by
          rw [hq2, show dirSegs ++ ((r ++ a0) ++ [hseg]) =
            (dirSegs ++ (r ++ a0)) ++ [hseg] by simp]
          rw [lastSeg_append (dirSegs ++ (r ++ a0)) [hseg] (by simp)]
          simp [lastSeg]
        rw [hls, hh]
        rfl
      have hany : anyLocalT dirSegs E q c1 = true := by
        refine anyLocalT_intro dirSegs E [] c1 c1 q (lookupT_nil c1) ?_
        unfold nodeHitB
        rw [List.append_nil, hloc]
        rfl
      unfold preservedP
      rw [hany, Bool.or_true]
  | cons b0 bs =>
      have hanc : ancLocal dirSegs E q = true := by
        unfold ancLocal
        rw [List.any_eq_true]
        refine ⟨dirSegs ++ (r ++ a0 ++ [hseg]), ?_, ?_⟩
        · apply mem_properPrefixes
          · exact ⟨b0 :: bs, by rw [hq]; simp⟩
          · simp
          · intro hc
            have hlen := congrArg List.length hc
            rw [hq] at hlen
            simp at hlen
        · unfold localHit
          have hls : lastSeg (dirSegs ++ (r ++ a0 ++ [hseg])) = hseg := by
            rw [show dirSegs ++ (r ++ a0 ++ [hseg]) =
              (dirSegs ++ (r ++ a0)) ++ [hseg] by simp]
            rw [lastSeg_append (dirSegs ++ (r ++ a0)) [hseg] (by simp)]
            simp [lastSeg]
          rw [hls, hh]
          rfl
      unfold preservedP
      rw [hanc]
      rfl

theorem shape_from_SatAt (src D1 : FSTree) (q : List String) (c1 : FSTree)
    (hD1q : lookupT D1 q = some c1) (hsq : lookupT src q = none)
    (r u : List String) (hru : r ++ u = q) (hu : u ≠ [])
    (hS : SatAt src D1 r) (hsr : lookupT src r ≠ none) :
    ∃ sesr, lookupT src r = some (.dir sesr) ∧ shapeOK (.dir sesr) u := by
  cases hsrc : lookupT src r with
  | none => exact absurd hsrc hsr
  | some sc =>
      cases sc with
      | file cc =>
          exfalso
          have hD1r := hS.1 cc hsrc
          have h2 := hD1q
          rw [← hru, lookup_append, hD1r, Option.some_bind] at h2
          cases u with
          | nil => exact hu rfl
          | cons n rest => simp [lookupT] at h2
      | dir sesr =>
          obtain ⟨X, hX, hSat⟩ := hS.2.1 sesr hsrc
          have h2 := hD1q
          rw [← hru, lookup_append, hX, Option.some_bind] at h2
          rcases hSat.2 u c1 h2 with ⟨y, hy, _⟩ | hsh
          · exfalso
            have h3 := hsq
            rw [← hru, lookup_append, hsrc, Option.some_bind] at h3
            rw [hy] at h3
            exact Option.noConfusion h3
          · exact ⟨sesr, rfl, hsh⟩

theorem preserved_transfer (dirSegs E : List String) (t src D1 : FSTree)
    (rps : List (List String)) (ht : nodupT t = true)
    (h1 : copyAll src (clearDestinationDir dirSegs E t) rps = some D1)
    (q : List String) (hq : q ≠ [])
    (hunrel : ∀ r ∈ rps, ¬ (r <+: q) ∧ ¬ (q <+: r))
    (c1 : FSTree) (hD1q : lookupT D1 q = some c1) :
    preservedP dirSegs E q c1 = true := by
  have hun := copyAll_untouched src rps _ D1 h1 q hunrel
  rw [hD1q] at hun
  have hcl : lookupT (clearDestinationDir dirSegs E t) q = some c1 := hun.symm
  rw [clearDest_eq_filter dirSegs E t ht,
    lookup_filterT (P0at dirSegs E t) t ht [] q] at hcl
  cases hl : lookupT t q with
  | none => rw [hl] at hcl; exact absurd hcl (by simp)
  | some c0 =>
      rw [hl] at hcl
      have hcl2 : (if chainK (P0at dirSegs E t) [] q = true then
          some (filterT (P0at dirSegs E t) ([] ++ q) c0) else none) = some c1 := hcl
      by_cases hch : chainK (P0at dirSegs E t) [] q = true
      case neg => rw [if_neg hch] at hcl2; exact absurd hcl2 (by simp)
      case pos =>
      have hP := (chainK_iff (P0at dirSegs E t) q []).mp hch q hq List.prefix_rfl
      rw [List.nil_append] at hP
      unfold P0at at hP
      rw [hl] at hP
      unfold preservedP at hP
      rw [Bool.or_eq_true] at hP
      rcases hP with hanc | hany
      · unfold preservedP
        rw [hanc]
        rfl
      · have hnc0 : nodupT c0 = true := nodup_lookupT t ht q c0 hl
        obtain ⟨w, c', hlw, hhit⟩ := anyLocalT_witness dirSegs E c0 q hnc0 hany
        have htqw : lookupT t (q ++ w) = some c' := by
          rw [lookup_append, hl, Option.some_bind]
          exact hlw
        have hpres' : preservedP dirSegs E (q ++ w) c' = true := by
          have hany' : anyLocalT dirSegs E (q ++ w) c' = true := by
            refine anyLocalT_intro dirSegs E [] c' c' (q ++ w) (lookupT_nil c') ?_
            rw [List.append_nil]
            exact hhit
          unfold preservedP
          rw [hany', Bool.or_true]
        have hch' : chainK (P0at dirSegs E t) [] (q ++ w) = true := by
          rw [chainK_iff]
          intro s' hne hpre
          rw [List.nil_append]
          exact P0at_prefix_true dirSegs E t (q ++ w) c' htqw hpres' s' hne hpre
        have hclw := clear_lookup_some dirSegs E t ht (q ++ w) c' htqw hch'
        have hunrel' : ∀ r ∈ rps, ¬ (r <+: q ++ w) ∧ ¬ (q ++ w <+: r) := by
          intro r hr
          obtain ⟨hu1, hu2⟩ := hunrel r hr
          constructor
          · intro hc
            rcases List.prefix_or_prefix_of_prefix hc (List.prefix_append q w) with h1' | h1'
            · exact hu1 h1'
            · exact hu2 h1'
          · intro hc
            exact hu2 ((List.prefix_append q w).trans hc)
        have hun2 := copyAll_untouched src rps _ D1 h1 (q ++ w) hunrel'
        rw [hclw] at hun2
        have hD1w : lookupT c1 w =
            some (filterT (P0at dirSegs E t) ([] ++ (q ++ w)) c') := by
          have h3 := hun2
          rw [lookup_append, hD1q, Option.some_bind] at h3
          exact h3
        have hany1 : anyLocalT dirSegs E q c1 = true := by
          refine anyLocalT_intro dirSegs E w c1 _ q hD1w ?_
          rw [isDirB_filterT]
          exact hhit
        unfold preservedP
        rw [hany1, Bool.or_true]

theorem C3main (src F0 D1 D2 : FSTree) (rps : List (List String)) (E dirSegs : List String)
    (hnds : nodupT src = true) (hndF0 : nodupT F0 = true)
    (h1 : copyAll src F0 rps = some D1)
    (hpresT : ∀ q, q ≠ [] → (∀ r ∈ rps, ¬ (r <+: q) ∧ ¬ (q <+: r)) →
       ∀ c1, lookupT D1 q = some c1 → preservedP dirSegs E q c1 = true)
    (h2 : copyAll src (clearDestinationDir dirSegs E D1) rps = some D2) :
    ∀ q, kindAt D2 q = kindAt D1 q := by
  have hndD1 : nodupT D1 = true := copyAll_nodup src rps F0 D1 h1 hnds hndF0
  have hSatAll : ∀ r ∈ rps, SatAt src D1 r := (copyAll_SatAt src rps F0 D1 h1 hnds).1
  have hsub : ∀ p x, lookupT (clearDestinationDir dirSegs E D1) p = some x →
      ∃ y, lookupT D1 p = some y ∧ kindOf x = kindOf y := clear_kind_sub dirSegs E D1 hndD1
  have hI : ∀ p x, lookupT D2 p = some x →
      ∃ y, lookupT D1 p = some y ∧ kindOf x = kindOf y :=
    copyAll_subK src D1 hnds rps _ D2 h2 hSatAll hsub
  have hII : ∀ p, lookupT D1 p ≠ none → lookupT D2 p ≠ none := by
    intro p hne
    cases hD1p : lookupT D1 p with
    | none => exact absurd hD1p hne
    | some c1 =>
        by_cases hcov : ∃ r, r ∈ rps ∧ r <+: p
        · by_cases hsq : lookupT src p = none
          · have hqne : p ≠ [] := by
              intro h
              rw [h, lookupT_nil] at hsq
              exact Option.noConfusion hsq
            have hsha : ∀ r u, r ∈ rps → r ++ u = p → u ≠ [] →
                ∃ sesr, lookupT src r = some (.dir sesr) ∧ shapeOK (.dir sesr) u := by
              intro r u hr hru hu
              exact shape_from_SatAt src D1 p c1 hD1p hsq r u hru hu (hSatAll r hr)
                (copyAll_src_exists src rps _ D2 h2 r hr)
            obtain ⟨r, hr, hpre⟩ := hcov
            obtain ⟨u, hu⟩ := hpre
            have hune : u ≠ [] := by
              intro h
              rw [h, List.append_nil] at hu
              have hsr := copyAll_src_exists src rps _ D2 h2 r hr
              rw [hu] at hsr
              exact hsr hsq
            obtain ⟨sesr, hsesr, hshape⟩ := hsha r u hr hu hune
            obtain ⟨a0, hseg, b, hudec, _, _, hhid, _⟩ := hshape
            have hpres : preservedP dirSegs E p c1 = true := by
              refine preservedP_of_shape dirSegs E p c1 r a0 hseg b ?_ hhid
              rw [← hu, hudec]
            have hF1p : lookupT (clearDestinationDir dirSegs E D1) p ≠ none := by
              have hs := (survives_iff dirSegs E D1 hndD1 p hqne).mpr ⟨c1, hD1p, hpres⟩
              intro hc
              rw [hc] at hs
              simp at hs
            exact copyAll_shape_survives src hnds rps _ D2 h2 p hsha hF1p
          · exact copyAll_shadow_exists src hnds rps _ D2 h2 p hsq hcov
        · by_cases hdesc : ∃ r, r ∈ rps ∧ p <+: r ∧ p ≠ r
          · obtain ⟨r, hr, hqr, hne2⟩ := hdesc
            have hsr : lookupT src r ≠ none := copyAll_src_exists src rps _ D2 h2 r hr
            have hsp : lookupT src p ≠ none := by
              cases hsrc : lookupT src r with
              | none => exact absurd hsrc hsr
              | some y =>
                  obtain ⟨d, hd⟩ := lookup_prefix_dir src r p y hsrc hqr hne2
                  rw [hd]
                  exact fun hc => Option.noConfusion hc
            exact copyAll_chain_exists src hnds rps _ D2 h2 p hsp ⟨r, hr, hqr, hne2⟩
          · have hunrel : ∀ r ∈ rps, ¬ (r <+: p) ∧ ¬ (p <+: r) := by
              intro r hr
              refine ⟨fun hc => hcov ⟨r, hr, hc⟩, fun hc => ?_⟩
              by_cases he : p = r
              · exact hcov ⟨r, hr, by rw [he]⟩
              · exact hdesc ⟨r, hr, hc, he⟩
            rw [copyAll_untouched src rps _ D2 h2 p hunrel]
            by_cases hpe : p = []
            · rw [hpe, lookupT_nil]
              exact fun hc => Option.noConfusion hc
            · have hpres : preservedP dirSegs E p c1 = true := hpresT p hpe hunrel c1 hD1p
              have hs := (survives_iff dirSegs E D1 hndD1 p hpe).mpr ⟨c1, hD1p, hpres⟩
              intro hc
              rw [hc] at hs
              simp at hs
  intro q
  cases hD1 : lookupT D1 q with
  | none =>
      cases hD2 : lookupT D2 q with
      | none => rw [kindAt_eq, kindAt_eq, hD1, hD2]
      | some x =>
          obtain ⟨y, hy, _⟩ := hI q x hD2
          rw [hD1] at hy
          exact absurd hy (fun hc => Option.noConfusion hc)
  | some c1 =>
      have h2ne := hII q (by rw [hD1]; exact fun hc => Option.noConfusion hc)
      cases hD2 : lookupT D2 q with
      | none => exact absurd hD2 h2ne
      | some x =>
          obtain ⟨y, hy, hk⟩ := hI q x hD2
          rw [hD1] at hy
          have hyc : c1 = y := Option.some.inj hy
          rw [kindAt_eq, kindAt_eq, hD1, hD2]
          simp only [Option.map_some']
          rw [hk, ← hyc]

/-- C3: running `CopyFiles` with `cleanDest = true` twice in succession with
the same source, path list, exclude patterns and destination location leaves
the destination with exactly the same set of relative paths and the same
file contents (the same observable kind at every path) as running it
once. -/
theorem C3_clean_copy_idempotent (src : FSTree) (dst : Option FSTree)
    (rps : List (List String)) (E dirSegs : List String) (D1 D2 : FSTree)
    (hnds : nodupT src = true)
    (hndd : ∀ t, dst = some t → nodupT t = true)
    (h1 : CopyFiles src dst rps true E dirSegs = some D1)
    (h2 : CopyFiles src (some D1) rps true E dirSegs = some D2) :
    ∀ q, kindAt D2 q = kindAt D1 q := by
  have h2' : copyAll src (clearDestinationDir dirSegs E D1) rps = some D2 := h2
  cases dst with
  | none =>
      have h1' : copyAll src (.dir .nil) rps = some D1 := h1
      refine C3main src (.dir .nil) D1 D2 rps E dirSegs hnds rfl h1' ?_ h2'
      intro p hp hunrel c1 hc1
      exfalso
      have hun := copyAll_untouched src rps _ D1 h1' p hunrel
      rw [hc1] at hun
      cases p with
      | nil => exact hp rfl
      | cons n rest =>
          rw [show lookupT (FSTree.dir .nil) (n :: rest) = none from rfl] at hun
          exact Option.noConfusion hun
  | some t =>
      have hndt := hndd t rfl
      have h1' : copyAll src (clearDestinationDir dirSegs E t) rps = some D1 := h1
      refine C3main src (clearDestinationDir dirSegs E t) D1 D2 rps E dirSegs hnds ?_ h1' ?_ h2'
      · rw [clearDest_eq_filter dirSegs E t hndt]
        exact nodupT_filterT (P0at dirSegs E t) t [] hndt
      · intro p hp hunrel c1 hc1
        exact preserved_transfer dirSegs E t src D1 rps hndt h1' p hp hunrel c1 hc1

theorem C3_clean_copy_idempotent_witness :
    nodupT (FSTree.dir (.cons "a" (.file "x") .nil)) = true ∧
    CopyFiles (FSTree.dir (.cons "a" (.file "x") .nil))
      (some (FSTree.dir (.cons "old" (.file "y") .nil))) [["a"]] true [] ["d"]
      = some (FSTree.dir (.cons "a" (.file "x") .nil)) ∧
    CopyFiles (FSTree.dir (.cons "a" (.file "x") .nil))
      (some (FSTree.dir (.cons "a" (.file "x") .nil))) [["a"]] true [] ["d"]
      = some (FSTree.dir (.cons "a" (.file "x") .nil)) ∧
    kindAt (FSTree.dir (.cons "a" (.file "x") .nil)) ["a"]
      = kindAt (FSTree.dir (.cons "a" (.file "x") .nil)) ["a"] :=
  ⟨rfl, rfl, rfl,
    C3_clean_copy_idempotent (FSTree.dir (.cons "a" (.file "x") .nil))
      (some (FSTree.dir (.cons "old" (.file "y") .nil))) [["a"]] [] ["d"]
      (FSTree.dir (.cons "a" (.file "x") .nil)) (FSTree.dir (.cons "a" (.file "x") .nil))
      rfl (fun t ht => by rw [← Option.some.inj ht]; rfl) rfl rfl ["a"]⟩
